import Mathlib

/-!
# ROI max pooling (`paddle/gserver/layers/ROIPoolLayer.cpp`)

A shallow embedding of `ROIPoolLayer::forward` and `ROIPoolLayer::backward`.

Modelling conventions.

* `real` is a 32-bit float.  The definitions of the first part (`forward`, `backward` and
  what they are built from) compute with exact rationals (`ℚ`).  The properties of the
  specification that are stated for them do not depend on rounding: they are frame and
  conditional statements, which hold for whatever extents the arithmetic yields, or
  evaluations at concrete inputs, for which the single-precision definitions return the
  same values.  The definitions of the second part (suffix `32`) are the same code
  with every operation on `real` values rounded to single precision by `fl32`; the
  properties that depend on rounding are stated for them.
* `size_t` values are natural numbers; the additions and subtractions of the
  region geometry (lines 73, 74, 87 to 90) wrap modulo `2 ^ 64` as unsigned
  arithmetic does.  Offsets into buffers (`ph * pooledWidth_ + pw`,
  `h * width_ + w`, pointer increments) are bounded by the size of an allocated
  buffer and are not wrapped; a theorem that needs the size of a plane to be a
  `size_t` value says so (`height_ L * width_ L ≤ 2 ^ 64`).
* A conversion `real -> size_t` truncates toward zero; C++ defines it for the values in
  `(-1, 2 ^ 64)`, and a value outside that range wraps modulo `2 ^ 64` in the model.
* A buffer is a function from flat offsets to values; a pointer into a buffer is
  the offset it points at, so that `p[i]` reads offset `p + i` and `p += d` is
  `p + d`.
* `CHECK_GE` / `CHECK_LT` abort the call: `forward` returns `none`.
-/

namespace ROIPool

/-! ## Scalar conversions and unsigned arithmetic -/

/-- Reduction of an integer into the range of a 64-bit `size_t`. -/
def wrap (z : Int) : Nat := (z % (2 ^ 64 : Int)).toNat

/-- Truncation toward zero, the integral part kept by a `real -> size_t` conversion. -/
def truncQ (q : ℚ) : Int := if 0 ≤ q then ⌊q⌋ else ⌈q⌉

/-- Conversion `real -> size_t` (implicit at lines 66 to 70, `static_cast` elsewhere). -/
def toSizeT (q : ℚ) : Nat := wrap (truncQ q)

/-- The function `std::round`: nearest integer, halfway cases away from zero. -/
def stdRound (q : ℚ) : ℚ :=
  if 0 ≤ q then ((⌊q + 1 / 2⌋ : Int) : ℚ) else ((⌈q - 1 / 2⌉ : Int) : ℚ)

/-- The function `std::floor`, with a `real` result. -/
def stdFloor (q : ℚ) : ℚ := ((⌊q⌋ : Int) : ℚ)

/-- The function `std::ceil`, with a `real` result. -/
def stdCeil (q : ℚ) : ℚ := ((⌈q⌉ : Int) : ℚ)

/-- Unsigned 64-bit addition. -/
def uadd (a b : Nat) : Nat := (a + b) % 2 ^ 64

/-- Unsigned 64-bit subtraction. -/
def usub (a b : Nat) : Nat := wrap ((a : Int) - (b : Int))

/-! ## Data model -/

/-- The two buffers written by `forward`: the layer output and `maxIdxs_`. -/
structure Buffers where
  /-- Pooled output values (`getOutputValue()->getData()`). -/
  outputData : Nat → ℚ
  /-- Argmax map (`maxIdxs_->getData()`), stored as `real`. -/
  argmaxData : Nat → ℚ

/-- Configuration of the layer together with the inputs of one call. -/
structure ROIPoolLayer where
  /-- Configured `pooled_width`. -/
  pooledWidth_ : Nat
  /-- Configured `pooled_height`. -/
  pooledHeight_ : Nat
  /-- Configured `spatial_scale`. -/
  spatialScale_ : ℚ
  /-- Default height `layerConf.height()`. -/
  confHeight : Nat
  /-- Default width `layerConf.width()`. -/
  confWidth : Nat
  /-- Declared height `getInput(0).getFrameHeight()`. -/
  frameHeight : Nat
  /-- Declared width `getInput(0).getFrameWidth()`. -/
  frameWidth : Nat
  /-- Row width of input 0, `getInputValue(0)->getWidth()`. -/
  inputWidth : Nat
  /-- Number of samples, `getInput(0).getBatchSize()`. -/
  batchSize : Nat
  /-- Number of regions, `getInput(1).getBatchSize()`. -/
  numROIs : Nat
  /-- Row width of input 1, `getInputValue(1)->getWidth()`. -/
  roiOffset : Nat
  /-- Feature values, `getInputValue(0)->getData()`. -/
  bottomData : Nat → ℚ
  /-- Region rows, `getInputValue(1)->getData()`. -/
  bottomROIs : Nat → ℚ

/-- Lines 37 and 38: the declared frame height, or the configured one when it is 0. -/
def height_ (L : ROIPoolLayer) : Nat :=
  if L.frameHeight = 0 then L.confHeight else L.frameHeight

/-- Lines 39 and 40: the declared frame width, or the configured one when it is 0. -/
def width_ (L : ROIPoolLayer) : Nat :=
  if L.frameWidth = 0 then L.confWidth else L.frameWidth

/-- Line 41: `channels_ = getInputValue(0)->getWidth() / width_ / height_`. -/
def channels_ (L : ROIPoolLayer) : Nat := L.inputWidth / width_ L / height_ L

/-- Line 47: `batchOffset = getInputValue(0)->getWidth()`. -/
def batchOffset (L : ROIPoolLayer) : Nat := L.inputWidth

/-- Line 48: `channelOffset = height_ * width_`. -/
def channelOffset (L : ROIPoolLayer) : Nat := height_ L * width_ L

/-- Line 51: `poolChannelOffset = pooledHeight_ * pooledWidth_`. -/
def poolChannelOffset (L : ROIPoolLayer) : Nat := L.pooledHeight_ * L.pooledWidth_

/-! ## Region geometry (lines 66 to 78), for the region row at offset `roi` -/

/-- Line 66: `size_t roiBatchIdx = bottomROIs[0]`. -/
def roiBatchIdx (L : ROIPoolLayer) (roi : Nat) : Nat := toSizeT (L.bottomROIs (roi + 0))

/-- Line 67: `roiStartW = std::round(bottomROIs[1] * spatialScale_)`. -/
def roiStartW (L : ROIPoolLayer) (roi : Nat) : Nat :=
  toSizeT (stdRound (L.bottomROIs (roi + 1) * L.spatialScale_))

/-- Line 68: `roiStartH = std::round(bottomROIs[2] * spatialScale_)`. -/
def roiStartH (L : ROIPoolLayer) (roi : Nat) : Nat :=
  toSizeT (stdRound (L.bottomROIs (roi + 2) * L.spatialScale_))

/-- Line 69: `roiEndW = std::round(bottomROIs[3] * spatialScale_)`. -/
def roiEndW (L : ROIPoolLayer) (roi : Nat) : Nat :=
  toSizeT (stdRound (L.bottomROIs (roi + 3) * L.spatialScale_))

/-- Line 70: `roiEndH = std::round(bottomROIs[4] * spatialScale_)`. -/
def roiEndH (L : ROIPoolLayer) (roi : Nat) : Nat :=
  toSizeT (stdRound (L.bottomROIs (roi + 4) * L.spatialScale_))

/-- Line 73: `roiHeight = std::max(roiEndH - roiStartH + 1, uOne)` on `size_t`. -/
def roiHeight (L : ROIPoolLayer) (roi : Nat) : Nat :=
  max (uadd (usub (roiEndH L roi) (roiStartH L roi)) 1) 1

/-- Line 74: `roiWidth = std::max(roiEndW - roiStartW + 1, uOne)` on `size_t`. -/
def roiWidth (L : ROIPoolLayer) (roi : Nat) : Nat :=
  max (uadd (usub (roiEndW L roi) (roiStartW L roi)) 1) 1

/-- Lines 75 and 76: `binSizeH = real(roiHeight) / real(pooledHeight_)`. -/
def binSizeH (L : ROIPoolLayer) (roi : Nat) : ℚ :=
  (roiHeight L roi : ℚ) / (L.pooledHeight_ : ℚ)

/-- Lines 77 and 78: `binSizeW = real(roiWidth) / real(pooledWidth_)`. -/
def binSizeW (L : ROIPoolLayer) (roi : Nat) : ℚ :=
  (roiWidth L roi : ℚ) / (L.pooledWidth_ : ℚ)

/-! ## Bin extents (lines 83 to 90) -/

/-- Lines 83 and 87: first row of the bin of pooled row `ph`. -/
def hstart (L : ROIPoolLayer) (roi ph : Nat) : Nat :=
  min (max (uadd (toSizeT (stdFloor ((ph : ℚ) * binSizeH L roi))) (roiStartH L roi)) 0)
    (height_ L)

/-- Lines 84 and 88: first column of the bin of pooled column `pw`. -/
def wstart (L : ROIPoolLayer) (roi pw : Nat) : Nat :=
  min (max (uadd (toSizeT (stdFloor ((pw : ℚ) * binSizeW L roi))) (roiStartW L roi)) 0)
    (width_ L)

/-- Lines 85 and 89: one past the last row of the bin of pooled row `ph`. -/
def hend (L : ROIPoolLayer) (roi ph : Nat) : Nat :=
  min (max (uadd (toSizeT (stdCeil (((ph + 1 : Nat) : ℚ) * binSizeH L roi))) (roiStartH L roi)) 0)
    (height_ L)

/-- Lines 86 and 90: one past the last column of the bin of pooled column `pw`. -/
def wend (L : ROIPoolLayer) (roi pw : Nat) : Nat :=
  min (max (uadd (toSizeT (stdCeil (((pw + 1 : Nat) : ℚ) * binSizeW L roi))) (roiStartW L roi)) 0)
    (width_ L)

/-- Line 92: `isEmpty = (hend <= hstart) || (wend <= wstart)`. -/
def isEmpty (L : ROIPoolLayer) (roi ph pw : Nat) : Bool :=
  decide (hend L roi ph ≤ hstart L roi ph) || decide (wend L roi pw ≤ wstart L roi pw)

/-! ## The forward pass -/

/-- Lines 101 to 105: one step of the scan, at row `h` and column `w`; `batchData`,
`outputData` and `argmaxData` are the current pointers. -/
def scanStep (L : ROIPoolLayer) (batchData outputData argmaxData poolIndex h : Nat)
    (b : Buffers) (w : Nat) : Buffers :=
  let index := h * width_ L + w
  if L.bottomData (batchData + index) > b.outputData (outputData + poolIndex) then
    { outputData := Function.update b.outputData (outputData + poolIndex)
        (L.bottomData (batchData + index))
      argmaxData := Function.update b.argmaxData (argmaxData + poolIndex) (index : ℚ) }
  else b

/-- Lines 100 to 106: the loop `for (w = wstart; w < wend; ++w)`. -/
def scanRow (L : ROIPoolLayer) (batchData outputData argmaxData poolIndex ws we : Nat)
    (b : Buffers) (h : Nat) : Buffers :=
  (List.range' ws (we - ws)).foldl (scanStep L batchData outputData argmaxData poolIndex h) b

/-- Lines 83 to 107: the body of the loop over `pw`, for one pooled cell. -/
def poolCell (L : ROIPoolLayer) (roi batchData outputData argmaxData ph : Nat)
    (b : Buffers) (pw : Nat) : Buffers :=
  let hs := hstart L roi ph
  let ws := wstart L roi pw
  let he := hend L roi ph
  let we := wend L roi pw
  let poolIndex := ph * L.pooledWidth_ + pw
  let b1 : Buffers :=
    if isEmpty L roi ph pw then
      { outputData := Function.update b.outputData (outputData + poolIndex) 0
        argmaxData := Function.update b.argmaxData (argmaxData + poolIndex) (-1) }
    else b
  (List.range' hs (he - hs)).foldl
    (scanRow L batchData outputData argmaxData poolIndex ws we) b1

/-- Lines 82 to 108: the loop over `pw`. -/
def poolRow (L : ROIPoolLayer) (roi batchData outputData argmaxData : Nat)
    (b : Buffers) (ph : Nat) : Buffers :=
  (List.range L.pooledWidth_).foldl (poolCell L roi batchData outputData argmaxData ph) b

/-- Lines 81 to 109: the loop over `ph`. -/
def poolPlane (L : ROIPoolLayer) (roi batchData outputData argmaxData : Nat)
    (b : Buffers) : Buffers :=
  (List.range L.pooledHeight_).foldl (poolRow L roi batchData outputData argmaxData) b

/-- State of the loop over channels: the buffers and the three moving pointers. -/
structure ChannelState where
  /-- Contents of the two written buffers. -/
  bufs : Buffers
  /-- Pointer `batchData` into the feature values. -/
  batchData : Nat
  /-- Pointer `outputData`. -/
  outputData : Nat
  /-- Pointer `argmaxData`. -/
  argmaxData : Nat

/-- Lines 80 to 113: the body of the loop over channels, with the pointer increments
of lines 110 to 112. -/
def channelStep (L : ROIPoolLayer) (roi : Nat) (s : ChannelState) (_c : Nat) : ChannelState :=
  { bufs := poolPlane L roi s.batchData s.outputData s.argmaxData s.bufs
    batchData := s.batchData + channelOffset L
    outputData := s.outputData + poolChannelOffset L
    argmaxData := s.argmaxData + poolChannelOffset L }

/-- State of the loop over regions: the buffers and the pointers that survive an
iteration. -/
structure ForwardState where
  /-- Contents of the two written buffers. -/
  bufs : Buffers
  /-- Pointer `outputData`. -/
  outputData : Nat
  /-- Pointer `argmaxData`. -/
  argmaxData : Nat
  /-- Pointer `bottomROIs` to the current region row. -/
  bottomROIs : Nat

/-- Lines 66 to 114: the body of the loop over regions; `none` when a `CHECK` fails. -/
def roiStep (L : ROIPoolLayer) (s : ForwardState) (_n : Nat) : Option ForwardState :=
  let idx := roiBatchIdx L s.bottomROIs
  if 0 ≤ idx ∧ idx < L.batchSize then
    let batchData := batchOffset L * idx
    let r := (List.range (channels_ L)).foldl (channelStep L s.bottomROIs)
      { bufs := s.bufs, batchData := batchData, outputData := s.outputData,
        argmaxData := s.argmaxData }
    some { bufs := r.bufs, outputData := r.outputData, argmaxData := r.argmaxData,
           bottomROIs := s.bottomROIs + L.roiOffset }
  else none

/-- The method `ROIPoolLayer::forward` (lines 33 to 116).  `out0` is the content of the
output buffer after `resetOutput`, `arg0` the content of `maxIdxs_` after
`Matrix::resizeOrCreate` (which does not clear it). -/
def ROIPoolLayer.forward (L : ROIPoolLayer) (out0 arg0 : Nat → ℚ) : Option Buffers :=
  Option.map ForwardState.bufs
    (List.foldlM (roiStep L)
      { bufs := { outputData := out0, argmaxData := arg0 }, outputData := 0, argmaxData := 0,
        bottomROIs := 0 }
      (List.range L.numROIs))

/-! ## The backward pass -/

/-- Lines 139 to 143: the body of the loop over `pw`; `g` is the input-gradient buffer. -/
def backCell (L : ROIPoolLayer) (argmax outDiff : Nat → ℚ)
    (batchDiffData outDiffData argmaxData ph : Nat) (g : Nat → ℚ) (pw : Nat) : Nat → ℚ :=
  let poolIndex := ph * L.pooledWidth_ + pw
  if argmax (argmaxData + poolIndex) > 0 then
    let index := toSizeT (argmax (argmaxData + poolIndex))
    Function.update g (batchDiffData + index)
      (g (batchDiffData + index) + outDiff (outDiffData + poolIndex))
  else g

/-- Lines 138 to 144: the loop over `pw`. -/
def backRow (L : ROIPoolLayer) (argmax outDiff : Nat → ℚ)
    (batchDiffData outDiffData argmaxData : Nat) (g : Nat → ℚ) (ph : Nat) : Nat → ℚ :=
  (List.range L.pooledWidth_).foldl
    (backCell L argmax outDiff batchDiffData outDiffData argmaxData ph) g

/-- Lines 137 to 145: the loop over `ph`. -/
def backPlane (L : ROIPoolLayer) (argmax outDiff : Nat → ℚ)
    (batchDiffData outDiffData argmaxData : Nat) (g : Nat → ℚ) : Nat → ℚ :=
  (List.range L.pooledHeight_).foldl
    (backRow L argmax outDiff batchDiffData outDiffData argmaxData) g

/-- State of the backward loop over channels. -/
structure BackChannelState where
  /-- Contents of the input-gradient buffer. -/
  inDiff : Nat → ℚ
  /-- Pointer `batchDiffData`. -/
  batchDiffData : Nat
  /-- Pointer `outDiffData`. -/
  outDiffData : Nat
  /-- Pointer `argmaxData`. -/
  argmaxData : Nat

/-- Lines 136 to 149: the body of the backward loop over channels. -/
def backChannelStep (L : ROIPoolLayer) (argmax outDiff : Nat → ℚ)
    (s : BackChannelState) (_c : Nat) : BackChannelState :=
  { inDiff := backPlane L argmax outDiff s.batchDiffData s.outDiffData s.argmaxData s.inDiff
    batchDiffData := s.batchDiffData + channelOffset L
    outDiffData := s.outDiffData + poolChannelOffset L
    argmaxData := s.argmaxData + poolChannelOffset L }

/-- State of the backward loop over regions. -/
structure BackwardState where
  /-- Contents of the input-gradient buffer. -/
  inDiff : Nat → ℚ
  /-- Pointer `outDiffData`. -/
  outDiffData : Nat
  /-- Pointer `argmaxData`. -/
  argmaxData : Nat
  /-- Pointer `bottomROIs` to the current region row. -/
  bottomROIs : Nat

/-- Lines 134 to 150: the body of the backward loop over regions. -/
def backRoiStep (L : ROIPoolLayer) (argmax outDiff : Nat → ℚ)
    (s : BackwardState) (_n : Nat) : BackwardState :=
  let idx := roiBatchIdx L s.bottomROIs
  let r := (List.range (channels_ L)).foldl (backChannelStep L argmax outDiff)
    { inDiff := s.inDiff, batchDiffData := batchOffset L * idx, outDiffData := s.outDiffData,
      argmaxData := s.argmaxData }
  { inDiff := r.inDiff, outDiffData := r.outDiffData, argmaxData := r.argmaxData,
    bottomROIs := s.bottomROIs + L.roiOffset }

/-- The method `ROIPoolLayer::backward` (lines 118 to 152): `argmax` is the content of
`maxIdxs_`, `outDiff` the output gradient, `inDiff0` the prior content of the
input-gradient buffer; the result is its content after the call. -/
def ROIPoolLayer.backward (L : ROIPoolLayer) (argmax outDiff inDiff0 : Nat → ℚ) : Nat → ℚ :=
  ((List.range L.numROIs).foldl (backRoiStep L argmax outDiff)
    { inDiff := inDiff0, outDiffData := 0, argmaxData := 0, bottomROIs := 0 }).inDiff

/-! ## Auxiliary definitions for the proofs -/

/-- Overwrite the output at offset `i` and the argmax at offset `j` with the pair `p`. -/
def Buffers.put (b : Buffers) (i j : Nat) (p : ℚ × ℚ) : Buffers :=
  { outputData := Function.update b.outputData i p.1
    argmaxData := Function.update b.argmaxData j p.2 }

/-- The pair (output at offset `i`, argmax at offset `j`). -/
def Buffers.pair (b : Buffers) (i j : Nat) : ℚ × ℚ := (b.outputData i, b.argmaxData j)

/-- Lines 101 to 105 on the pair (output, argmax) of the cell being pooled. -/
def scanStepVal (L : ROIPoolLayer) (batchData h : Nat) (p : ℚ × ℚ) (w : Nat) : ℚ × ℚ :=
  if L.bottomData (batchData + (h * width_ L + w)) > p.1 then
    (L.bottomData (batchData + (h * width_ L + w)), ((h * width_ L + w : Nat) : ℚ))
  else p

/-- Lines 100 to 106 on the pair (output, argmax) of the cell being pooled. -/
def scanRowVal (L : ROIPoolLayer) (batchData ws we : Nat) (p : ℚ × ℚ) (h : Nat) : ℚ × ℚ :=
  (List.range' ws (we - ws)).foldl (scanStepVal L batchData h) p

/-- Lines 92 to 107 on the pair (output, argmax) of the cell being pooled: the new pair
as a function of the pair the buffers held before. -/
def cellVal (L : ROIPoolLayer) (roi batchData ph pw : Nat) (p : ℚ × ℚ) : ℚ × ℚ :=
  (List.range' (hstart L roi ph) (hend L roi ph - hstart L roi ph)).foldl
    (scanRowVal L batchData (wstart L roi pw) (wend L roi pw))
    (if isEmpty L roi ph pw then (0, -1) else p)

/-- Both buffers seen as one function on tagged offsets (`inl`: output, `inr`: argmax). -/
def Buffers.view (b : Buffers) : Nat ⊕ Nat → ℚ := Sum.elim b.outputData b.argmaxData

/-- The output offsets in `[olo, ohi)` together with the argmax offsets in `[alo, ahi)`. -/
def blk (olo ohi alo ahi : Nat) : Nat ⊕ Nat → Prop
  | Sum.inl i => olo ≤ i ∧ i < ohi
  | Sum.inr j => alo ≤ j ∧ j < ahi

/-- The transformer `T` writes only inside `S`, and what it leaves inside `S` depends only
on what `S` held before. -/
def LocalOn (S : Nat ⊕ Nat → Prop) (T : Buffers → Buffers) : Prop :=
  (∀ b x, ¬ S x → (T b).view x = b.view x) ∧
  (∀ b b', (∀ x, S x → b.view x = b'.view x) → ∀ x, S x → (T b).view x = (T b').view x)

/-- The channel loop of one region with the pointers in closed form. -/
def regionBody (L : ROIPoolLayer) (roi bd od ad : Nat) (b : Buffers) : Buffers :=
  (List.range (channels_ L)).foldl
    (fun b c => poolPlane L roi (bd + c * channelOffset L) (od + c * poolChannelOffset L)
      (ad + c * poolChannelOffset L) b) b

/-- The region loop with the pointers in closed form, started at pointers `od`, `ad`, `rp`. -/
def roiLoopBody (L : ROIPoolLayer) (rp od ad : Nat) (b : Buffers) (N : Nat) : Buffers :=
  (List.range N).foldl
    (fun b n => regionBody L (rp + n * L.roiOffset)
      (batchOffset L * roiBatchIdx L (rp + n * L.roiOffset))
      (od + n * (channels_ L * poolChannelOffset L))
      (ad + n * (channels_ L * poolChannelOffset L)) b) b

/-- Flat offset of the pooled cell `(n, c, ph, pw)` in the output and argmax buffers. -/
def cellIndex (L : ROIPoolLayer) (n c ph pw : Nat) : Nat :=
  n * (channels_ L * poolChannelOffset L) + c * poolChannelOffset L
    + (ph * L.pooledWidth_ + pw)

/-- Pointer `batchData` while channel `c` of region `n` is pooled. -/
def planeBase (L : ROIPoolLayer) (n c : Nat) : Nat :=
  batchOffset L * roiBatchIdx L (n * L.roiOffset) + c * channelOffset L

/-- Gradient that the cell at pooled offset `k` (relative to the current pointers) adds to
the input-gradient element `j`. -/
def backTerm (argmax outDiff : Nat → ℚ) (bdd odd add k j : Nat) : ℚ :=
  if 0 < argmax (add + k) ∧ j = bdd + toSizeT (argmax (add + k)) then outDiff (odd + k) else 0

/-- The backward region loop with the pointers in closed form. -/
def backLoopBody (L : ROIPoolLayer) (argmax outDiff : Nat → ℚ) (rp odd add : Nat)
    (g : Nat → ℚ) (N : Nat) : Nat → ℚ :=
  (List.range N).foldl
    (fun g n => (List.range (channels_ L)).foldl
      (fun g c => backPlane L argmax outDiff
        (batchOffset L * roiBatchIdx L (rp + n * L.roiOffset) + c * channelOffset L)
        (odd + n * (channels_ L * poolChannelOffset L) + c * poolChannelOffset L)
        (add + n * (channels_ L * poolChannelOffset L) + c * poolChannelOffset L) g) g) g

/-- Gradient that pooled cell `(n, c, ph, pw)` adds to input-gradient element `j`. -/
def cellGrad (L : ROIPoolLayer) (argmax outDiff : Nat → ℚ) (n c ph pw j : Nat) : ℚ :=
  if 0 < argmax (cellIndex L n c ph pw)
      ∧ j = planeBase L n c + toSizeT (argmax (cellIndex L n c ph pw)) then
    outDiff (cellIndex L n c ph pw)
  else 0

/-- Total gradient routed by `backward` to input-gradient element `j`. -/
def routed (L : ROIPoolLayer) (argmax outDiff : Nat → ℚ) (j : Nat) : ℚ :=
  ∑ n in Finset.range L.numROIs, ∑ c in Finset.range (channels_ L),
    ∑ ph in Finset.range L.pooledHeight_, ∑ pw in Finset.range L.pooledWidth_,
      cellGrad L argmax outDiff n c ph pw j

/-- The positions `(h, w)` visited by the scan of lines 99 and 100 for pooled cell
`(ph, pw)`, in scan order. -/
def scanned (L : ROIPoolLayer) (roi ph pw : Nat) : List (Nat × Nat) :=
  (List.range' (hstart L roi ph) (hend L roi ph - hstart L roi ph)).flatMap
    (fun h => (List.range' (wstart L roi pw) (wend L roi pw - wstart L roi pw)).map
      (fun w => (h, w)))

/-- Feature value at row `h`, column `w` of the plane at pointer `batchData`. -/
def featAt (L : ROIPoolLayer) (batchData : Nat) (hw : Nat × Nat) : ℚ :=
  L.bottomData (batchData + (hw.1 * width_ L + hw.2))

/-- Fill a buffer from a list of values, zero beyond its end. -/
def ofList (l : List ℚ) : Nat → ℚ := fun i => l.getD i 0

/-- The scenario of the specification: one 4 x 4 plane holding 0..15 in row-major order,
the region `(0, 0, 0, 3, 3)`, scale 1 and a 2 x 2 pooled grid. -/
def scenarioLayer : ROIPoolLayer :=
  { pooledWidth_ := 2, pooledHeight_ := 2, spatialScale_ := 1, confHeight := 4, confWidth := 4,
    frameHeight := 0, frameWidth := 0, inputWidth := 16, batchSize := 1, numROIs := 1,
    roiOffset := 5, bottomData := fun i => (i : ℚ), bottomROIs := ofList [0, 0, 0, 3, 3] }

/-- The scan of lines 99 to 107 as one pass over a list of positions, on the pair
(output, argmax) of the cell. -/
def scanFold (L : ROIPoolLayer) (batchData : Nat) (l : List (Nat × Nat)) (p : ℚ × ℚ) : ℚ × ℚ :=
  l.foldl (fun q hw => scanStepVal L batchData hw.1 q hw.2) p

/-- Flat index `h * width_ + w` of a position, as stored in the argmax map. -/
def flatIndex (L : ROIPoolLayer) (hw : Nat × Nat) : Nat := hw.1 * width_ L + hw.2

/-- A 2 x 2 plane whose largest value sits at flat index 0, pooled to a single cell over the
region `(0, 0, 0, 1, 1)`. -/
def peakLayer : ROIPoolLayer :=
  { pooledWidth_ := 1, pooledHeight_ := 1, spatialScale_ := 1, confHeight := 2, confWidth := 2,
    frameHeight := 0, frameWidth := 0, inputWidth := 4, batchSize := 1, numROIs := 1,
    roiOffset := 5, bottomData := ofList [9, 1, 1, 1], bottomROIs := ofList [0, 0, 0, 1, 1] }

/-- A 2 x 2 plane of negative values pooled to a single cell over the region
`(0, 0, 0, 1, 1)`, which covers the whole plane. -/
def negLayer : ROIPoolLayer :=
  { pooledWidth_ := 1, pooledHeight_ := 1, spatialScale_ := 1, confHeight := 2, confWidth := 2,
    frameHeight := 0, frameWidth := 0, inputWidth := 4, batchSize := 1, numROIs := 1,
    roiOffset := 5, bottomData := ofList [-4, -3, -2, -1],
    bottomROIs := ofList [0, 0, 0, 1, 1] }

/-- A 2 x 2 plane of zeros pooled to a single cell over the region `(0, 0, 0, 1, 1)`. -/
def zeroLayer : ROIPoolLayer :=
  { pooledWidth_ := 1, pooledHeight_ := 1, spatialScale_ := 1, confHeight := 2, confWidth := 2,
    frameHeight := 0, frameWidth := 0, inputWidth := 4, batchSize := 1, numROIs := 1,
    roiOffset := 5, bottomData := fun _ => 0, bottomROIs := ofList [0, 0, 0, 1, 1] }

/-- A plane of 262144 rows and 1 column with the inverted region
`(0, 0, 1099511758848, 0, 131071)`: its rows start at `2 ^ 40 + 2 ^ 17` and end at
`2 ^ 17 - 1`. -/
def invertedLayer : ROIPoolLayer :=
  { pooledWidth_ := 1, pooledHeight_ := 1, spatialScale_ := 1, confHeight := 262144,
    confWidth := 1, frameHeight := 0, frameWidth := 0, inputWidth := 262144, batchSize := 1,
    numROIs := 1, roiOffset := 5, bottomData := fun _ => 1,
    bottomROIs := ofList [0, 0, 1099511758848, 0, 131071] }

/-- A plane of 1 row and 4 columns with the inverted region
`(0, 9223372036854775808, 0, 4611686018427387904, 0)`: its columns start at `2 ^ 63` and
end at `2 ^ 62`; pooled to 1 x 3 cells. -/
def wrappedLayer : ROIPoolLayer :=
  { pooledWidth_ := 3, pooledHeight_ := 1, spatialScale_ := 1, confHeight := 1,
    confWidth := 4, frameHeight := 0, frameWidth := 0, inputWidth := 4, batchSize := 1,
    numROIs := 1, roiOffset := 5, bottomData := ofList [1, 2, 3, 4],
    bottomROIs := ofList [0, 9223372036854775808, 0, 4611686018427387904, 0] }

/-- The scenario plane pooled for two identical regions `(0, 0, 0, 3, 3)`. -/
def twoRegionLayer : ROIPoolLayer :=
  { pooledWidth_ := 2, pooledHeight_ := 2, spatialScale_ := 1, confHeight := 4, confWidth := 4,
    frameHeight := 0, frameWidth := 0, inputWidth := 16, batchSize := 1, numROIs := 2,
    roiOffset := 5, bottomData := fun i => (i : ℚ),
    bottomROIs := ofList [0, 0, 0, 3, 3, 0, 0, 0, 3, 3] }

/-- The shape shared by `hstart` and `wstart`: the lower end of bin `k` of a region from
`S` to `E` pooled to `P` cells, clamped to `B`. -/
def binLo (S E P k B : Nat) : Nat :=
  min (max (uadd (toSizeT (stdFloor ((k : ℚ)
    * (((max (uadd (usub E S) 1) 1 : Nat) : ℚ) / (P : ℚ))))) S) 0) B

/-- The shape shared by `hend` and `wend`: the upper end of bin `k`. -/
def binHi (S E P k B : Nat) : Nat :=
  min (max (uadd (toSizeT (stdCeil (((k + 1 : Nat) : ℚ)
    * (((max (uadd (usub E S) 1) 1 : Nat) : ℚ) / (P : ℚ))))) S) 0) B

/-- A 4 x 4 plane with the inverted region `(0, 7, 5, 3, 2)`: columns from 7 back to 3,
rows from 5 back to 2. -/
def smallInvertedLayer : ROIPoolLayer :=
  { pooledWidth_ := 1, pooledHeight_ := 1, spatialScale_ := 1, confHeight := 4, confWidth := 4,
    frameHeight := 0, frameWidth := 0, inputWidth := 16, batchSize := 1, numROIs := 1,
    roiOffset := 5, bottomData := fun i => (i : ℚ), bottomROIs := ofList [0, 7, 5, 3, 2] }

/-- Row-major (scan) order on positions: smaller `h` first, then smaller `w`. -/
def rowMajorLt (x y : Nat × Nat) : Prop := x.1 < y.1 ∨ (x.1 = y.1 ∧ x.2 < y.2)

/-- Row-major order, or the same position. -/
def rowMajorLe (x y : Nat × Nat) : Prop := x.1 < y.1 ∨ (x.1 = y.1 ∧ x.2 ≤ y.2)

/-- A 2 x 2 plane holding 0, 0, -1, 0, pooled to a single cell over the region
`(0, 0, 0, 1, 1)`: the maximum 0 is attained at the flat indices 0, 1 and 3. -/
def tieLayer : ROIPoolLayer :=
  { pooledWidth_ := 1, pooledHeight_ := 1, spatialScale_ := 1, confHeight := 2, confWidth := 2,
    frameHeight := 0, frameWidth := 0, inputWidth := 4, batchSize := 1, numROIs := 1,
    roiOffset := 5, bottomData := ofList [0, 0, -1, 0], bottomROIs := ofList [0, 0, 0, 1, 1] }

/-- The same layer configuration run on another batch of `N` regions `rois` and another
feature map `data`. -/
def ROIPoolLayer.withInputs (L : ROIPoolLayer) (N : Nat) (rois data : Nat → ℚ) :
    ROIPoolLayer :=
  { L with numROIs := N, bottomROIs := rois, bottomData := data }

/-! ## Single-precision arithmetic

The type `real` of the layer is a 32-bit float.  `fl32` rounds an exact value to the nearest
number with a 24-bit significand, halfway cases to the even significand, as each
single-precision operation of the code does with its exact result.  The exponent range is
not bounded: overflow to infinity, subnormal numbers and NaN are outside the model. -/

/-- Number of halvings that take `n` below 2, with `fuel` bounding the recursion. -/
def log2Fuel : Nat → Nat → Nat
  | 0, _ => 0
  | fuel + 1, n => if 2 ≤ n then log2Fuel fuel (n / 2) + 1 else 0

/-- The integer binary logarithm of a natural number (0 at 0). -/
def ilog2 (n : Nat) : Nat := log2Fuel n n

/-- The binary exponent of a positive rational `a`: the `e` with `2 ^ e ≤ a < 2 ^ (e + 1)`. -/
def log2Q (a : ℚ) : Int :=
  let e0 : Int := (ilog2 a.num.natAbs : Int) - (ilog2 a.den : Int)
  if a < (2 : ℚ) ^ e0 then e0 - 1 else e0

/-- Nearest integer, halfway cases to the even one. -/
def roundEven (t : ℚ) : Int :=
  let f := ⌊t⌋
  if t - f < 1 / 2 then f else if 1 / 2 < t - f then f + 1 else if f % 2 = 0 then f else f + 1

/-- Rounding to single precision: the nearest multiple of `2 ^ (e - 23)`, where `e` is the
binary exponent of the argument.  It is the single-precision result whenever that result is
finite, that is below `2 ^ 128` in magnitude. -/
def fl32 (q : ℚ) : ℚ :=
  if q = 0 then 0 else
    let ulp : ℚ := (2 : ℚ) ^ (log2Q |q| - 23)
    (roundEven (q / ulp) : ℚ) * ulp

/-! ## The layer in single precision

The same code with every operation on `real` values rounded by `fl32`: the products of
lines 67 to 70, the conversions and quotients of lines 75 to 78, the conversions and
products of lines 83 to 86, the store of the index at line 104 and the `+=` of line 142.
Comparisons, `std::round`, `std::floor`, `std::ceil` and the stores of feature values, of
`0` and of `-1` are exact in single precision.  The values held by `bottomData`,
`bottomROIs`, `spatialScale_` and the buffers are taken to be single-precision values. -/

/-- Line 67 in single precision. -/
def roiStartW32 (L : ROIPoolLayer) (roi : Nat) : Nat :=
  toSizeT (stdRound (fl32 (L.bottomROIs (roi + 1) * L.spatialScale_)))

/-- Line 68 in single precision. -/
def roiStartH32 (L : ROIPoolLayer) (roi : Nat) : Nat :=
  toSizeT (stdRound (fl32 (L.bottomROIs (roi + 2) * L.spatialScale_)))

/-- Line 69 in single precision. -/
def roiEndW32 (L : ROIPoolLayer) (roi : Nat) : Nat :=
  toSizeT (stdRound (fl32 (L.bottomROIs (roi + 3) * L.spatialScale_)))

/-- Line 70 in single precision. -/
def roiEndH32 (L : ROIPoolLayer) (roi : Nat) : Nat :=
  toSizeT (stdRound (fl32 (L.bottomROIs (roi + 4) * L.spatialScale_)))

/-- Line 73: `roiHeight = std::max(roiEndH - roiStartH + 1, uOne)` on `size_t`. -/
def roiHeight32 (L : ROIPoolLayer) (roi : Nat) : Nat :=
  max (uadd (usub (roiEndH32 L roi) (roiStartH32 L roi)) 1) 1

/-- Line 74: `roiWidth = std::max(roiEndW - roiStartW + 1, uOne)` on `size_t`. -/
def roiWidth32 (L : ROIPoolLayer) (roi : Nat) : Nat :=
  max (uadd (usub (roiEndW32 L roi) (roiStartW32 L roi)) 1) 1

/-- Lines 75 and 76 in single precision: both conversions and the quotient are rounded. -/
def binSizeH32 (L : ROIPoolLayer) (roi : Nat) : ℚ :=
  fl32 (fl32 (roiHeight32 L roi : ℚ) / fl32 (L.pooledHeight_ : ℚ))

/-- Lines 77 and 78 in single precision. -/
def binSizeW32 (L : ROIPoolLayer) (roi : Nat) : ℚ :=
  fl32 (fl32 (roiWidth32 L roi : ℚ) / fl32 (L.pooledWidth_ : ℚ))

/-- Lines 83 and 87 in single precision: `ph` is converted to `real` and the product
rounded before `std::floor`. -/
def hstart32 (L : ROIPoolLayer) (roi ph : Nat) : Nat :=
  min (max (uadd (toSizeT (stdFloor (fl32 (fl32 (ph : ℚ) * binSizeH32 L roi))))
    (roiStartH32 L roi)) 0) (height_ L)

/-- Lines 84 and 88 in single precision. -/
def wstart32 (L : ROIPoolLayer) (roi pw : Nat) : Nat :=
  min (max (uadd (toSizeT (stdFloor (fl32 (fl32 (pw : ℚ) * binSizeW32 L roi))))
    (roiStartW32 L roi)) 0) (width_ L)

/-- Lines 85 and 89 in single precision: `ph + 1` is converted to `real` and the product
rounded before `std::ceil`. -/
def hend32 (L : ROIPoolLayer) (roi ph : Nat) : Nat :=
  min (max (uadd (toSizeT (stdCeil (fl32 (fl32 ((ph + 1 : Nat) : ℚ) * binSizeH32 L roi))))
    (roiStartH32 L roi)) 0) (height_ L)

/-- Lines 86 and 90 in single precision. -/
def wend32 (L : ROIPoolLayer) (roi pw : Nat) : Nat :=
  min (max (uadd (toSizeT (stdCeil (fl32 (fl32 ((pw + 1 : Nat) : ℚ) * binSizeW32 L roi))))
    (roiStartW32 L roi)) 0) (width_ L)

/-- Line 92: `isEmpty = (hend <= hstart) || (wend <= wstart)`. -/
def isEmpty32 (L : ROIPoolLayer) (roi ph pw : Nat) : Bool :=
  decide (hend32 L roi ph ≤ hstart32 L roi ph) || decide (wend32 L roi pw ≤ wstart32 L roi pw)

/-- Lines 101 to 105 in single precision: the `size_t` index is rounded when it is stored
into the `real` cell of the argmax map (line 104). -/
def scanStep32 (L : ROIPoolLayer) (batchData outputData argmaxData poolIndex h : Nat)
    (b : Buffers) (w : Nat) : Buffers :=
  let index := h * width_ L + w
  if L.bottomData (batchData + index) > b.outputData (outputData + poolIndex) then
    { outputData := Function.update b.outputData (outputData + poolIndex)
        (L.bottomData (batchData + index))
      argmaxData := Function.update b.argmaxData (argmaxData + poolIndex) (fl32 (index : ℚ)) }
  else b

/-- Lines 100 to 106: the loop `for (w = wstart; w < wend; ++w)`. -/
def scanRow32 (L : ROIPoolLayer) (batchData outputData argmaxData poolIndex ws we : Nat)
    (b : Buffers) (h : Nat) : Buffers :=
  (List.range' ws (we - ws)).foldl (scanStep32 L batchData outputData argmaxData poolIndex h) b

/-- Lines 83 to 107: the body of the loop over `pw`, for one pooled cell. -/
def poolCell32 (L : ROIPoolLayer) (roi batchData outputData argmaxData ph : Nat)
    (b : Buffers) (pw : Nat) : Buffers :=
  let hs := hstart32 L roi ph
  let ws := wstart32 L roi pw
  let he := hend32 L roi ph
  let we := wend32 L roi pw
  let poolIndex := ph * L.pooledWidth_ + pw
  let b1 : Buffers :=
    if isEmpty32 L roi ph pw then
      { outputData := Function.update b.outputData (outputData + poolIndex) 0
        argmaxData := Function.update b.argmaxData (argmaxData + poolIndex) (-1) }
    else b
  (List.range' hs (he - hs)).foldl
    (scanRow32 L batchData outputData argmaxData poolIndex ws we) b1

/-- Lines 82 to 108: the loop over `pw`. -/
def poolRow32 (L : ROIPoolLayer) (roi batchData outputData argmaxData : Nat)
    (b : Buffers) (ph : Nat) : Buffers :=
  (List.range L.pooledWidth_).foldl (poolCell32 L roi batchData outputData argmaxData ph) b

/-- Lines 81 to 109: the loop over `ph`. -/
def poolPlane32 (L : ROIPoolLayer) (roi batchData outputData argmaxData : Nat)
    (b : Buffers) : Buffers :=
  (List.range L.pooledHeight_).foldl (poolRow32 L roi batchData outputData argmaxData) b

/-- Lines 80 to 113: the body of the loop over channels, with the pointer increments
of lines 110 to 112. -/
def channelStep32 (L : ROIPoolLayer) (roi : Nat) (s : ChannelState) (_c : Nat) :
    ChannelState :=
  { bufs := poolPlane32 L roi s.batchData s.outputData s.argmaxData s.bufs
    batchData := s.batchData + channelOffset L
    outputData := s.outputData + poolChannelOffset L
    argmaxData := s.argmaxData + poolChannelOffset L }

/-- Lines 66 to 114: the body of the loop over regions; `none` when a `CHECK` fails. -/
def roiStep32 (L : ROIPoolLayer) (s : ForwardState) (_n : Nat) : Option ForwardState :=
  let idx := roiBatchIdx L s.bottomROIs
  if 0 ≤ idx ∧ idx < L.batchSize then
    let batchData := batchOffset L * idx
    let r := (List.range (channels_ L)).foldl (channelStep32 L s.bottomROIs)
      { bufs := s.bufs, batchData := batchData, outputData := s.outputData,
        argmaxData := s.argmaxData }
    some { bufs := r.bufs, outputData := r.outputData, argmaxData := r.argmaxData,
           bottomROIs := s.bottomROIs + L.roiOffset }
  else none

/-- The method `ROIPoolLayer::forward` (lines 33 to 116) in single precision.  `out0` is
the content of the output buffer after `resetOutput`, `arg0` the content of `maxIdxs_`
after `Matrix::resizeOrCreate`. -/
def ROIPoolLayer.forward32 (L : ROIPoolLayer) (out0 arg0 : Nat → ℚ) : Option Buffers :=
  Option.map ForwardState.bufs
    (List.foldlM (roiStep32 L)
      { bufs := { outputData := out0, argmaxData := arg0 }, outputData := 0, argmaxData := 0,
        bottomROIs := 0 }
      (List.range L.numROIs))

/-- Lines 139 to 143 in single precision: the sum of line 142 is rounded. -/
def backCell32 (L : ROIPoolLayer) (argmax outDiff : Nat → ℚ)
    (batchDiffData outDiffData argmaxData ph : Nat) (g : Nat → ℚ) (pw : Nat) : Nat → ℚ :=
  let poolIndex := ph * L.pooledWidth_ + pw
  if argmax (argmaxData + poolIndex) > 0 then
    let index := toSizeT (argmax (argmaxData + poolIndex))
    Function.update g (batchDiffData + index)
      (fl32 (g (batchDiffData + index) + outDiff (outDiffData + poolIndex)))
  else g

/-- Lines 138 to 144: the loop over `pw`. -/
def backRow32 (L : ROIPoolLayer) (argmax outDiff : Nat → ℚ)
    (batchDiffData outDiffData argmaxData : Nat) (g : Nat → ℚ) (ph : Nat) : Nat → ℚ :=
  (List.range L.pooledWidth_).foldl
    (backCell32 L argmax outDiff batchDiffData outDiffData argmaxData ph) g

/-- Lines 137 to 145: the loop over `ph`. -/
def backPlane32 (L : ROIPoolLayer) (argmax outDiff : Nat → ℚ)
    (batchDiffData outDiffData argmaxData : Nat) (g : Nat → ℚ) : Nat → ℚ :=
  (List.range L.pooledHeight_).foldl
    (backRow32 L argmax outDiff batchDiffData outDiffData argmaxData) g

/-- Lines 136 to 149: the body of the backward loop over channels. -/
def backChannelStep32 (L : ROIPoolLayer) (argmax outDiff : Nat → ℚ)
    (s : BackChannelState) (_c : Nat) : BackChannelState :=
  { inDiff := backPlane32 L argmax outDiff s.batchDiffData s.outDiffData s.argmaxData s.inDiff
    batchDiffData := s.batchDiffData + channelOffset L
    outDiffData := s.outDiffData + poolChannelOffset L
    argmaxData := s.argmaxData + poolChannelOffset L }

/-- Lines 134 to 150: the body of the backward loop over regions. -/
def backRoiStep32 (L : ROIPoolLayer) (argmax outDiff : Nat → ℚ)
    (s : BackwardState) (_n : Nat) : BackwardState :=
  let idx := roiBatchIdx L s.bottomROIs
  let r := (List.range (channels_ L)).foldl (backChannelStep32 L argmax outDiff)
    { inDiff := s.inDiff, batchDiffData := batchOffset L * idx, outDiffData := s.outDiffData,
      argmaxData := s.argmaxData }
  { inDiff := r.inDiff, outDiffData := r.outDiffData, argmaxData := r.argmaxData,
    bottomROIs := s.bottomROIs + L.roiOffset }

/-- The method `ROIPoolLayer::backward` (lines 118 to 152) in single precision. -/
def ROIPoolLayer.backward32 (L : ROIPoolLayer) (argmax outDiff inDiff0 : Nat → ℚ) :
    Nat → ℚ :=
  ((List.range L.numROIs).foldl (backRoiStep32 L argmax outDiff)
    { inDiff := inDiff0, outDiffData := 0, argmaxData := 0, bottomROIs := 0 }).inDiff

/-! ## Auxiliary definitions for the single-precision proofs -/

/-- The rounded product `k * binSize` of lines 83 to 86 for a region of size `H` pooled to
`P` cells, all operations in single precision. -/
def prod32 (H P k : Nat) : ℚ := fl32 (fl32 (k : ℚ) * fl32 (fl32 (H : ℚ) / fl32 (P : ℚ)))

/-- The shape shared by `hstart32` and `wstart32`: the lower end of bin `k` of a region from
`S` to `E` pooled to `P` cells, clamped to `B`. -/
def binLo32 (S E P k B : Nat) : Nat :=
  min (max (uadd (toSizeT (stdFloor (prod32 (max (uadd (usub E S) 1) 1) P k))) S) 0) B

/-- The shape shared by `hend32` and `wend32`: the upper end of bin `k`. -/
def binHi32 (S E P k B : Nat) : Nat :=
  min (max (uadd (toSizeT (stdCeil (prod32 (max (uadd (usub E S) 1) 1) P (k + 1)))) S) 0) B

/-- The bins `[lo k, hi k)`, `k < P`, cover the part below `B` of the range `[S, S + H)` and
reach at most one row beyond it: the first starts at `S`, the last ends at `S + H` or at
`S + H + 1` (all clamped to `B`), consecutive bins leave no gap, every row of the range
below `B` lies in some bin, and every bin lies in `[S, S + H + 1)` below `B`. -/
def BinsCover32 (lo hi : Nat → Nat) (P S H B : Nat) : Prop :=
  lo 0 = min S B ∧
  (hi (P - 1) = min (S + H) B ∨ hi (P - 1) = min (S + H + 1) B) ∧
  (∀ k, k + 1 < P → lo (k + 1) ≤ hi k) ∧
  (∀ r, S ≤ r → r < S + H → r < B → ∃ k, k < P ∧ lo k ≤ r ∧ r < hi k) ∧
  (∀ r k, k < P → lo k ≤ r → r < hi k → S ≤ r ∧ r < S + H + 1 ∧ r < B)

/-- The pooled cells `(n, c, ph, pw)` in the order in which the four loops of `backward`
visit them. -/
def cellOrder (L : ROIPoolLayer) : List (Nat × Nat × Nat × Nat) :=
  (List.range L.numROIs).flatMap fun n =>
    (List.range (channels_ L)).flatMap fun c =>
      (List.range L.pooledHeight_).flatMap fun ph =>
        (List.range L.pooledWidth_).map fun pw => (n, c, ph, pw)

/-- The pooled cell `x` routes its gradient to the input-gradient element `j`: its stored
index is positive (line 140) and its target (lines 141 and 142) is `j`. -/
def routesTo (L : ROIPoolLayer) (argmax : Nat → ℚ) (j : Nat) (x : Nat × Nat × Nat × Nat) :
    Bool :=
  decide (0 < argmax (cellIndex L x.1 x.2.1 x.2.2.1 x.2.2.2)
    ∧ j = planeBase L x.1 x.2.1 + toSizeT (argmax (cellIndex L x.1 x.2.1 x.2.2.1 x.2.2.2)))

/-- The output gradients of the cells routed to element `j`, in loop order. -/
def gradientsTo (L : ROIPoolLayer) (argmax outDiff : Nat → ℚ) (j : Nat) : List ℚ :=
  ((cellOrder L).filter (routesTo L argmax j)).map
    (fun x => outDiff (cellIndex L x.1 x.2.1 x.2.2.1 x.2.2.2))

/-- None of the additions that accumulate `gs` onto `a` rounds: every partial sum is a
finite single-precision value. -/
def NoRounding (a : ℚ) (gs : List ℚ) : Prop :=
  ∀ k, k ≤ gs.length →
    fl32 (a + (gs.take k).sum) = a + (gs.take k).sum ∧ |a + (gs.take k).sum| < 2 ^ 128

/-- The value that lines 67 to 70 convert to `size_t`: the scaled coordinate in column `k`
of the region row at offset `roi`, rounded by `std::round`. -/
def scaled32 (L : ROIPoolLayer) (roi k : Nat) : ℚ :=
  stdRound (fl32 (L.bottomROIs (roi + k) * L.spatialScale_))

/-- A plane of 57 rows and 1 column with the region `(0, 0, 0, 0, 56)`, all of its rows,
pooled to 7 rows. -/
def sevenBinLayer : ROIPoolLayer :=
  { pooledWidth_ := 1, pooledHeight_ := 7, spatialScale_ := 1, confHeight := 57,
    confWidth := 1, frameHeight := 0, frameWidth := 0, inputWidth := 57, batchSize := 1,
    numROIs := 1, roiOffset := 5, bottomData := fun i => (i : ℚ),
    bottomROIs := ofList [0, 0, 0, 0, 56] }

/-- A plane of 33554433 rows and 1 column with the region `(0, 0, 1, 0, 33554432)`, its
rows 1 to `2 ^ 25`, pooled to `2 ^ 25` rows. -/
def hugePoolLayer : ROIPoolLayer :=
  { pooledWidth_ := 1, pooledHeight_ := 33554432, spatialScale_ := 1, confHeight := 33554433,
    confWidth := 1, frameHeight := 0, frameWidth := 0, inputWidth := 33554433, batchSize := 1,
    numROIs := 1, roiOffset := 5, bottomData := fun _ => 1,
    bottomROIs := ofList [0, 0, 1, 0, 33554432] }

/-- A plane of 5 rows and 1 column with the region `(0, 0, 0, 0, 2)`, its rows 0 to 2,
pooled to 21 rows. -/
def threeRowLayer : ROIPoolLayer :=
  { pooledWidth_ := 1, pooledHeight_ := 21, spatialScale_ := 1, confHeight := 5,
    confWidth := 1, frameHeight := 0, frameWidth := 0, inputWidth := 5, batchSize := 1,
    numROIs := 1, roiOffset := 5, bottomData := fun i => (i : ℚ),
    bottomROIs := ofList [0, 0, 0, 0, 2] }

/-- A plane of 33554437 rows and 1 column with the region `(0, 0, 3, 0, 33554436)`, its
rows 3 to 33554436, pooled to a single cell. -/
def tallRegionLayer : ROIPoolLayer :=
  { pooledWidth_ := 1, pooledHeight_ := 1, spatialScale_ := 1, confHeight := 33554437,
    confWidth := 1, frameHeight := 0, frameWidth := 0, inputWidth := 33554437, batchSize := 1,
    numROIs := 1, roiOffset := 5, bottomData := fun _ => 1,
    bottomROIs := ofList [0, 0, 3, 0, 33554436] }

/-! # Theorems -/

/-! ## Scalar conversions -/

theorem wrap_natCast (i : Nat) : wrap (i : Int) = i % 2 ^ 64 := by
  unfold wrap
  omega

theorem wrap_of_nonneg_lt (z : Int) (h0 : 0 ≤ z) (h1 : z < 2 ^ 64) : wrap z = z.toNat := by
  unfold wrap
  omega

theorem toSizeT_natCast (i : Nat) : toSizeT (i : ℚ) = i % 2 ^ 64 := by
  unfold toSizeT truncQ
  rw [if_pos (Nat.cast_nonneg i), Int.floor_natCast, wrap_natCast]

theorem toSizeT_natCast_of_lt (i : Nat) (h : i < 2 ^ 64) : toSizeT (i : ℚ) = i := by
  rw [toSizeT_natCast, Nat.mod_eq_of_lt h]

theorem toSizeT_intCast (z : Int) : toSizeT ((z : Int) : ℚ) = wrap z := by
  unfold toSizeT truncQ
  split
  · rw [Int.floor_intCast]
  · rw [Int.ceil_intCast]

theorem Buffers.put_pair (b : Buffers) (i j : Nat) : b.put i j (b.pair i j) = b := by
  cases b
  simp [Buffers.put, Buffers.pair]

theorem Buffers.put_put (b : Buffers) (i j : Nat) (p q : ℚ × ℚ) :
    (b.put i j p).put i j q = b.put i j q := by
  simp [Buffers.put]

theorem Buffers.pair_put (b : Buffers) (i j : Nat) (p : ℚ × ℚ) :
    (b.put i j p).pair i j = p := by
  simp [Buffers.put, Buffers.pair]

/-- A fold whose steps rewrite one fixed cell is a single rewrite of that cell. -/
theorem foldl_put {α : Type} (f : Buffers → α → Buffers) (g : ℚ × ℚ → α → ℚ × ℚ) (i j : Nat)
    (hf : ∀ b x, f b x = b.put i j (g (b.pair i j) x)) (l : List α) (b : Buffers) :
    l.foldl f b = b.put i j (l.foldl g (b.pair i j)) := by
  induction l generalizing b with
  | nil => simp [Buffers.put_pair]
  | cons x l ih =>
    simp only [List.foldl_cons]
    rw [ih, hf, Buffers.put_put, Buffers.pair_put]

theorem scanStep_eq (L : ROIPoolLayer) (bd od ad pi h : Nat) (b : Buffers) (w : Nat) :
    scanStep L bd od ad pi h b w
      = b.put (od + pi) (ad + pi) (scanStepVal L bd h (b.pair (od + pi) (ad + pi)) w) := by
  unfold scanStep scanStepVal
  by_cases hc : L.bottomData (bd + (h * width_ L + w)) > b.outputData (od + pi)
  · simp [hc, Buffers.put, Buffers.pair]
  · have h2 := Buffers.put_pair b (od + pi) (ad + pi)
    simp [hc, Buffers.pair] at h2 ⊢
    exact h2.symm

theorem scanRow_eq (L : ROIPoolLayer) (bd od ad pi ws we : Nat) (b : Buffers) (h : Nat) :
    scanRow L bd od ad pi ws we b h
      = b.put (od + pi) (ad + pi) (scanRowVal L bd ws we (b.pair (od + pi) (ad + pi)) h) := by
  unfold scanRow scanRowVal
  exact foldl_put _ _ _ _ (fun b x => scanStep_eq L bd od ad pi h b x) _ b

theorem poolCell_eq (L : ROIPoolLayer) (roi bd od ad ph : Nat) (b : Buffers) (pw : Nat) :
    poolCell L roi bd od ad ph b pw
      = b.put (od + (ph * L.pooledWidth_ + pw)) (ad + (ph * L.pooledWidth_ + pw))
          (cellVal L roi bd ph pw
            (b.pair (od + (ph * L.pooledWidth_ + pw)) (ad + (ph * L.pooledWidth_ + pw)))) := by
  unfold poolCell cellVal
  simp only []
  rw [foldl_put _ _ _ _ (fun b x => scanRow_eq L bd od ad _ _ _ b x)]
  by_cases he : isEmpty L roi ph pw = true
  · simp only [he, if_true]
    have : ({ outputData := Function.update b.outputData (od + (ph * L.pooledWidth_ + pw)) 0
              argmaxData := Function.update b.argmaxData (ad + (ph * L.pooledWidth_ + pw)) (-1) }
              : Buffers) = b.put (od + (ph * L.pooledWidth_ + pw))
                (ad + (ph * L.pooledWidth_ + pw)) (0, -1) := rfl
    rw [this, Buffers.put_put, Buffers.pair_put]
  · simp only [he]
    simp

/-! ## Locality of buffer transformers -/

theorem LocalOn.mono {S S' : Nat ⊕ Nat → Prop} {T : Buffers → Buffers}
    (h : LocalOn S T) (hS : ∀ x, S x → S' x) : LocalOn S' T := by
  refine ⟨fun b x hx => h.1 b x (fun hs => hx (hS x hs)), fun b b' hag x _ => ?_⟩
  by_cases hs : S x
  · exact h.2 b b' (fun y hy => hag y (hS y hy)) x hs
  · rw [h.1 b x hs, h.1 b' x hs]
    by_cases hs' : S' x
    · exact hag x hs'
    · exact absurd ‹S' x› hs'

/-- A loop whose `k`-th iteration is local to a set `S k`, the sets being pairwise
disjoint: outside all sets nothing changes, and inside `S k` the loop leaves what its
`k`-th iteration alone would leave. -/
theorem foldl_local (f : Buffers → Nat → Buffers) (S : Nat → Nat ⊕ Nat → Prop) (K : Nat)
    (hloc : ∀ k, k < K → LocalOn (S k) (fun b => f b k))
    (hdisj : ∀ k k', k < K → k' < K → k ≠ k' → ∀ x, S k x → ¬ S k' x) :
    (∀ b x, (∀ k, k < K → ¬ S k x) → ((List.range K).foldl f b).view x = b.view x) ∧
    (∀ k, k < K → ∀ b x, S k x → ((List.range K).foldl f b).view x = (f b k).view x) := by
  induction K with
  | zero =>
    exact ⟨fun b x _ => by simp, fun k hk => absurd hk (Nat.not_lt_zero k)⟩
  | succ K ih =>
    have ih' := ih (fun k hk => hloc k (Nat.lt_succ_of_lt hk))
      (fun k k' hk hk' => hdisj k k' (Nat.lt_succ_of_lt hk) (Nat.lt_succ_of_lt hk'))
    have hK := hloc K (Nat.lt_succ_self K)
    constructor
    · intro b x hx
      rw [List.range_succ, List.foldl_append]
      simp only [List.foldl_cons, List.foldl_nil]
      rw [hK.1 _ x (hx K (Nat.lt_succ_self K))]
      exact ih'.1 b x (fun k hk => hx k (Nat.lt_succ_of_lt hk))
    · intro k hk b x hx
      rw [List.range_succ, List.foldl_append]
      simp only [List.foldl_cons, List.foldl_nil]
      rcases Nat.lt_succ_iff_lt_or_eq.mp hk with hlt | heq
      · rw [hK.1 _ x (hdisj k K hk (Nat.lt_succ_self K) (Nat.ne_of_lt hlt) x hx)]
        exact ih'.2 k hlt b x hx
      · subst heq
        refine hK.2 _ b (fun y hy => ih'.1 b y (fun k' hk' hy' => ?_)) x hx
        exact hdisj k' k (Nat.lt_succ_of_lt hk') (Nat.lt_succ_self k) (Nat.ne_of_lt hk') y hy' hy

theorem mul_add_le_of_lt {k k' d : Nat} (h : k < k') : k * d + d ≤ k' * d := by
  calc k * d + d = (k + 1) * d := by ring
    _ ≤ k' * d := Nat.mul_le_mul_right d h

/-- The loop lemma for consecutive blocks of `d` offsets. -/
theorem foldl_blocks (f : Buffers → Nat → Buffers) (ob ab d K : Nat)
    (hloc : ∀ k, k < K →
      LocalOn (blk (ob + k * d) (ob + k * d + d) (ab + k * d) (ab + k * d + d)) (fun b => f b k)) :
    LocalOn (blk ob (ob + K * d) ab (ab + K * d)) (fun b => (List.range K).foldl f b) ∧
    (∀ k, k < K → ∀ b x, blk (ob + k * d) (ob + k * d + d) (ab + k * d) (ab + k * d + d) x →
      ((List.range K).foldl f b).view x = (f b k).view x) := by
  have hdisj : ∀ k k', k < K → k' < K → k ≠ k' → ∀ x,
      blk (ob + k * d) (ob + k * d + d) (ab + k * d) (ab + k * d + d) x →
      ¬ blk (ob + k' * d) (ob + k' * d + d) (ab + k' * d) (ab + k' * d + d) x := by
    intro k k' _ _ hne x hx hx'
    rcases Nat.lt_or_gt_of_ne hne with h | h
    · have := mul_add_le_of_lt (d := d) h
      cases x <;> simp only [blk] at hx hx' <;> omega
    · have := mul_add_le_of_lt (d := d) h
      cases x <;> simp only [blk] at hx hx' <;> omega
  have hsub : ∀ k, k < K → ∀ x,
      blk (ob + k * d) (ob + k * d + d) (ab + k * d) (ab + k * d + d) x →
      blk ob (ob + K * d) ab (ab + K * d) x := by
    intro k hk x hx
    have := mul_add_le_of_lt (d := d) hk
    cases x <;> simp only [blk] at hx ⊢ <;> omega
  have main := foldl_local f _ K hloc hdisj
  refine ⟨⟨fun b x hx => main.1 b x (fun k hk hk' => hx (hsub k hk x hk')), ?_⟩, main.2⟩
  intro b b' hag x hx
  by_cases hex : ∃ k, k < K ∧ blk (ob + k * d) (ob + k * d + d) (ab + k * d) (ab + k * d + d) x
  · obtain ⟨k, hk, hxk⟩ := hex
    rw [main.2 k hk b x hxk, main.2 k hk b' x hxk]
    exact (hloc k hk).2 b b' (fun y hy => hag y (hsub k hk y hy)) x hxk
  · have hno : ∀ k, k < K →
        ¬ blk (ob + k * d) (ob + k * d + d) (ab + k * d) (ab + k * d + d) x :=
      fun k hk hxk => hex ⟨k, hk, hxk⟩
    rw [main.1 b x hno, main.1 b' x hno]
    exact hag x hx

/-! ## The forward loops, level by level -/

theorem put_local (od ad k : Nat) (v : ℚ × ℚ → ℚ × ℚ) :
    LocalOn (blk (od + k) (od + k + 1) (ad + k) (ad + k + 1))
      (fun b => b.put (od + k) (ad + k) (v (b.pair (od + k) (ad + k)))) := by
  constructor
  · intro b x hx
    cases x with
    | inl i =>
      have hne : i ≠ od + k := fun h => hx (by simp only [blk]; omega)
      simp [Buffers.view, Buffers.put, Function.update_noteq hne]
    | inr j =>
      have hne : j ≠ ad + k := fun h => hx (by simp only [blk]; omega)
      simp [Buffers.view, Buffers.put, Function.update_noteq hne]
  · intro b b' hag x hx
    have h1 : b.outputData (od + k) = b'.outputData (od + k) :=
      hag (Sum.inl (od + k)) (by simp only [blk]; omega)
    have h2 : b.argmaxData (ad + k) = b'.argmaxData (ad + k) :=
      hag (Sum.inr (ad + k)) (by simp only [blk]; omega)
    have hp : b.pair (od + k) (ad + k) = b'.pair (od + k) (ad + k) := by
      simp [Buffers.pair, h1, h2]
    cases x with
    | inl i =>
      have : i = od + k := by simp only [blk] at hx; omega
      subst this
      simp [Buffers.view, Buffers.put, hp]
    | inr j =>
      have : j = ad + k := by simp only [blk] at hx; omega
      subst this
      simp [Buffers.view, Buffers.put, hp]

theorem poolCell_local (L : ROIPoolLayer) (roi bd od ad ph pw : Nat) :
    LocalOn (blk (od + (ph * L.pooledWidth_ + pw)) (od + (ph * L.pooledWidth_ + pw) + 1)
        (ad + (ph * L.pooledWidth_ + pw)) (ad + (ph * L.pooledWidth_ + pw) + 1))
      (fun b => poolCell L roi bd od ad ph b pw) := by
  have h := put_local od ad (ph * L.pooledWidth_ + pw) (cellVal L roi bd ph pw)
  have he : (fun b => poolCell L roi bd od ad ph b pw)
      = fun b => b.put (od + (ph * L.pooledWidth_ + pw)) (ad + (ph * L.pooledWidth_ + pw))
          (cellVal L roi bd ph pw
            (b.pair (od + (ph * L.pooledWidth_ + pw)) (ad + (ph * L.pooledWidth_ + pw)))) :=
    funext fun b => poolCell_eq L roi bd od ad ph b pw
  rw [he]
  exact h

theorem poolRow_blocks (L : ROIPoolLayer) (roi bd od ad ph : Nat) :
    LocalOn (blk (od + ph * L.pooledWidth_) (od + ph * L.pooledWidth_ + L.pooledWidth_ * 1)
        (ad + ph * L.pooledWidth_) (ad + ph * L.pooledWidth_ + L.pooledWidth_ * 1))
      (fun b => poolRow L roi bd od ad b ph) ∧
    (∀ pw, pw < L.pooledWidth_ → ∀ b x,
      blk (od + ph * L.pooledWidth_ + pw * 1) (od + ph * L.pooledWidth_ + pw * 1 + 1)
        (ad + ph * L.pooledWidth_ + pw * 1) (ad + ph * L.pooledWidth_ + pw * 1 + 1) x →
      (poolRow L roi bd od ad b ph).view x = (poolCell L roi bd od ad ph b pw).view x) := by
  unfold poolRow
  refine foldl_blocks (poolCell L roi bd od ad ph) (od + ph * L.pooledWidth_)
    (ad + ph * L.pooledWidth_) 1 L.pooledWidth_ (fun pw _ => ?_)
  refine (poolCell_local L roi bd od ad ph pw).mono (fun x hx => ?_)
  cases x <;> simp only [blk] at hx ⊢ <;> omega

theorem poolPlane_blocks (L : ROIPoolLayer) (roi bd od ad : Nat) :
    LocalOn (blk (od + 0) (od + 0 + L.pooledHeight_ * L.pooledWidth_)
        (ad + 0) (ad + 0 + L.pooledHeight_ * L.pooledWidth_))
      (fun b => poolPlane L roi bd od ad b) ∧
    (∀ ph, ph < L.pooledHeight_ → ∀ b x,
      blk (od + 0 + ph * L.pooledWidth_) (od + 0 + ph * L.pooledWidth_ + L.pooledWidth_)
        (ad + 0 + ph * L.pooledWidth_) (ad + 0 + ph * L.pooledWidth_ + L.pooledWidth_) x →
      (poolPlane L roi bd od ad b).view x = (poolRow L roi bd od ad b ph).view x) := by
  unfold poolPlane
  refine foldl_blocks (poolRow L roi bd od ad) (od + 0) (ad + 0) L.pooledWidth_
    L.pooledHeight_ (fun ph _ => ?_)
  refine (poolRow_blocks L roi bd od ad ph).1.mono (fun x hx => ?_)
  cases x <;> simp only [blk] at hx ⊢ <;> omega

theorem channelLoop_eq (L : ROIPoolLayer) (roi bd od ad : Nat) (b : Buffers) (C : Nat) :
    (List.range C).foldl (channelStep L roi)
        { bufs := b, batchData := bd, outputData := od, argmaxData := ad }
      = { bufs := (List.range C).foldl
            (fun b c => poolPlane L roi (bd + c * channelOffset L)
              (od + c * poolChannelOffset L) (ad + c * poolChannelOffset L) b) b
          batchData := bd + C * channelOffset L
          outputData := od + C * poolChannelOffset L
          argmaxData := ad + C * poolChannelOffset L } := by
  induction C with
  | zero => simp
  | succ C ih =>
    rw [List.range_succ, List.foldl_append, List.foldl_append, ih]
    simp only [List.foldl_cons, List.foldl_nil, channelStep]
    congr 1 <;> ring

theorem regionBody_blocks (L : ROIPoolLayer) (roi bd od ad : Nat) :
    LocalOn (blk od (od + channels_ L * poolChannelOffset L)
        ad (ad + channels_ L * poolChannelOffset L))
      (fun b => regionBody L roi bd od ad b) ∧
    (∀ c, c < channels_ L → ∀ b x,
      blk (od + c * poolChannelOffset L) (od + c * poolChannelOffset L + poolChannelOffset L)
        (ad + c * poolChannelOffset L) (ad + c * poolChannelOffset L + poolChannelOffset L) x →
      (regionBody L roi bd od ad b).view x
        = (poolPlane L roi (bd + c * channelOffset L) (od + c * poolChannelOffset L)
            (ad + c * poolChannelOffset L) b).view x) := by
  unfold regionBody
  refine foldl_blocks _ od ad (poolChannelOffset L) (channels_ L) (fun c _ => ?_)
  have h := (poolPlane_blocks L roi (bd + c * channelOffset L) (od + c * poolChannelOffset L)
    (ad + c * poolChannelOffset L)).1
  rw [show L.pooledHeight_ * L.pooledWidth_ = poolChannelOffset L from rfl] at h
  refine h.mono (fun x hx => ?_)
  cases x <;> simp only [blk] at hx ⊢ <;> omega

theorem roiStep_of_valid (L : ROIPoolLayer) (b : Buffers) (od ad rp n : Nat)
    (h : roiBatchIdx L rp < L.batchSize) :
    roiStep L { bufs := b, outputData := od, argmaxData := ad, bottomROIs := rp } n = some
      { bufs := regionBody L rp (batchOffset L * roiBatchIdx L rp) od ad b
        outputData := od + channels_ L * poolChannelOffset L
        argmaxData := ad + channels_ L * poolChannelOffset L
        bottomROIs := rp + L.roiOffset } := by
  unfold roiStep
  simp only [Nat.zero_le, true_and, h, if_true, channelLoop_eq]
  rfl

theorem foldlM_range_succ {σ : Type} (f : σ → Nat → Option σ) (s : σ) (N : Nat) :
    List.foldlM f s (List.range (N + 1))
      = (List.foldlM f s (List.range N)).bind (fun t => f t N) := by
  rw [List.range_succ, List.foldlM_append]
  cases List.foldlM f s (List.range N) <;> simp

theorem roiLoop_eq (L : ROIPoolLayer) (rp od ad : Nat) (b : Buffers) (N : Nat)
    (hv : ∀ n, n < N → roiBatchIdx L (rp + n * L.roiOffset) < L.batchSize) :
    List.foldlM (roiStep L)
        { bufs := b, outputData := od, argmaxData := ad, bottomROIs := rp } (List.range N)
      = some { bufs := roiLoopBody L rp od ad b N
               outputData := od + N * (channels_ L * poolChannelOffset L)
               argmaxData := ad + N * (channels_ L * poolChannelOffset L)
               bottomROIs := rp + N * L.roiOffset } := by
  induction N with
  | zero =>
    simp only [List.range_zero, List.foldlM_nil, roiLoopBody, List.foldl_nil, Nat.zero_mul,
      Nat.add_zero]
    rfl
  | succ N ih =>
    rw [foldlM_range_succ, ih (fun n hn => hv n (Nat.lt_succ_of_lt hn)), Option.some_bind,
      roiStep_of_valid L _ _ _ _ N (hv N (Nat.lt_succ_self N))]
    have e1 : roiLoopBody L rp od ad b (N + 1)
        = regionBody L (rp + N * L.roiOffset)
            (batchOffset L * roiBatchIdx L (rp + N * L.roiOffset))
            (od + N * (channels_ L * poolChannelOffset L))
            (ad + N * (channels_ L * poolChannelOffset L)) (roiLoopBody L rp od ad b N) := by
      simp only [roiLoopBody, List.range_succ, List.foldl_append, List.foldl_cons,
        List.foldl_nil]
    rw [e1, Nat.succ_mul, Nat.succ_mul, Nat.add_assoc, Nat.add_assoc, Nat.add_assoc]

/-- When every region passes the checks, `forward` returns the buffers left by the
closed-form loops. -/
theorem forward_eq_some (L : ROIPoolLayer) (out0 arg0 : Nat → ℚ)
    (hv : ∀ n, n < L.numROIs → roiBatchIdx L (n * L.roiOffset) < L.batchSize) :
    L.forward out0 arg0
      = some (roiLoopBody L 0 0 0 { outputData := out0, argmaxData := arg0 } L.numROIs) := by
  unfold ROIPoolLayer.forward
  rw [roiLoop_eq L 0 0 0 _ L.numROIs (fun n hn => by simpa using hv n hn)]
  rfl

theorem roiLoopBody_view (L : ROIPoolLayer) (rp od ad : Nat) (b : Buffers) (N n c ph pw : Nat)
    (hn : n < N) (hc : c < channels_ L) (hph : ph < L.pooledHeight_)
    (hpw : pw < L.pooledWidth_) (x : Nat ⊕ Nat)
    (hx : blk (od + cellIndex L n c ph pw) (od + cellIndex L n c ph pw + 1)
      (ad + cellIndex L n c ph pw) (ad + cellIndex L n c ph pw + 1) x) :
    (roiLoopBody L rp od ad b N).view x
      = (poolCell L (rp + n * L.roiOffset)
          (batchOffset L * roiBatchIdx L (rp + n * L.roiOffset) + c * channelOffset L)
          (od + n * (channels_ L * poolChannelOffset L) + c * poolChannelOffset L)
          (ad + n * (channels_ L * poolChannelOffset L) + c * poolChannelOffset L)
          ph b pw).view x := by
  have h1 : ph * L.pooledWidth_ + L.pooledWidth_ ≤ poolChannelOffset L :=
    mul_add_le_of_lt hph
  have h2 : c * poolChannelOffset L + poolChannelOffset L
      ≤ channels_ L * poolChannelOffset L := mul_add_le_of_lt hc
  unfold cellIndex at hx
  have hloop := (foldl_blocks
    (fun b n => regionBody L (rp + n * L.roiOffset)
      (batchOffset L * roiBatchIdx L (rp + n * L.roiOffset))
      (od + n * (channels_ L * poolChannelOffset L))
      (ad + n * (channels_ L * poolChannelOffset L)) b)
    od ad (channels_ L * poolChannelOffset L) N
    (fun _ _ => (regionBody_blocks L _ _ _ _).1)).2 n hn b x
    (by cases x <;> simp only [blk] at hx ⊢ <;> omega)
  have hreg := (regionBody_blocks L (rp + n * L.roiOffset)
    (batchOffset L * roiBatchIdx L (rp + n * L.roiOffset))
    (od + n * (channels_ L * poolChannelOffset L))
    (ad + n * (channels_ L * poolChannelOffset L))).2 c hc b x
    (by cases x <;> simp only [blk] at hx ⊢ <;> omega)
  have hpl := (poolPlane_blocks L (rp + n * L.roiOffset)
    (batchOffset L * roiBatchIdx L (rp + n * L.roiOffset) + c * channelOffset L)
    (od + n * (channels_ L * poolChannelOffset L) + c * poolChannelOffset L)
    (ad + n * (channels_ L * poolChannelOffset L) + c * poolChannelOffset L)).2 ph hph b x
    (by cases x <;> simp only [blk] at hx ⊢ <;> omega)
  have hrow := (poolRow_blocks L (rp + n * L.roiOffset)
    (batchOffset L * roiBatchIdx L (rp + n * L.roiOffset) + c * channelOffset L)
    (od + n * (channels_ L * poolChannelOffset L) + c * poolChannelOffset L)
    (ad + n * (channels_ L * poolChannelOffset L) + c * poolChannelOffset L) ph).2 pw hpw b x
    (by cases x <;> simp only [blk] at hx ⊢ <;> omega)
  unfold roiLoopBody
  rw [hloop, hreg, hpl, hrow]

/-- Outside the cells of the `N` regions the region loop changes nothing. -/
theorem roiLoopBody_frame (L : ROIPoolLayer) (rp od ad : Nat) (b : Buffers) (N : Nat)
    (x : Nat ⊕ Nat)
    (hx : ¬ blk od (od + N * (channels_ L * poolChannelOffset L))
      ad (ad + N * (channels_ L * poolChannelOffset L)) x) :
    (roiLoopBody L rp od ad b N).view x = b.view x :=
  (foldl_blocks
    (fun b n => regionBody L (rp + n * L.roiOffset)
      (batchOffset L * roiBatchIdx L (rp + n * L.roiOffset))
      (od + n * (channels_ L * poolChannelOffset L))
      (ad + n * (channels_ L * poolChannelOffset L)) b)
    od ad (channels_ L * poolChannelOffset L) N
    (fun _ _ => (regionBody_blocks L _ _ _ _).1)).1.1 b x hx

/-- Every pooled cell is computed from the pair its own offsets held before the call:
the loops over regions, channels and cells do not interfere. -/
theorem forward_cell (L : ROIPoolLayer) (out0 arg0 : Nat → ℚ)
    (hv : ∀ n, n < L.numROIs → roiBatchIdx L (n * L.roiOffset) < L.batchSize) :
    ∃ r, L.forward out0 arg0 = some r ∧
      ∀ n c ph pw, n < L.numROIs → c < channels_ L → ph < L.pooledHeight_ →
        pw < L.pooledWidth_ →
        (r.outputData (cellIndex L n c ph pw), r.argmaxData (cellIndex L n c ph pw))
          = cellVal L (n * L.roiOffset) (planeBase L n c) ph pw
              (out0 (cellIndex L n c ph pw), arg0 (cellIndex L n c ph pw)) := by
  refine ⟨_, forward_eq_some L out0 arg0 hv, ?_⟩
  intro n c ph pw hn hc hph hpw
  have hv1 := roiLoopBody_view L 0 0 0 { outputData := out0, argmaxData := arg0 } L.numROIs
    n c ph pw hn hc hph hpw (Sum.inl (cellIndex L n c ph pw)) (by simp only [blk]; omega)
  have hv2 := roiLoopBody_view L 0 0 0 { outputData := out0, argmaxData := arg0 } L.numROIs
    n c ph pw hn hc hph hpw (Sum.inr (cellIndex L n c ph pw)) (by simp only [blk]; omega)
  rw [poolCell_eq] at hv1 hv2
  simp only [Buffers.view, Sum.elim_inl, Sum.elim_inr, Nat.zero_add] at hv1 hv2
  have e' : n * (channels_ L * poolChannelOffset L) + c * poolChannelOffset L
      + (ph * L.pooledWidth_ + pw) = cellIndex L n c ph pw := rfl
  simp only [e', Buffers.put, Buffers.pair, Function.update_same] at hv1 hv2
  rw [hv1, hv2]
  rfl

/-! ## The scan of one cell -/

theorem foldl_flatMap_map {σ : Type} (f : Nat → σ → Nat → σ) (m : List Nat) (l : List Nat)
    (p : σ) :
    (l.flatMap (fun h => m.map (fun w => (h, w)))).foldl (fun q hw => f hw.1 q hw.2) p
      = l.foldl (fun q h => m.foldl (f h) q) p := by
  induction l generalizing p with
  | nil => rfl
  | cons h l ih =>
    rw [List.flatMap_cons, List.foldl_append, List.foldl_cons, ih, List.foldl_map]

/-- The nested scan loops are one pass over the visited positions. -/
theorem cellVal_eq_foldl (L : ROIPoolLayer) (roi bd ph pw : Nat) (p : ℚ × ℚ) :
    cellVal L roi bd ph pw p
      = (scanned L roi ph pw).foldl (fun q hw => scanStepVal L bd hw.1 q hw.2)
          (if isEmpty L roi ph pw then (0, -1) else p) := by
  unfold cellVal scanned
  rw [foldl_flatMap_map (scanStepVal L bd)]
  rfl

theorem mem_scanned (L : ROIPoolLayer) (roi ph pw : Nat) (hw : Nat × Nat) :
    hw ∈ scanned L roi ph pw ↔
      (hstart L roi ph ≤ hw.1 ∧ hw.1 < hend L roi ph) ∧
      (wstart L roi pw ≤ hw.2 ∧ hw.2 < wend L roi pw) := by
  obtain ⟨h, w⟩ := hw
  simp only [scanned, List.mem_flatMap, List.mem_map, List.mem_range'_1, Prod.mk.injEq]
  constructor
  · rintro ⟨h', ⟨h1, h2⟩, w', ⟨h3, h4⟩, rfl, rfl⟩
    exact ⟨⟨h1, by omega⟩, ⟨h3, by omega⟩⟩
  · rintro ⟨⟨h1, h2⟩, ⟨h3, h4⟩⟩
    exact ⟨h, ⟨h1, by omega⟩, w, ⟨h3, by omega⟩, rfl, rfl⟩

theorem isEmpty_iff (L : ROIPoolLayer) (roi ph pw : Nat) :
    isEmpty L roi ph pw = true ↔
      hend L roi ph ≤ hstart L roi ph ∨ wend L roi pw ≤ wstart L roi pw := by
  simp [isEmpty]

theorem scanFold_nil (L : ROIPoolLayer) (bd : Nat) (p : ℚ × ℚ) : scanFold L bd [] p = p := rfl

theorem scanFold_cons (L : ROIPoolLayer) (bd : Nat) (x : Nat × Nat) (l : List (Nat × Nat))
    (p : ℚ × ℚ) :
    scanFold L bd (x :: l) p
      = scanFold L bd l (if featAt L bd x > p.1 then (featAt L bd x, (flatIndex L x : ℚ)) else p) :=
  rfl

theorem cellVal_eq_scanFold (L : ROIPoolLayer) (roi bd ph pw : Nat) (p : ℚ × ℚ) :
    cellVal L roi bd ph pw p
      = scanFold L bd (scanned L roi ph pw) (if isEmpty L roi ph pw then (0, -1) else p) :=
  cellVal_eq_foldl L roi bd ph pw p

/-- When no scanned value exceeds the running output, the scan changes nothing. -/
theorem scanFold_of_le (L : ROIPoolLayer) (bd : Nat) (l : List (Nat × Nat)) (p : ℚ × ℚ)
    (h : ∀ x ∈ l, featAt L bd x ≤ p.1) : scanFold L bd l p = p := by
  induction l with
  | nil => rfl
  | cons x l ih =>
    rw [scanFold_cons, if_neg (not_lt.mpr (h x (List.mem_cons_self x l)))]
    exact ih (fun y hy => h y (List.mem_cons_of_mem x hy))

/-- When some scanned value exceeds the running output, the scan ends on the first
position, in scan order, that holds the largest scanned value. -/
theorem scanFold_of_lt (L : ROIPoolLayer) (bd : Nat) (l : List (Nat × Nat)) (p : ℚ × ℚ)
    (h : ∃ x ∈ l, p.1 < featAt L bd x) :
    ∃ l1 x l2, l = l1 ++ x :: l2 ∧
      scanFold L bd l p = (featAt L bd x, (flatIndex L x : ℚ)) ∧
      p.1 < featAt L bd x ∧
      (∀ y ∈ l1, featAt L bd y < featAt L bd x) ∧
      (∀ y ∈ l2, featAt L bd y ≤ featAt L bd x) := by
  induction l generalizing p with
  | nil => obtain ⟨x, hx, _⟩ := h; exact absurd hx (List.not_mem_nil x)
  | cons x l ih =>
    rw [scanFold_cons]
    by_cases hgt : featAt L bd x > p.1
    · rw [if_pos hgt]
      by_cases hrest : ∃ y ∈ l, featAt L bd x < featAt L bd y
      · obtain ⟨l1, z, l2, hl, hres, hlt, h1, h2⟩ := ih (featAt L bd x, (flatIndex L x : ℚ)) hrest
        refine ⟨x :: l1, z, l2, by rw [hl]; rfl, hres, lt_trans hgt hlt, ?_, h2⟩
        intro y hy
        rcases List.mem_cons.mp hy with rfl | hy'
        · exact hlt
        · exact h1 y hy'
      · have hle : ∀ y ∈ l, featAt L bd y ≤ featAt L bd x :=
          fun y hy => not_lt.mp (fun hlt => hrest ⟨y, hy, hlt⟩)
        refine ⟨[], x, l, rfl, scanFold_of_le L bd l _ hle, hgt, ?_, hle⟩
        intro y hy
        exact absurd hy (List.not_mem_nil y)
    · rw [if_neg hgt]
      have hrest : ∃ y ∈ l, p.1 < featAt L bd y := by
        obtain ⟨y, hy, hlt⟩ := h
        rcases List.mem_cons.mp hy with rfl | hy'
        · exact absurd hlt hgt
        · exact ⟨y, hy', hlt⟩
      obtain ⟨l1, z, l2, hl, hres, hlt, h1, h2⟩ := ih p hrest
      refine ⟨x :: l1, z, l2, by rw [hl]; rfl, hres, hlt, ?_, h2⟩
      intro y hy
      rcases List.mem_cons.mp hy with rfl | hy'
      · exact lt_of_le_of_lt (not_lt.mp hgt) hlt
      · exact h1 y hy'

/-- The scan either keeps the pair it started from or ends on a scanned position whose
value exceeds the starting output. -/
theorem scanFold_cases (L : ROIPoolLayer) (bd : Nat) (l : List (Nat × Nat)) (p : ℚ × ℚ) :
    scanFold L bd l p = p ∨
      ∃ x ∈ l, scanFold L bd l p = (featAt L bd x, (flatIndex L x : ℚ)) ∧ p.1 < featAt L bd x := by
  by_cases h : ∃ x ∈ l, p.1 < featAt L bd x
  · obtain ⟨l1, x, l2, hl, hres, hlt, _, _⟩ := scanFold_of_lt L bd l p h
    exact Or.inr ⟨x, by rw [hl]; exact List.mem_append_right l1 (List.mem_cons_self x l2),
      hres, hlt⟩
  · exact Or.inl (scanFold_of_le L bd l p
      (fun x hx => not_lt.mp (fun hlt => h ⟨x, hx, hlt⟩)))

theorem scanFold_keep_or_eq (L : ROIPoolLayer) (bd : Nat) (l : List (Nat × Nat)) (o a a' : ℚ) :
    scanFold L bd l (o, a) = (o, a) ∨ scanFold L bd l (o, a') = scanFold L bd l (o, a) := by
  induction l with
  | nil => exact Or.inl rfl
  | cons y l ih =>
    rw [scanFold_cons, scanFold_cons]
    by_cases hgt : featAt L bd y > o
    · simp only [hgt, if_true, or_true]
    · simp only [hgt, if_false]
      exact ih

/-- The pair a scan ends on does not depend on the argmax value it started from, once the
scan has changed the output. -/
theorem scanFold_indep (L : ROIPoolLayer) (bd : Nat) (l : List (Nat × Nat)) (o a a' : ℚ)
    (h : (scanFold L bd l (o, a)).1 ≠ o) : scanFold L bd l (o, a') = scanFold L bd l (o, a) := by
  rcases scanFold_keep_or_eq L bd l o a a' with hk | he
  · exact absurd (by rw [hk]) h
  · exact he

/-- The pair `forward` leaves in a cell does not depend on the argmax value the cell held
before, once the output differs from the value it held before. -/
theorem cellVal_indep (L : ROIPoolLayer) (roi bd ph pw : Nat) (o a a' : ℚ)
    (h : (cellVal L roi bd ph pw (o, a)).1 ≠ o) :
    cellVal L roi bd ph pw (o, a') = cellVal L roi bd ph pw (o, a) := by
  rw [cellVal_eq_scanFold, cellVal_eq_scanFold] at *
  by_cases he : isEmpty L roi ph pw = true
  · simp only [he, if_true]
  · simp only [he] at h ⊢
    exact scanFold_indep L bd _ o a a' h

/-- When the bin is not empty and no scanned value exceeds the value the output cell held
before, the cell keeps its prior output and its prior argmax. -/
theorem cellVal_of_le (L : ROIPoolLayer) (roi bd ph pw : Nat) (p : ℚ × ℚ)
    (hne : isEmpty L roi ph pw = false)
    (hle : ∀ x ∈ scanned L roi ph pw, featAt L bd x ≤ p.1) :
    cellVal L roi bd ph pw p = p := by
  rw [cellVal_eq_scanFold, hne]
  exact scanFold_of_le L bd _ p hle

theorem hend_le_height (L : ROIPoolLayer) (roi ph : Nat) : hend L roi ph ≤ height_ L :=
  Nat.min_le_right _ _

theorem wend_le_width (L : ROIPoolLayer) (roi pw : Nat) : wend L roi pw ≤ width_ L :=
  Nat.min_le_right _ _

theorem hstart_le_height (L : ROIPoolLayer) (roi ph : Nat) : hstart L roi ph ≤ height_ L :=
  Nat.min_le_right _ _

theorem wstart_le_width (L : ROIPoolLayer) (roi pw : Nat) : wstart L roi pw ≤ width_ L :=
  Nat.min_le_right _ _

/-- Every scanned position has a flat index inside the plane. -/
theorem flatIndex_lt_of_mem (L : ROIPoolLayer) (roi ph pw : Nat) (x : Nat × Nat)
    (hx : x ∈ scanned L roi ph pw) : flatIndex L x < height_ L * width_ L := by
  rw [mem_scanned] at hx
  have h1 : x.1 < height_ L := lt_of_lt_of_le hx.1.2 (hend_le_height L roi ph)
  have h2 : x.2 < width_ L := lt_of_lt_of_le hx.2.2 (wend_le_width L roi pw)
  have h3 : x.1 * width_ L + width_ L ≤ height_ L * width_ L := mul_add_le_of_lt h1
  unfold flatIndex
  omega

/-! ## The backward loops -/

/-- A loop whose iterations each add an amount that does not depend on the buffer adds the
sum of the amounts. -/
theorem foldl_additive (f : (Nat → ℚ) → Nat → (Nat → ℚ)) (δ : Nat → Nat → ℚ)
    (hf : ∀ g k j, f g k j = g j + δ k j) (K : Nat) (g : Nat → ℚ) (j : Nat) :
    (List.range K).foldl f g j = g j + ∑ k in Finset.range K, δ k j := by
  induction K with
  | zero => simp
  | succ K ih =>
    rw [List.range_succ, List.foldl_append, Finset.sum_range_succ]
    simp only [List.foldl_cons, List.foldl_nil]
    rw [hf, ih]
    ring

theorem backCell_apply (L : ROIPoolLayer) (argmax outDiff : Nat → ℚ) (bdd odd add ph : Nat)
    (g : Nat → ℚ) (pw j : Nat) :
    backCell L argmax outDiff bdd odd add ph g pw j
      = g j + backTerm argmax outDiff bdd odd add (ph * L.pooledWidth_ + pw) j := by
  unfold backCell backTerm
  by_cases hpos : argmax (add + (ph * L.pooledWidth_ + pw)) > 0
  · have hpos' : 0 < argmax (add + (ph * L.pooledWidth_ + pw)) := hpos
    by_cases hj : j = bdd + toSizeT (argmax (add + (ph * L.pooledWidth_ + pw)))
    · subst hj
      simp [hpos']
    · simp [hpos', hj, Function.update_noteq hj]
  · have hpos' : ¬ 0 < argmax (add + (ph * L.pooledWidth_ + pw)) := hpos
    simp [hpos']

theorem backRow_apply (L : ROIPoolLayer) (argmax outDiff : Nat → ℚ) (bdd odd add : Nat)
    (g : Nat → ℚ) (ph j : Nat) :
    backRow L argmax outDiff bdd odd add g ph j
      = g j + ∑ pw in Finset.range L.pooledWidth_,
          backTerm argmax outDiff bdd odd add (ph * L.pooledWidth_ + pw) j := by
  unfold backRow
  exact foldl_additive _ _ (fun g k j => backCell_apply L argmax outDiff bdd odd add ph g k j)
    _ g j

theorem backPlane_apply (L : ROIPoolLayer) (argmax outDiff : Nat → ℚ) (bdd odd add : Nat)
    (g : Nat → ℚ) (j : Nat) :
    backPlane L argmax outDiff bdd odd add g j
      = g j + ∑ ph in Finset.range L.pooledHeight_, ∑ pw in Finset.range L.pooledWidth_,
          backTerm argmax outDiff bdd odd add (ph * L.pooledWidth_ + pw) j := by
  unfold backPlane
  exact foldl_additive _ _ (fun g k j => backRow_apply L argmax outDiff bdd odd add g k j)
    _ g j

theorem backChannelLoop_eq (L : ROIPoolLayer) (argmax outDiff : Nat → ℚ) (bdd odd add : Nat)
    (g : Nat → ℚ) (C : Nat) :
    (List.range C).foldl (backChannelStep L argmax outDiff)
        { inDiff := g, batchDiffData := bdd, outDiffData := odd, argmaxData := add }
      = { inDiff := (List.range C).foldl
            (fun g c => backPlane L argmax outDiff (bdd + c * channelOffset L)
              (odd + c * poolChannelOffset L) (add + c * poolChannelOffset L) g) g
          batchDiffData := bdd + C * channelOffset L
          outDiffData := odd + C * poolChannelOffset L
          argmaxData := add + C * poolChannelOffset L } := by
  induction C with
  | zero => simp
  | succ C ih =>
    rw [List.range_succ, List.foldl_append, List.foldl_append, ih]
    simp only [List.foldl_cons, List.foldl_nil, backChannelStep]
    congr 1 <;> ring

theorem backRoiLoop_eq (L : ROIPoolLayer) (argmax outDiff : Nat → ℚ) (rp odd add : Nat)
    (g : Nat → ℚ) (N : Nat) :
    (List.range N).foldl (backRoiStep L argmax outDiff)
        { inDiff := g, outDiffData := odd, argmaxData := add, bottomROIs := rp }
      = { inDiff := backLoopBody L argmax outDiff rp odd add g N
          outDiffData := odd + N * (channels_ L * poolChannelOffset L)
          argmaxData := add + N * (channels_ L * poolChannelOffset L)
          bottomROIs := rp + N * L.roiOffset } := by
  induction N with
  | zero => simp [backLoopBody]
  | succ N ih =>
    rw [List.range_succ, List.foldl_append, ih]
    simp only [List.foldl_cons, List.foldl_nil, backRoiStep, backChannelLoop_eq, backLoopBody,
      List.range_succ, List.foldl_append]
    congr 1 <;> ring

/-- Closed form of `backward`: every element receives its prior value plus the gradients of
the cells routed to it. -/
theorem backward_apply (L : ROIPoolLayer) (argmax outDiff inDiff0 : Nat → ℚ) (j : Nat) :
    L.backward argmax outDiff inDiff0 j = inDiff0 j + routed L argmax outDiff j := by
  unfold ROIPoolLayer.backward
  rw [backRoiLoop_eq]
  simp only [backLoopBody]
  rw [foldl_additive _
    (fun n j => ∑ c in Finset.range (channels_ L),
      ∑ ph in Finset.range L.pooledHeight_, ∑ pw in Finset.range L.pooledWidth_,
        cellGrad L argmax outDiff n c ph pw j)]
  · rfl
  · intro g n j
    rw [foldl_additive _
      (fun c j => ∑ ph in Finset.range L.pooledHeight_, ∑ pw in Finset.range L.pooledWidth_,
        cellGrad L argmax outDiff n c ph pw j)]
    intro g c j
    rw [backPlane_apply]
    congr 1
    refine Finset.sum_congr rfl (fun ph _ => Finset.sum_congr rfl (fun pw _ => ?_))
    simp only [backTerm, cellGrad, cellIndex, planeBase, Nat.zero_add]

/-! ## A gradient injected at a single cell -/

theorem radix_inj {a a' r r' d : Nat} (hr : r < d) (hr' : r' < d)
    (h : a * d + r = a' * d + r') : a = a' ∧ r = r' := by
  have hd : 0 < d := Nat.lt_of_le_of_lt (Nat.zero_le r) hr
  have h1 : (a * d + r) / d = a := by
    rw [Nat.add_comm, Nat.add_mul_div_right _ _ hd, Nat.div_eq_of_lt hr, Nat.zero_add]
  have h2 : (a' * d + r') / d = a' := by
    rw [Nat.add_comm, Nat.add_mul_div_right _ _ hd, Nat.div_eq_of_lt hr', Nat.zero_add]
  have ha : a = a' := by rw [← h1, ← h2, h]
  subst ha
  exact ⟨rfl, Nat.add_left_cancel h⟩

/-- Distinct pooled cells have distinct offsets. -/
theorem cellIndex_inj (L : ROIPoolLayer) {n c ph pw n' c' ph' pw' : Nat}
    (hc : c < channels_ L) (hph : ph < L.pooledHeight_) (hpw : pw < L.pooledWidth_)
    (hc' : c' < channels_ L) (hph' : ph' < L.pooledHeight_) (hpw' : pw' < L.pooledWidth_)
    (h : cellIndex L n c ph pw = cellIndex L n' c' ph' pw') :
    n = n' ∧ c = c' ∧ ph = ph' ∧ pw = pw' := by
  unfold cellIndex poolChannelOffset at h
  have e : ∀ n c ph pw : Nat,
      n * (channels_ L * (L.pooledHeight_ * L.pooledWidth_))
        + c * (L.pooledHeight_ * L.pooledWidth_) + (ph * L.pooledWidth_ + pw)
      = ((n * channels_ L + c) * L.pooledHeight_ + ph) * L.pooledWidth_ + pw := by
    intro n c ph pw; ring
  rw [e, e] at h
  obtain ⟨h1, h2⟩ := radix_inj hpw hpw' h
  obtain ⟨h3, h4⟩ := radix_inj hph hph' h1
  obtain ⟨h5, h6⟩ := radix_inj hc hc' h3
  exact ⟨h5, h6, h4, h2⟩

/-- The gradient routed to element `j` when the output gradient is `g` at one cell and 0 at
all other cells. -/
theorem routed_single (L : ROIPoolLayer) (argmax : Nat → ℚ) (g : ℚ) (n c ph pw j : Nat)
    (hn : n < L.numROIs) (hc : c < channels_ L) (hph : ph < L.pooledHeight_)
    (hpw : pw < L.pooledWidth_) :
    routed L argmax (fun i => if i = cellIndex L n c ph pw then g else 0) j
      = if 0 < argmax (cellIndex L n c ph pw)
            ∧ j = planeBase L n c + toSizeT (argmax (cellIndex L n c ph pw)) then g else 0 := by
  have hzero : ∀ n' c' ph' pw', c' < channels_ L → ph' < L.pooledHeight_ →
      pw' < L.pooledWidth_ → ¬ (n' = n ∧ c' = c ∧ ph' = ph ∧ pw' = pw) →
      cellGrad L argmax (fun i => if i = cellIndex L n c ph pw then g else 0) n' c' ph' pw' j
        = 0 := by
    intro n' c' ph' pw' hc' hph' hpw' hne
    unfold cellGrad
    have : cellIndex L n' c' ph' pw' ≠ cellIndex L n c ph pw :=
      fun h => hne (cellIndex_inj L hc' hph' hpw' hc hph hpw h)
    simp [this]
  unfold routed
  rw [Finset.sum_eq_single n, Finset.sum_eq_single c, Finset.sum_eq_single ph,
    Finset.sum_eq_single pw]
  · simp [cellGrad]
  · intro pw' hpw' hne
    exact hzero n c ph pw' hc hph (Finset.mem_range.mp hpw') (fun h => hne h.2.2.2)
  · intro h; exact absurd (Finset.mem_range.mpr hpw) h
  · intro ph' hph' hne
    exact Finset.sum_eq_zero (fun pw' hpw' =>
      hzero n c ph' pw' hc (Finset.mem_range.mp hph') (Finset.mem_range.mp hpw')
        (fun h => hne h.2.2.1))
  · intro h; exact absurd (Finset.mem_range.mpr hph) h
  · intro c' hc' hne
    exact Finset.sum_eq_zero (fun ph' hph' => Finset.sum_eq_zero (fun pw' hpw' =>
      hzero n c' ph' pw' (Finset.mem_range.mp hc') (Finset.mem_range.mp hph')
        (Finset.mem_range.mp hpw') (fun h => hne h.2.1)))
  · intro h; exact absurd (Finset.mem_range.mpr hc) h
  · intro n' _ hne
    exact Finset.sum_eq_zero (fun c' hc' => Finset.sum_eq_zero (fun ph' hph' =>
      Finset.sum_eq_zero (fun pw' hpw' =>
        hzero n' c' ph' pw' (Finset.mem_range.mp hc') (Finset.mem_range.mp hph')
          (Finset.mem_range.mp hpw') (fun h => hne h.1))))
  · intro h; exact absurd (Finset.mem_range.mpr hn) h

/-- For a cell whose stored index is positive, `backward` with gradient 1 at that cell and
0 at all other cells adds exactly 1 to the element the stored index points at and leaves
every other element at its prior value. -/
theorem backward_single_positive (L : ROIPoolLayer) (argmax inDiff0 : Nat → ℚ)
    (n c ph pw : Nat) (hn : n < L.numROIs) (hc : c < channels_ L)
    (hph : ph < L.pooledHeight_) (hpw : pw < L.pooledWidth_)
    (hpos : 0 < argmax (cellIndex L n c ph pw)) (j : Nat) :
    L.backward argmax (fun i => if i = cellIndex L n c ph pw then 1 else 0) inDiff0 j
      = if j = batchOffset L * roiBatchIdx L (n * L.roiOffset) + c * channelOffset L
              + toSizeT (argmax (cellIndex L n c ph pw))
        then inDiff0 j + 1 else inDiff0 j := by
  rw [backward_apply, routed_single L argmax 1 n c ph pw j hn hc hph hpw]
  simp only [hpos, true_and, planeBase]
  split <;> simp

/-! ## Bin geometry when the unsigned arithmetic does not wrap -/

theorem hstart_eq_binLo (L : ROIPoolLayer) (roi ph : Nat) :
    hstart L roi ph
      = binLo (roiStartH L roi) (roiEndH L roi) L.pooledHeight_ ph (height_ L) := rfl

theorem hend_eq_binHi (L : ROIPoolLayer) (roi ph : Nat) :
    hend L roi ph
      = binHi (roiStartH L roi) (roiEndH L roi) L.pooledHeight_ ph (height_ L) := rfl

theorem wstart_eq_binLo (L : ROIPoolLayer) (roi pw : Nat) :
    wstart L roi pw
      = binLo (roiStartW L roi) (roiEndW L roi) L.pooledWidth_ pw (width_ L) := rfl

theorem wend_eq_binHi (L : ROIPoolLayer) (roi pw : Nat) :
    wend L roi pw
      = binHi (roiStartW L roi) (roiEndW L roi) L.pooledWidth_ pw (width_ L) := rfl

/-- The unsigned size of a region that is not inverted is `E - S + 1`. -/
theorem size_of_le (S E : Nat) (hSE : S ≤ E) (hE : E + 1 < 2 ^ 64) :
    max (uadd (usub E S) 1) 1 = E - S + 1 := by
  unfold uadd usub wrap
  omega

/-- Lower end of a bin when the region is not inverted and `E + 1` fits `size_t`. -/
theorem binLo_of_le (S E P k B : Nat) (hSE : S ≤ E) (hE : E + 1 < 2 ^ 64) (hk : k < P) :
    binLo S E P k B = min (⌊(k : ℚ) * (((E - S + 1 : Nat) : ℚ) / (P : ℚ))⌋.toNat + S) B ∧
    ⌊(k : ℚ) * (((E - S + 1 : Nat) : ℚ) / (P : ℚ))⌋.toNat ≤ E - S + 1 := by
  have hP : (0 : ℚ) < (P : ℚ) := by exact_mod_cast Nat.lt_of_le_of_lt (Nat.zero_le k) hk
  have hx0 : (0 : ℚ) ≤ (k : ℚ) * (((E - S + 1 : Nat) : ℚ) / (P : ℚ)) := by positivity
  have hxle : (k : ℚ) * (((E - S + 1 : Nat) : ℚ) / (P : ℚ)) ≤ ((E - S + 1 : Nat) : ℚ) := by
    rw [mul_div_assoc', div_le_iff₀ hP, mul_comm]
    have : (k : ℚ) ≤ (P : ℚ) := by exact_mod_cast Nat.le_of_lt hk
    exact mul_le_mul_of_nonneg_left this (Nat.cast_nonneg _)
  have hf0 : (0 : Int) ≤ ⌊(k : ℚ) * (((E - S + 1 : Nat) : ℚ) / (P : ℚ))⌋ :=
    Int.floor_nonneg.mpr hx0
  have hfle : ⌊(k : ℚ) * (((E - S + 1 : Nat) : ℚ) / (P : ℚ))⌋ ≤ ((E - S + 1 : Nat) : Int) := by
    have := Int.floor_le_floor hxle
    rwa [Int.floor_natCast] at this
  unfold binLo
  rw [size_of_le S E hSE hE]
  unfold stdFloor
  rw [toSizeT_intCast, wrap_of_nonneg_lt _ hf0 (by omega)]
  refine ⟨?_, by omega⟩
  unfold uadd
  rw [Nat.mod_eq_of_lt (by omega), Nat.max_eq_left (Nat.zero_le _)]

/-- Upper end of a bin when the region is not inverted and `E + 1` fits `size_t`. -/
theorem binHi_of_le (S E P k B : Nat) (hSE : S ≤ E) (hE : E + 1 < 2 ^ 64) (hk : k < P) :
    binHi S E P k B
      = min (⌈((k + 1 : Nat) : ℚ) * (((E - S + 1 : Nat) : ℚ) / (P : ℚ))⌉.toNat + S) B ∧
    ⌈((k + 1 : Nat) : ℚ) * (((E - S + 1 : Nat) : ℚ) / (P : ℚ))⌉.toNat ≤ E - S + 1 := by
  have hP : (0 : ℚ) < (P : ℚ) := by exact_mod_cast Nat.lt_of_le_of_lt (Nat.zero_le k) hk
  have hx0 : (0 : ℚ) ≤ ((k + 1 : Nat) : ℚ) * (((E - S + 1 : Nat) : ℚ) / (P : ℚ)) := by
    positivity
  have hxle : ((k + 1 : Nat) : ℚ) * (((E - S + 1 : Nat) : ℚ) / (P : ℚ))
      ≤ ((E - S + 1 : Nat) : ℚ) := by
    rw [mul_div_assoc', div_le_iff₀ hP, mul_comm]
    have : ((k + 1 : Nat) : ℚ) ≤ (P : ℚ) := by exact_mod_cast hk
    exact mul_le_mul_of_nonneg_left this (Nat.cast_nonneg _)
  have hc0 : (0 : Int) ≤ ⌈((k + 1 : Nat) : ℚ) * (((E - S + 1 : Nat) : ℚ) / (P : ℚ))⌉ :=
    Int.ceil_nonneg hx0
  have hcle : ⌈((k + 1 : Nat) : ℚ) * (((E - S + 1 : Nat) : ℚ) / (P : ℚ))⌉
      ≤ ((E - S + 1 : Nat) : Int) := by
    rw [Int.ceil_le]
    exact_mod_cast hxle
  unfold binHi
  rw [size_of_le S E hSE hE]
  unfold stdCeil
  rw [toSizeT_intCast, wrap_of_nonneg_lt _ hc0 (by omega)]
  refine ⟨?_, by omega⟩
  unfold uadd
  rw [Nat.mod_eq_of_lt (by omega), Nat.max_eq_left (Nat.zero_le _)]

/-- The bins of a region that is not inverted are ordered: `lo <= hi <= B`. -/
theorem binLo_le_binHi (S E P k B : Nat) (hSE : S ≤ E) (hE : E + 1 < 2 ^ 64) (hk : k < P) :
    binLo S E P k B ≤ binHi S E P k B ∧ binHi S E P k B ≤ B := by
  refine ⟨?_, Nat.min_le_right _ _⟩
  rw [(binLo_of_le S E P k B hSE hE hk).1, (binHi_of_le S E P k B hSE hE hk).1]
  have hP : (0 : ℚ) < (P : ℚ) := by exact_mod_cast Nat.lt_of_le_of_lt (Nat.zero_le k) hk
  have hmono : (k : ℚ) * (((E - S + 1 : Nat) : ℚ) / (P : ℚ))
      ≤ ((k + 1 : Nat) : ℚ) * (((E - S + 1 : Nat) : ℚ) / (P : ℚ)) := by
    apply mul_le_mul_of_nonneg_right
    · exact_mod_cast Nat.le_succ k
    · positivity
  have hfc : ⌊(k : ℚ) * (((E - S + 1 : Nat) : ℚ) / (P : ℚ))⌋
      ≤ ⌈((k + 1 : Nat) : ℚ) * (((E - S + 1 : Nat) : ℚ) / (P : ℚ))⌉ := by
    have h1 := Int.floor_le ((k : ℚ) * (((E - S + 1 : Nat) : ℚ) / (P : ℚ)))
    have h2 := Int.le_ceil (((k + 1 : Nat) : ℚ) * (((E - S + 1 : Nat) : ℚ) / (P : ℚ)))
    exact_mod_cast le_trans h1 (le_trans hmono h2)
  have : ⌊(k : ℚ) * (((E - S + 1 : Nat) : ℚ) / (P : ℚ))⌋.toNat
      ≤ ⌈((k + 1 : Nat) : ℚ) * (((E - S + 1 : Nat) : ℚ) / (P : ℚ))⌉.toNat :=
    Int.toNat_le_toNat hfc
  omega

/-- A region that is not inverted and starts at or beyond the bound has only empty bins. -/
theorem binHi_le_binLo_of_ge (S E P k B : Nat) (hSE : S ≤ E) (hE : E + 1 < 2 ^ 64)
    (hk : k < P) (hS : B ≤ S) : binHi S E P k B ≤ binLo S E P k B := by
  rw [(binLo_of_le S E P k B hSE hE hk).1]
  have h1 : binHi S E P k B ≤ B := Nat.min_le_right _ _
  omega

/-- For a region that is not inverted (`roiStart <= roiEnd`, with `roiEnd + 1` within
`size_t`), every pooled cell has `hstart <= hend <= height` and `wstart <= wend <= width`. -/
theorem extents_ordered (L : ROIPoolLayer) (roi ph pw : Nat)
    (hph : ph < L.pooledHeight_) (hpw : pw < L.pooledWidth_)
    (hH : roiStartH L roi ≤ roiEndH L roi) (hEH : roiEndH L roi + 1 < 2 ^ 64)
    (hW : roiStartW L roi ≤ roiEndW L roi) (hEW : roiEndW L roi + 1 < 2 ^ 64) :
    (hstart L roi ph ≤ hend L roi ph ∧ hend L roi ph ≤ height_ L) ∧
    (wstart L roi pw ≤ wend L roi pw ∧ wend L roi pw ≤ width_ L) := by
  rw [hstart_eq_binLo, hend_eq_binHi, wstart_eq_binLo, wend_eq_binHi]
  exact ⟨binLo_le_binHi _ _ _ _ _ hH hEH hph, binLo_le_binHi _ _ _ _ _ hW hEW hpw⟩

/-- For a region that is not inverted and whose start column is at or beyond the width, or
whose start row is at or beyond the height, every pooled cell is an empty bin. -/
theorem isEmpty_of_start_outside (L : ROIPoolLayer) (roi ph pw : Nat)
    (hph : ph < L.pooledHeight_) (hpw : pw < L.pooledWidth_)
    (hH : roiStartH L roi ≤ roiEndH L roi) (hEH : roiEndH L roi + 1 < 2 ^ 64)
    (hW : roiStartW L roi ≤ roiEndW L roi) (hEW : roiEndW L roi + 1 < 2 ^ 64)
    (hout : width_ L ≤ roiStartW L roi ∨ height_ L ≤ roiStartH L roi) :
    hend L roi ph ≤ hstart L roi ph ∨ wend L roi pw ≤ wstart L roi pw := by
  rw [hstart_eq_binLo, hend_eq_binHi, wstart_eq_binLo, wend_eq_binHi]
  rcases hout with h | h
  · exact Or.inr (binHi_le_binLo_of_ge _ _ _ _ _ hW hEW hpw h)
  · exact Or.inl (binHi_le_binLo_of_ge _ _ _ _ _ hH hEH hph h)

/-! ## Region size in unsigned arithmetic -/

/-- The unsigned size of a region whose end is exactly one before its start is 1. -/
theorem size_of_succ_eq (S E : Nat) (h : E + 1 = S) :
    max (uadd (usub E S) 1) 1 = 1 := by
  unfold uadd usub wrap
  omega

/-- The unsigned size of an inverted region (`E + 1 < S`) wraps to `2 ^ 64 - (S - E - 1)`. -/
theorem size_of_inverted (S E : Nat) (h : E + 1 < S) (hS : S < 2 ^ 64) :
    max (uadd (usub E S) 1) 1 = 2 ^ 64 - (S - E - 1) := by
  unfold uadd usub wrap
  omega

/-! ## Cells that route no gradient -/

theorem toSizeT_lt (q : ℚ) : toSizeT q < 2 ^ 64 := by
  unfold toSizeT wrap
  omega

theorem roiHeight_of_le (L : ROIPoolLayer) (roi : Nat) (h : roiStartH L roi ≤ roiEndH L roi)
    (hE : roiEndH L roi + 1 < 2 ^ 64) :
    roiHeight L roi = roiEndH L roi - roiStartH L roi + 1 :=
  size_of_le _ _ h hE

theorem roiWidth_of_le (L : ROIPoolLayer) (roi : Nat) (h : roiStartW L roi ≤ roiEndW L roi)
    (hE : roiEndW L roi + 1 < 2 ^ 64) :
    roiWidth L roi = roiEndW L roi - roiStartW L roi + 1 :=
  size_of_le _ _ h hE

/-- The unsigned height of an inverted region is `2 ^ 64 - (roiStartH - roiEndH - 1)`. -/
theorem roiHeight_of_inverted (L : ROIPoolLayer) (roi : Nat)
    (h : roiEndH L roi + 1 < roiStartH L roi) :
    roiHeight L roi = 2 ^ 64 - (roiStartH L roi - roiEndH L roi - 1) :=
  size_of_inverted _ _ h (toSizeT_lt _)

/-- The unsigned width of an inverted region is `2 ^ 64 - (roiStartW - roiEndW - 1)`. -/
theorem roiWidth_of_inverted (L : ROIPoolLayer) (roi : Nat)
    (h : roiEndW L roi + 1 < roiStartW L roi) :
    roiWidth L roi = 2 ^ 64 - (roiStartW L roi - roiEndW L roi - 1) :=
  size_of_inverted _ _ h (toSizeT_lt _)

/-- Among bins that leave no gap, a row at or after the start of bin `m` and before the
end of the last bin lies in some bin. -/
theorem exists_bin_of_chain (lo hi : Nat → Nat) (P r : Nat)
    (hchain : ∀ k, k + 1 < P → lo (k + 1) ≤ hi k) (hlast : r < hi (P - 1)) :
    ∀ d m, m + d + 1 = P → lo m ≤ r → ∃ k, k < P ∧ lo k ≤ r ∧ r < hi k := by
  intro d
  induction d with
  | zero =>
    intro m hm hlo
    have : m = P - 1 := by omega
    subst this
    exact ⟨P - 1, by omega, hlo, hlast⟩
  | succ d ih =>
    intro m hm hlo
    by_cases hr : r < hi m
    · exact ⟨m, by omega, hlo, hr⟩
    · exact ih (m + 1) (by omega) (le_trans (hchain m (by omega)) (not_lt.mp hr))

/-! ## Scan order and the first maximum -/

/-- The scan visits the positions of a bin in strictly increasing row-major order. -/
theorem scanned_pairwise (L : ROIPoolLayer) (roi ph pw : Nat) :
    List.Pairwise rowMajorLt (scanned L roi ph pw) := by
  unfold scanned
  rw [List.pairwise_flatMap]
  constructor
  · intro h _
    rw [List.pairwise_map]
    exact (List.pairwise_lt_range' _ _).imp (fun hlt => Or.inr ⟨rfl, hlt⟩)
  · refine (List.pairwise_lt_range' _ _).imp (fun hlt x hx y hy => ?_)
    obtain ⟨w, _, rfl⟩ := List.mem_map.mp hx
    obtain ⟨w', _, rfl⟩ := List.mem_map.mp hy
    exact Or.inl hlt

theorem rowMajorLe_of_split {l l1 l2 : List (Nat × Nat)} {x y : Nat × Nat}
    (hp : List.Pairwise rowMajorLt l) (hl : l = l1 ++ x :: l2) (hy : y ∈ l)
    (hnot : y ∉ l1) : rowMajorLe x y := by
  subst hl
  rcases List.mem_append.mp hy with h | h
  · exact absurd h hnot
  · rcases List.mem_cons.mp h with rfl | h'
    · exact Or.inr ⟨rfl, Nat.le_refl _⟩
    · have h2 := (List.pairwise_append.mp hp).2.1
      rcases (List.pairwise_cons.mp h2).1 y h' with hlt | ⟨he, hlt⟩
      · exact Or.inl hlt
      · exact Or.inr ⟨he, Nat.le_of_lt hlt⟩

/-- A bin with `hstart < hend` and `wstart < wend` is scanned at some position. -/
theorem scanned_ne_nil (L : ROIPoolLayer) (roi ph pw : Nat)
    (hne : hstart L roi ph < hend L roi ph ∧ wstart L roi pw < wend L roi pw) :
    scanned L roi ph pw ≠ [] := by
  have hmem : (hstart L roi ph, wstart L roi pw) ∈ scanned L roi ph pw := by
    rw [mem_scanned]
    exact ⟨⟨Nat.le_refl _, hne.1⟩, ⟨Nat.le_refl _, hne.2⟩⟩
  exact List.ne_nil_of_mem hmem

theorem isEmpty_eq_false (L : ROIPoolLayer) (roi ph pw : Nat)
    (hne : hstart L roi ph < hend L roi ph ∧ wstart L roi pw < wend L roi pw) :
    isEmpty L roi ph pw = false := by
  have h : ¬ (isEmpty L roi ph pw = true) := by
    rw [isEmpty_iff]
    omega
  simpa using h

/-- When the bin is not empty and some scanned value exceeds the value the output cell held
before, the cell ends with the largest scanned value and with the flat index of the first
position, in row-major order, that holds it. -/
theorem cellVal_first_max (L : ROIPoolLayer) (roi bd ph pw : Nat) (p : ℚ × ℚ)
    (hne : isEmpty L roi ph pw = false)
    (hex : ∃ x ∈ scanned L roi ph pw, p.1 < featAt L bd x) :
    ∃ x ∈ scanned L roi ph pw,
      cellVal L roi bd ph pw p = (featAt L bd x, (flatIndex L x : ℚ)) ∧
      p.1 < featAt L bd x ∧
      (∀ y ∈ scanned L roi ph pw, featAt L bd y ≤ featAt L bd x) ∧
      (∀ y ∈ scanned L roi ph pw, featAt L bd y = featAt L bd x → rowMajorLe x y) := by
  obtain ⟨l1, x, l2, hl, hres, hlt, h1, h2⟩ := scanFold_of_lt L bd _ p hex
  have hx : x ∈ scanned L roi ph pw := by
    rw [hl]; exact List.mem_append_right l1 (List.mem_cons_self x l2)
  refine ⟨x, hx, ?_, hlt, ?_, ?_⟩
  · rw [cellVal_eq_scanFold, hne]
    exact hres
  · intro y hy
    rw [hl] at hy
    rcases List.mem_append.mp hy with h | h
    · exact le_of_lt (h1 y h)
    · rcases List.mem_cons.mp h with rfl | h'
      · exact le_refl _
      · exact h2 y h'
  · intro y hy heq
    refine rowMajorLe_of_split (scanned_pairwise L roi ph pw) hl hy (fun hin => ?_)
    exact absurd heq (ne_of_lt (h1 y hin))

/-! ## Bounds of the accesses -/

/-- The channel planes of one sample fit its row:
`channels_ * (height_ * width_) <= getWidth()`. -/
theorem channels_mul_le (L : ROIPoolLayer) :
    channels_ L * (height_ L * width_ L) ≤ L.inputWidth := by
  unfold channels_
  calc L.inputWidth / width_ L / height_ L * (height_ L * width_ L)
      = (L.inputWidth / width_ L / height_ L * height_ L) * width_ L := by ring
    _ ≤ (L.inputWidth / width_ L) * width_ L :=
        Nat.mul_le_mul_right _ (Nat.div_mul_le_self _ _)
    _ ≤ L.inputWidth := Nat.div_mul_le_self _ _

/-- An offset inside channel plane `c` of the sample of region `n` lies inside that sample,
and inside the buffer when the region passes the batch-index check. -/
theorem plane_offset_bounds (L : ROIPoolLayer) (n c i : Nat) (hc : c < channels_ L)
    (hi : i < height_ L * width_ L)
    (hb : roiBatchIdx L (n * L.roiOffset) < L.batchSize) :
    planeBase L n c + i < batchOffset L * (roiBatchIdx L (n * L.roiOffset) + 1) ∧
    planeBase L n c + i < batchOffset L * L.batchSize := by
  have h1 : c * (height_ L * width_ L) + height_ L * width_ L
      ≤ channels_ L * (height_ L * width_ L) := mul_add_le_of_lt hc
  have h2 := channels_mul_le L
  have h3 : batchOffset L * (roiBatchIdx L (n * L.roiOffset) + 1)
      ≤ batchOffset L * L.batchSize := Nat.mul_le_mul_left _ hb
  have h4 : batchOffset L * (roiBatchIdx L (n * L.roiOffset) + 1)
      = batchOffset L * roiBatchIdx L (n * L.roiOffset) + L.inputWidth := by
    unfold batchOffset; ring
  have h5 : planeBase L n c
      = batchOffset L * roiBatchIdx L (n * L.roiOffset) + c * (height_ L * width_ L) := rfl
  omega

/-! ## Independence of the regions -/

/-- The geometry of a region depends on the region batch only through the five values of
its own row. -/
theorem geometry_congr (L : ROIPoolLayer) (N : Nat) (rois data : Nat → ℚ) (roi : Nat)
    (hrow : ∀ k, k < 5 → rois (roi + k) = L.bottomROIs (roi + k)) :
    roiBatchIdx (L.withInputs N rois data) roi = roiBatchIdx L roi ∧
    (∀ ph, hstart (L.withInputs N rois data) roi ph = hstart L roi ph
      ∧ hend (L.withInputs N rois data) roi ph = hend L roi ph) ∧
    (∀ pw, wstart (L.withInputs N rois data) roi pw = wstart L roi pw
      ∧ wend (L.withInputs N rois data) roi pw = wend L roi pw) := by
  have h0 := hrow 0 (by decide)
  have h1 := hrow 1 (by decide)
  have h2 := hrow 2 (by decide)
  have h3 := hrow 3 (by decide)
  have h4 := hrow 4 (by decide)
  refine ⟨?_, fun ph => ⟨?_, ?_⟩, fun pw => ⟨?_, ?_⟩⟩
  · simp only [roiBatchIdx, ROIPoolLayer.withInputs, h0]
  · simp only [hstart, binSizeH, roiHeight, roiStartH, roiEndH, height_,
      ROIPoolLayer.withInputs, h2, h4]
  · simp only [hend, binSizeH, roiHeight, roiStartH, roiEndH, height_,
      ROIPoolLayer.withInputs, h2, h4]
  · simp only [wstart, binSizeW, roiWidth, roiStartW, roiEndW, width_,
      ROIPoolLayer.withInputs, h1, h3]
  · simp only [wend, binSizeW, roiWidth, roiStartW, roiEndW, width_,
      ROIPoolLayer.withInputs, h1, h3]

theorem scanFold_congr (L L' : ROIPoolLayer) (bd : Nat) (l : List (Nat × Nat)) (p : ℚ × ℚ)
    (hw : width_ L' = width_ L) (hf : ∀ x ∈ l, featAt L' bd x = featAt L bd x) :
    scanFold L' bd l p = scanFold L bd l p := by
  induction l generalizing p with
  | nil => rfl
  | cons x l ih =>
    rw [scanFold_cons, scanFold_cons, hf x (List.mem_cons_self x l)]
    have hi : flatIndex L' x = flatIndex L x := by unfold flatIndex; rw [hw]
    rw [hi]
    exact ih _ (fun y hy => hf y (List.mem_cons_of_mem x hy))

/-- The output a scan ends on does not depend on the argmax value it started from. -/
theorem scanFold_fst_indep (L : ROIPoolLayer) (bd : Nat) (l : List (Nat × Nat)) (o a a' : ℚ) :
    (scanFold L bd l (o, a')).1 = (scanFold L bd l (o, a)).1 := by
  rcases scanFold_keep_or_eq L bd l o a a' with hk | he
  · rcases scanFold_keep_or_eq L bd l o a' a with hk' | he'
    · rw [hk, hk']
    · rw [he']
  · rw [he]

/-- The pooled output of a cell does not depend on the argmax value the cell held before. -/
theorem cellVal_fst_indep (L : ROIPoolLayer) (roi bd ph pw : Nat) (o a a' : ℚ) :
    (cellVal L roi bd ph pw (o, a')).1 = (cellVal L roi bd ph pw (o, a)).1 := by
  rw [cellVal_eq_scanFold, cellVal_eq_scanFold]
  by_cases he : isEmpty L roi ph pw = true
  · simp only [he, if_true]
  · simp only [he]
    exact scanFold_fst_indep L bd _ o a a'

/-- The pair left in a cell depends on the inputs only through the row of its region and
the feature values of the plane it pools. -/
theorem cellVal_congr (L : ROIPoolLayer) (N : Nat) (rois data : Nat → ℚ)
    (roi bd ph pw : Nat) (p : ℚ × ℚ)
    (hrow : ∀ k, k < 5 → rois (roi + k) = L.bottomROIs (roi + k))
    (hdata : ∀ i, i < height_ L * width_ L → data (bd + i) = L.bottomData (bd + i)) :
    cellVal (L.withInputs N rois data) roi bd ph pw p = cellVal L roi bd ph pw p := by
  obtain ⟨_, hh, hw⟩ := geometry_congr L N rois data roi hrow
  have hs : scanned (L.withInputs N rois data) roi ph pw = scanned L roi ph pw := by
    unfold scanned
    rw [(hh ph).1, (hh ph).2, (hw pw).1, (hw pw).2]
  have he : isEmpty (L.withInputs N rois data) roi ph pw = isEmpty L roi ph pw := by
    unfold isEmpty
    rw [(hh ph).1, (hh ph).2, (hw pw).1, (hw pw).2]
  rw [cellVal_eq_scanFold, cellVal_eq_scanFold, hs, he]
  refine scanFold_congr L (L.withInputs N rois data) bd _ _ rfl (fun x hx => ?_)
  exact hdata _ (flatIndex_lt_of_mem L roi ph pw x hx)

/-! ## Rounding to single precision -/

theorem log2Fuel_spec (fuel n : Nat) (hf : n ≤ fuel) (hn : 0 < n) :
    2 ^ log2Fuel fuel n ≤ n ∧ n < 2 ^ (log2Fuel fuel n + 1) := by
  induction fuel generalizing n with
  | zero => omega
  | succ fuel ih =>
    unfold log2Fuel
    by_cases h2 : 2 ≤ n
    · rw [if_pos h2]
      have := ih (n / 2) (by omega) (by omega)
      rw [pow_succ, pow_succ (n := log2Fuel fuel (n / 2) + 1)]
      omega
    · rw [if_neg h2]
      have : n = 1 := by omega
      subst this
      decide

theorem ilog2_spec (n : Nat) (hn : 0 < n) : 2 ^ ilog2 n ≤ n ∧ n < 2 ^ (ilog2 n + 1) :=
  log2Fuel_spec n n (le_refl n) hn

/-- For a positive rational, `log2Q` is the exponent of its binade. -/
theorem log2Q_spec (a : ℚ) (ha : 0 < a) :
    (2 : ℚ) ^ log2Q a ≤ a ∧ a < (2 : ℚ) ^ (log2Q a + 1) := by
  have hnum : 0 < a.num := Rat.num_pos.mpr ha
  have hn0 : 0 < a.num.natAbs := Int.natAbs_pos.mpr (ne_of_gt hnum)
  obtain ⟨hn1, hn2⟩ := ilog2_spec a.num.natAbs hn0
  obtain ⟨hd1, hd2⟩ := ilog2_spec a.den a.den_pos
  have hnq : ((a.num.natAbs : Nat) : ℚ) = (a.num : ℚ) := by
    rw [Nat.cast_natAbs, abs_of_pos hnum]
  have hdpos : (0 : ℚ) < (a.den : ℚ) := by exact_mod_cast a.den_pos
  have haeq : a = ((a.num.natAbs : Nat) : ℚ) / (a.den : ℚ) := by
    rw [hnq]; exact (Rat.num_div_den a).symm
  set n := a.num.natAbs with hn
  set d := a.den with hd
  set ln := ilog2 n
  set ld := ilog2 d
  have e1 : ((2 : ℚ) ^ ln) ≤ (n : ℚ) := by exact_mod_cast hn1
  have e2 : (n : ℚ) < (2 : ℚ) ^ (ln + 1) := by exact_mod_cast hn2
  have e3 : ((2 : ℚ) ^ ld) ≤ (d : ℚ) := by exact_mod_cast hd1
  have e4 : (d : ℚ) < (2 : ℚ) ^ (ld + 1) := by exact_mod_cast hd2
  have p1 : (0 : ℚ) < 2 ^ ln := by positivity
  have p2 : (0 : ℚ) < 2 ^ ld := by positivity
  have z0 : ((2 : ℚ) ^ ((ln : Int) - (ld : Int))) = 2 ^ ln / 2 ^ ld := by
    rw [zpow_sub₀ (by norm_num : (2 : ℚ) ≠ 0), zpow_natCast, zpow_natCast]
  have lower : (2 : ℚ) ^ ((ln : Int) - (ld : Int) - 1) < a := by
    rw [zpow_sub₀ (by norm_num : (2 : ℚ) ≠ 0), z0, zpow_one, haeq, div_div,
      div_lt_div_iff₀ (by positivity) hdpos]
    have : (2 : ℚ) ^ ln * (d : ℚ) < (n : ℚ) * (2 ^ ld * 2) := by
      have e4' : (d : ℚ) < 2 ^ ld * 2 := by rw [← pow_succ]; exact e4
      calc (2 : ℚ) ^ ln * (d : ℚ) < 2 ^ ln * (2 ^ ld * 2) :=
            mul_lt_mul_of_pos_left e4' p1
        _ ≤ (n : ℚ) * (2 ^ ld * 2) := mul_le_mul_of_nonneg_right e1 (by positivity)
    exact this
  have upper : a < (2 : ℚ) ^ ((ln : Int) - (ld : Int) + 1) := by
    rw [zpow_add₀ (by norm_num : (2 : ℚ) ≠ 0), z0, zpow_one, haeq, div_mul_eq_mul_div,
      div_lt_div_iff₀ hdpos p2]
    have e2' : (n : ℚ) < 2 ^ ln * 2 := by rw [← pow_succ]; exact e2
    calc (n : ℚ) * 2 ^ ld ≤ (n : ℚ) * (d : ℚ) :=
          mul_le_mul_of_nonneg_left e3 (by positivity)
      _ < 2 ^ ln * 2 * (d : ℚ) := mul_lt_mul_of_pos_right e2' hdpos
  unfold log2Q
  simp only
  rw [← hn, ← hd]
  split
  · rename_i hlt
    refine ⟨le_of_lt lower, ?_⟩
    rwa [sub_add_cancel]
  · rename_i hge
    exact ⟨not_lt.mp hge, upper⟩

theorem roundEven_error (t : ℚ) : |((roundEven t : Int) : ℚ) - t| ≤ 1 / 2 := by
  have h1 : ((⌊t⌋ : Int) : ℚ) ≤ t := Int.floor_le t
  have h2 : t < ((⌊t⌋ : Int) : ℚ) + 1 := Int.lt_floor_add_one t
  unfold roundEven
  simp only
  rw [abs_le]
  split_ifs with a b c
  · constructor <;> linarith
  · push_cast; constructor <;> linarith
  · constructor <;> linarith
  · push_cast; constructor <;> linarith

theorem roundEven_intCast (z : Int) : roundEven (z : ℚ) = z := by
  unfold roundEven
  simp

/-- The value `fl32` returns differs from its argument by at most half a unit in the last
place, which is at most `2 ^ (-24)` of the argument. -/
theorem fl32_error (q : ℚ) (hq : 0 ≤ q) : |fl32 q - q| ≤ q / 2 ^ 24 := by
  rcases eq_or_lt_of_le hq with h0 | hpos
  · subst h0; simp [fl32]
  obtain ⟨hlo, _⟩ := log2Q_spec q hpos
  unfold fl32
  rw [if_neg (ne_of_gt hpos), abs_of_pos hpos]
  simp only
  set e := log2Q q
  have hu : (0 : ℚ) < 2 ^ (e - 23) := by positivity
  have hr := roundEven_error (q / 2 ^ (e - 23))
  have heq : ((roundEven (q / 2 ^ (e - 23)) : Int) : ℚ) * 2 ^ (e - 23) - q
      = (((roundEven (q / 2 ^ (e - 23)) : Int) : ℚ) - q / 2 ^ (e - 23)) * 2 ^ (e - 23) := by
    field_simp
  rw [heq, abs_mul, abs_of_pos hu]
  have hule : (2 : ℚ) ^ (e - 23) = 2 ^ e / 2 ^ 23 := by
    rw [zpow_sub₀ (by norm_num : (2 : ℚ) ≠ 0)]; norm_num
  calc |((roundEven (q / 2 ^ (e - 23)) : Int) : ℚ) - q / 2 ^ (e - 23)| * 2 ^ (e - 23)
      ≤ 1 / 2 * 2 ^ (e - 23) := mul_le_mul_of_nonneg_right hr (le_of_lt hu)
    _ = 2 ^ e / 2 ^ 24 := by rw [hule]; ring
    _ ≤ q / 2 ^ 24 := by gcongr

theorem fl32_zero : fl32 0 = 0 := by simp [fl32]

theorem fl32_bounds (q : ℚ) (hq : 0 ≤ q) :
    q * (1 - 1 / 2 ^ 24) ≤ fl32 q ∧ fl32 q ≤ q * (1 + 1 / 2 ^ 24) := by
  have h := abs_le.mp (fl32_error q hq)
  constructor <;> linarith [h.1, h.2]

theorem fl32_nonneg (q : ℚ) (hq : 0 ≤ q) : 0 ≤ fl32 q := by
  have h := (fl32_bounds q hq).1
  have : 0 ≤ q * (1 - 1 / 2 ^ 24) := mul_nonneg hq (by norm_num)
  linarith

/-- A value that is an integer number of units in the last place is not changed. -/
theorem fl32_of_int_mantissa (q : ℚ) (z : Int)
    (hz : q / (2 : ℚ) ^ (log2Q |q| - 23) = (z : ℚ)) : fl32 q = q := by
  unfold fl32
  split
  · rename_i h; exact h.symm
  · simp only
    rw [hz, roundEven_intCast, ← hz]
    have hu : (2 : ℚ) ^ (log2Q |q| - 23) ≠ 0 := by positivity
    field_simp

/-- Integers up to `2 ^ 24` are single-precision values. -/
theorem fl32_natCast (n : Nat) (hn : n ≤ 2 ^ 24) : fl32 (n : ℚ) = (n : ℚ) := by
  rcases Nat.eq_zero_or_pos n with h0 | hpos
  · subst h0; simp [fl32]
  have hq : (0 : ℚ) < (n : ℚ) := by exact_mod_cast hpos
  obtain ⟨hlo, hhi⟩ := log2Q_spec (n : ℚ) hq
  have habs : |(n : ℚ)| = (n : ℚ) := abs_of_pos hq
  set e := log2Q (n : ℚ) with he
  have he0 : 0 ≤ e := by
    by_contra hneg
    have hle : e + 1 ≤ 0 := by omega
    have : (2 : ℚ) ^ (e + 1) ≤ 2 ^ (0 : Int) := zpow_le_zpow_right₀ (by norm_num) hle
    have h1 : (1 : ℚ) ≤ (n : ℚ) := by exact_mod_cast hpos
    simp at this
    linarith
  obtain ⟨k, hk⟩ := Int.eq_ofNat_of_zero_le he0
  have hlo' : 2 ^ k ≤ n := by
    rw [hk, zpow_natCast] at hlo; exact_mod_cast hlo
  have hk24 : k ≤ 24 := by
    by_contra hgt
    have : 2 ^ 25 ≤ 2 ^ k := Nat.pow_le_pow_right (by norm_num) (by omega)
    omega
  have hulp : (2 : ℚ) ^ (e - 23) = 2 ^ k / 2 ^ 23 := by
    rw [hk, zpow_sub₀ (by norm_num : (2 : ℚ) ≠ 0), zpow_natCast]; norm_num
  rcases Nat.lt_or_ge k 24 with hlt | hge
  · apply fl32_of_int_mantissa (n : ℚ) ((n * 2 ^ (23 - k) : Nat) : Int)
    rw [habs, ← he, hulp]
    have h23 : (2 : ℚ) ^ 23 = 2 ^ k * 2 ^ (23 - k) := by
      rw [← pow_add]; congr 1; omega
    rw [h23]
    have : (2 : ℚ) ^ k ≠ 0 := by positivity
    field_simp
    ring
  · have hk' : k = 24 := by omega
    subst hk'
    have hn' : n = 2 ^ 24 := by omega
    apply fl32_of_int_mantissa (n : ℚ) ((2 ^ 23 : Nat) : Int)
    rw [habs, ← he, hulp, hn']
    norm_num

/-! ## The forward pass in single precision -/

theorem hstart32_eq_binLo32 (L : ROIPoolLayer) (roi ph : Nat) :
    hstart32 L roi ph
      = binLo32 (roiStartH32 L roi) (roiEndH32 L roi) L.pooledHeight_ ph (height_ L) := rfl

theorem hend32_eq_binHi32 (L : ROIPoolLayer) (roi ph : Nat) :
    hend32 L roi ph
      = binHi32 (roiStartH32 L roi) (roiEndH32 L roi) L.pooledHeight_ ph (height_ L) := rfl

theorem wstart32_eq_binLo32 (L : ROIPoolLayer) (roi pw : Nat) :
    wstart32 L roi pw
      = binLo32 (roiStartW32 L roi) (roiEndW32 L roi) L.pooledWidth_ pw (width_ L) := rfl

theorem wend32_eq_binHi32 (L : ROIPoolLayer) (roi pw : Nat) :
    wend32 L roi pw
      = binHi32 (roiStartW32 L roi) (roiEndW32 L roi) L.pooledWidth_ pw (width_ L) := rfl

/-- The rounded product `k * binSize`, for sizes up to `2 ^ 22`, lies within
`(1 + 2 ^ (-24)) ^ 2` of the exact product, and consecutive products increase. -/
theorem prod32_bounds (H P k : Nat) (hH : 0 < H) (hH' : H ≤ 2 ^ 22) (hP : 0 < P)
    (hP' : P ≤ 2 ^ 22) (hk : k ≤ P) :
    0 ≤ prod32 H P k ∧ prod32 H P k ≤ (H : ℚ) + 3 / 4 ∧
    (k < P → prod32 H P k < (H : ℚ) ∧ prod32 H P k < prod32 H P (k + 1)) ∧
    (k = P → (H : ℚ) - 1 / 2 ≤ prod32 H P k) := by
  have hh : (0 : ℚ) < (H : ℚ) := by exact_mod_cast hH
  have hp : (0 : ℚ) < (P : ℚ) := by exact_mod_cast hP
  have hh' : (H : ℚ) ≤ 4194304 := by exact_mod_cast hH'
  have hp' : (P : ℚ) ≤ 4194304 := by exact_mod_cast hP'
  have hκ : (k : ℚ) ≤ (P : ℚ) := by exact_mod_cast hk
  have hκ0 : (0 : ℚ) ≤ (k : ℚ) := Nat.cast_nonneg k
  have eH : fl32 (H : ℚ) = (H : ℚ) := fl32_natCast H (by omega)
  have eP : fl32 (P : ℚ) = (P : ℚ) := fl32_natCast P (by omega)
  have ek : ∀ m : Nat, m ≤ P + 1 → fl32 (m : ℚ) = (m : ℚ) :=
    fun m hm => fl32_natCast m (by omega)
  -- the exact bin size
  set X : ℚ := (H : ℚ) / (P : ℚ) with hX
  have hXpos : 0 < X := div_pos hh hp
  have hpX : (P : ℚ) * X = (H : ℚ) := by rw [hX]; field_simp
  have hXge : (H : ℚ) ≤ 4194304 * X := by
    rw [← hpX]; exact mul_le_mul_of_nonneg_right hp' (le_of_lt hXpos)
  -- the rounded bin size
  set b : ℚ := fl32 X with hb
  obtain ⟨hb1, hb2⟩ := fl32_bounds X (le_of_lt hXpos)
  have hbpos : 0 < b := by
    have : 0 < X * (1 - 1 / 2 ^ 24) := mul_pos hXpos (by norm_num)
    linarith
  -- the rounded products
  have hv : ∀ m : Nat, m ≤ P + 1 →
      prod32 H P m = fl32 ((m : ℚ) * b) := by
    intro m hm
    unfold prod32
    rw [ek m hm, eH, eP]
  have hvb : ∀ m : Nat, m ≤ P + 1 →
      (m : ℚ) * b * (1 - 1 / 2 ^ 24) ≤ prod32 H P m ∧
        prod32 H P m ≤ (m : ℚ) * b * (1 + 1 / 2 ^ 24) := by
    intro m hm
    rw [hv m hm]
    exact fl32_bounds _ (mul_nonneg (Nat.cast_nonneg m) (le_of_lt hbpos))
  obtain ⟨hk1, hk2⟩ := hvb k (by omega)
  -- atoms: k * b and k * X
  have hA1 : (k : ℚ) * b ≤ (k : ℚ) * X * (1 + 1 / 2 ^ 24) := by
    have := mul_le_mul_of_nonneg_left hb2 hκ0
    linarith
  have hA0 : 0 ≤ (k : ℚ) * b := mul_nonneg hκ0 (le_of_lt hbpos)
  have hB : (k : ℚ) * X ≤ (H : ℚ) := by
    rw [← hpX]; exact mul_le_mul_of_nonneg_right hκ (le_of_lt hXpos)
  have hB0 : 0 ≤ (k : ℚ) * X := mul_nonneg hκ0 (le_of_lt hXpos)
  refine ⟨?_, ?_, fun hlt => ⟨?_, ?_⟩, fun heq => ?_⟩
  · have : 0 ≤ (k : ℚ) * b * (1 - 1 / 2 ^ 24) := mul_nonneg hA0 (by norm_num)
    linarith
  · norm_num at hk2 hA1 ⊢
    linarith
  · have hκ1 : (k : ℚ) + 1 ≤ (P : ℚ) := by exact_mod_cast hlt
    have hB' : (k : ℚ) * X ≤ (H : ℚ) - X := by
      have := mul_le_mul_of_nonneg_right hκ1 (le_of_lt hXpos)
      linarith
    norm_num at hk2 hA1 ⊢
    linarith
  · obtain ⟨hs1, _⟩ := hvb (k + 1) (by omega)
    have hκ22 : (k : ℚ) ≤ 4194304 := le_trans hκ hp'
    have hkb : (k : ℚ) * b ≤ 4194304 * b := mul_le_mul_of_nonneg_right hκ22 (le_of_lt hbpos)
    push_cast at hs1
    norm_num at hk2 hs1 ⊢
    linarith
  · subst heq
    have hA2 : (k : ℚ) * X * (1 - 1 / 2 ^ 24) ≤ (k : ℚ) * b := by
      have := mul_le_mul_of_nonneg_left hb1 hκ0
      linarith
    rw [hpX] at hA2
    norm_num at hk1 hA2 ⊢
    linarith

theorem prod32_zero (H P : Nat) : prod32 H P 0 = 0 := by
  unfold prod32
  rw [Nat.cast_zero, fl32_zero, zero_mul, fl32_zero]

/-- The values converted at lines 83 to 86, for sizes up to `2 ^ 22`: the lower end of a bin
is below the region size and below the upper end, which exceeds the region size by at most
one; the last upper end reaches the region size, and consecutive bins leave no gap. -/
theorem raw32_bounds (H P k : Nat) (hH : 0 < H) (hH' : H ≤ 2 ^ 22) (hP' : P ≤ 2 ^ 22)
    (hk : k < P) :
    toSizeT (stdFloor (prod32 H P k)) < H ∧
    toSizeT (stdFloor (prod32 H P k)) < toSizeT (stdCeil (prod32 H P (k + 1))) ∧
    toSizeT (stdCeil (prod32 H P (k + 1))) ≤ H + 1 ∧
    (k + 1 = P → H ≤ toSizeT (stdCeil (prod32 H P (k + 1)))) ∧
    toSizeT (stdFloor (prod32 H P (k + 1))) ≤ toSizeT (stdCeil (prod32 H P (k + 1))) := by
  have hP : 0 < P := Nat.lt_of_le_of_lt (Nat.zero_le k) hk
  obtain ⟨v0, _, hvk, _⟩ := prod32_bounds H P k hH hH' hP hP' (Nat.le_of_lt hk)
  obtain ⟨hvH, hvw⟩ := hvk hk
  obtain ⟨w0, wH, _, hwl⟩ := prod32_bounds H P (k + 1) hH hH' hP hP' hk
  set v := prod32 H P k
  set w := prod32 H P (k + 1)
  have f0 : (0 : Int) ≤ ⌊v⌋ := Int.floor_nonneg.mpr v0
  have f1 : ⌊v⌋ < (H : Int) := Int.floor_lt.mpr (by exact_mod_cast hvH)
  have g0 : (0 : Int) ≤ ⌊w⌋ := Int.floor_nonneg.mpr w0
  have c0 : (0 : Int) ≤ ⌈w⌉ := Int.ceil_nonneg w0
  have c1 : ⌈w⌉ ≤ (H : Int) + 1 := by
    rw [Int.ceil_le]
    push_cast
    linarith
  have fc : ⌊v⌋ < ⌈w⌉ := by
    have h1 : ((⌊v⌋ : Int) : ℚ) ≤ v := Int.floor_le v
    have h2 : w ≤ ((⌈w⌉ : Int) : ℚ) := Int.le_ceil w
    exact_mod_cast lt_of_le_of_lt h1 (lt_of_lt_of_le hvw h2)
  have gc : ⌊w⌋ ≤ ⌈w⌉ := Int.floor_le_ceil w
  have hH64 : (H : Int) + 1 < 2 ^ 64 := by
    have : (H : Int) ≤ 2 ^ 22 := by exact_mod_cast hH'
    omega
  unfold stdFloor stdCeil
  rw [toSizeT_intCast, toSizeT_intCast, toSizeT_intCast,
    wrap_of_nonneg_lt _ f0 (by omega), wrap_of_nonneg_lt _ c0 (by omega),
    wrap_of_nonneg_lt _ g0 (by omega)]
  refine ⟨by omega, by omega, by omega, fun hlast => ?_, by omega⟩
  have hw2 := hwl hlast
  have : ((H : Int) - 1 : Int) < ⌈w⌉ := by
    rw [Int.lt_ceil]
    push_cast
    linarith
  omega

theorem raw32_zero (H P : Nat) : toSizeT (stdFloor (prod32 H P 0)) = 0 := by
  rw [prod32_zero]
  unfold stdFloor
  rw [Int.floor_zero, toSizeT_intCast]
  rfl

/-- Lower end of a bin in single precision, when the region is not inverted and the sizes
are at most `2 ^ 22`. -/
theorem binLo32_of_le (S E P k B : Nat) (hSE : S ≤ E) (hE : E + 2 < 2 ^ 64)
    (hH' : E - S + 1 ≤ 2 ^ 22) (hP' : P ≤ 2 ^ 22) (hk : k < P) :
    binLo32 S E P k B = min (toSizeT (stdFloor (prod32 (E - S + 1) P k)) + S) B := by
  obtain ⟨h1, _⟩ := raw32_bounds (E - S + 1) P k (Nat.succ_pos _) hH' hP' hk
  unfold binLo32
  rw [size_of_le S E hSE (by omega)]
  unfold uadd
  rw [Nat.mod_eq_of_lt (by omega), Nat.max_eq_left (Nat.zero_le _)]

/-- Upper end of a bin in single precision, when the region is not inverted and the sizes
are at most `2 ^ 22`. -/
theorem binHi32_of_le (S E P k B : Nat) (hSE : S ≤ E) (hE : E + 2 < 2 ^ 64)
    (hH' : E - S + 1 ≤ 2 ^ 22) (hP' : P ≤ 2 ^ 22) (hk : k < P) :
    binHi32 S E P k B = min (toSizeT (stdCeil (prod32 (E - S + 1) P (k + 1))) + S) B := by
  obtain ⟨_, _, h3, _⟩ := raw32_bounds (E - S + 1) P k (Nat.succ_pos _) hH' hP' hk
  unfold binHi32
  rw [size_of_le S E hSE (by omega)]
  unfold uadd
  rw [Nat.mod_eq_of_lt (by omega), Nat.max_eq_left (Nat.zero_le _)]

/-- A region inside `[0, B)`, in single precision and for sizes up to `2 ^ 22`: every bin is
non-empty, its start is neither wrapped nor clamped, and its end before clamping is at most
`E + 2`. -/
theorem bin32_inside (S E P k B : Nat) (hSE : S ≤ E) (hEB : E < B) (hB : B ≤ 2 ^ 22)
    (hP' : P ≤ 2 ^ 22) (hk : k < P) :
    binLo32 S E P k B < binHi32 S E P k B ∧
    binLo32 S E P k B
      = toSizeT (stdFloor (prod32 (max (uadd (usub E S) 1) 1) P k)) + S ∧
    binHi32 S E P k B
      = min (toSizeT (stdCeil (prod32 (max (uadd (usub E S) 1) 1) P (k + 1))) + S) B ∧
    toSizeT (stdCeil (prod32 (max (uadd (usub E S) 1) 1) P (k + 1))) + S ≤ E + 2 := by
  have hE : E + 2 < 2 ^ 64 := by omega
  have hH' : E - S + 1 ≤ 2 ^ 22 := by omega
  obtain ⟨h1, h2, h3, _⟩ := raw32_bounds (E - S + 1) P k (Nat.succ_pos _) hH' hP' hk
  rw [binLo32_of_le S E P k B hSE hE hH' hP' hk, binHi32_of_le S E P k B hSE hE hH' hP' hk,
    size_of_le S E hSE (by omega)]
  omega

/-- The bins of a region that is not inverted, in single precision and for sizes up to
`2 ^ 22`, cover the part of the region below `B` and reach at most one row beyond it. -/
theorem binsCover32_of_le (S E P B : Nat) (hSE : S ≤ E) (hE : E + 2 < 2 ^ 64)
    (hH' : E - S + 1 ≤ 2 ^ 22) (hP : 0 < P) (hP' : P ≤ 2 ^ 22) :
    BinsCover32 (fun k => binLo32 S E P k B) (fun k => binHi32 S E P k B) P S (E - S + 1) B := by
  have hlo := fun k hk => binLo32_of_le S E P k B hSE hE hH' hP' hk
  have hhi := fun k hk => binHi32_of_le S E P k B hSE hE hH' hP' hk
  have hraw := fun k hk => raw32_bounds (E - S + 1) P k (Nat.succ_pos _) hH' hP' hk
  have hchain : ∀ k, k + 1 < P → binLo32 S E P (k + 1) B ≤ binHi32 S E P k B := by
    intro k hk
    rw [hlo (k + 1) hk, hhi k (by omega)]
    have := (hraw k (by omega)).2.2.2.2
    omega
  have hfirst : binLo32 S E P 0 B = min S B := by
    rw [hlo 0 hP, raw32_zero, Nat.zero_add]
  have hlast : binHi32 S E P (P - 1) B = min (S + (E - S + 1)) B
      ∨ binHi32 S E P (P - 1) B = min (S + (E - S + 1) + 1) B := by
    rw [hhi (P - 1) (by omega)]
    obtain ⟨_, _, h3, h4, _⟩ := hraw (P - 1) (by omega)
    have h4' := h4 (by omega)
    rcases Nat.eq_or_lt_of_le h4' with h | h
    · left; omega
    · right; omega
  refine ⟨hfirst, hlast, hchain, fun r h1 h2 h3 => ?_, fun r k hk h1 h2 => ?_⟩
  · refine exists_bin_of_chain (fun k => binLo32 S E P k B) (fun k => binHi32 S E P k B) P r
      hchain ?_ (P - 1) 0 (by omega) ?_
    · simp only []
      rcases hlast with h | h <;> rw [h] <;> omega
    · simp only []
      rw [hfirst]
      omega
  · simp only [] at h1 h2
    rw [hlo k hk] at h1
    rw [hhi k hk] at h2
    obtain ⟨_, _, h3, _⟩ := hraw k hk
    omega

/-- Before clamping, in single precision and for sizes up to `2 ^ 22`, the first bin of a
region that is not inverted starts at `S` and its last bin ends at `S + (E - S + 1)` or one
row later. -/
theorem raw32_ends (S E P : Nat) (hSE : S ≤ E) (hE : E + 2 < 2 ^ 64)
    (hH' : E - S + 1 ≤ 2 ^ 22) (hP : 0 < P) (hP' : P ≤ 2 ^ 22) :
    uadd (toSizeT (stdFloor (prod32 (max (uadd (usub E S) 1) 1) P 0))) S = S ∧
    (uadd (toSizeT (stdCeil (prod32 (max (uadd (usub E S) 1) 1) P (P - 1 + 1)))) S
        = S + (E - S + 1) ∨
      uadd (toSizeT (stdCeil (prod32 (max (uadd (usub E S) 1) 1) P (P - 1 + 1)))) S
        = S + (E - S + 1) + 1) := by
  obtain ⟨_, _, h3, h4, _⟩ := raw32_bounds (E - S + 1) P (P - 1) (Nat.succ_pos _) hH' hP'
    (by omega)
  have h4' := h4 (by omega)
  rw [size_of_le S E hSE (by omega), raw32_zero]
  unfold uadd
  constructor
  · rw [Nat.zero_add, Nat.mod_eq_of_lt (by omega)]
  · rw [Nat.mod_eq_of_lt (by omega)]
    omega

/-! ## The backward pass in single precision -/

/-- The list `cellOrder` holds every pooled cell of the layer. -/
theorem mem_cellOrder (L : ROIPoolLayer) (n c ph pw : Nat) :
    (n, c, ph, pw) ∈ cellOrder L
      ↔ n < L.numROIs ∧ c < channels_ L ∧ ph < L.pooledHeight_ ∧ pw < L.pooledWidth_ := by
  unfold cellOrder
  simp only [List.mem_flatMap, List.mem_range, List.mem_map, Prod.mk.injEq]
  constructor
  · rintro ⟨n', hn, c', hc, ph', hph, pw', hpw, rfl, rfl, rfl, rfl⟩
    exact ⟨hn, hc, hph, hpw⟩
  · rintro ⟨hn, hc, hph, hpw⟩
    exact ⟨n, hn, c, hc, ph, hph, pw, hpw, rfl, rfl, rfl, rfl⟩

/-- In single precision two regions routing the gradient 1 to the same elements both
contribute while the sums are small. -/
theorem backward32_two_regions :
    ∀ j, j < 16 →
      twoRegionLayer.backward32 (ofList [5, 7, 13, 15, 5, 7, 13, 15]) (fun _ => 1)
        (fun _ => 0) j = if j = 5 ∨ j = 7 ∨ j = 13 ∨ j = 15 then 2 else 0 := by decide!

/-- The additions that accumulate the gradients 1 of the two regions of `twoRegionLayer`
onto a zero element do not round. -/
theorem noRounding_two_regions :
    NoRounding 0
      (gradientsTo twoRegionLayer (ofList [5, 7, 13, 15, 5, 7, 13, 15]) (fun _ => 1) 5) := by
  unfold NoRounding
  decide!

/-! ## The single-precision layer on the inputs of the exact evaluations

On the concrete inputs at which the exact definitions are evaluated in the properties of the
specification, the single-precision definitions return the same values as the exact ones
for what those properties state. -/

theorem forward32_negLayer :
    (negLayer.forward32 (fun _ => 0) (fun _ => 7)).map
      (fun r => (r.outputData 0, r.argmaxData 0)) = some (0, 7) ∧
    (negLayer.forward (fun _ => 0) (fun _ => 7)).map
      (fun r => (r.outputData 0, r.argmaxData 0)) = some (0, 7) := by decide!

theorem forward32_zeroLayer :
    (zeroLayer.forward32 (fun _ => 0) (fun _ => 9)).map
      (fun r => (r.outputData 0, r.argmaxData 0)) = some (0, 9) ∧
    (zeroLayer.forward (fun _ => 0) (fun _ => 9)).map
      (fun r => (r.outputData 0, r.argmaxData 0)) = some (0, 9) := by decide!

theorem forward32_tieLayer :
    (tieLayer.forward32 (fun _ => 0) (fun _ => 7)).map
      (fun r => (r.outputData 0, r.argmaxData 0)) = some (0, 7) ∧
    (tieLayer.forward (fun _ => 0) (fun _ => 7)).map
      (fun r => (r.outputData 0, r.argmaxData 0)) = some (0, 7) := by decide!

theorem forward32_scenarioLayer :
    (scenarioLayer.forward32 (fun _ => 0) (fun _ => 7)).map
      (fun r => ((List.range 4).map r.outputData, (List.range 4).map r.argmaxData))
      = some ([5, 7, 13, 15], [5, 7, 13, 15]) ∧
    (scenarioLayer.forward (fun _ => 0) (fun _ => 7)).map
      (fun r => ((List.range 4).map r.outputData, (List.range 4).map r.argmaxData))
      = some ([5, 7, 13, 15], [5, 7, 13, 15]) := by decide!

theorem forward32_peakLayer :
    (peakLayer.forward32 (fun _ => 0) (fun _ => 7)).map
      (fun r => (r.outputData 0, r.argmaxData 0,
        (List.range 4).map (peakLayer.backward32 r.argmaxData (fun _ => 1) (fun _ => 0))))
      = some (9, 0, [0, 0, 0, 0]) ∧
    (peakLayer.forward (fun _ => 0) (fun _ => 7)).map
      (fun r => (r.outputData 0, r.argmaxData 0,
        (List.range 4).map (peakLayer.backward r.argmaxData (fun _ => 1) (fun _ => 0))))
      = some (9, 0, [0, 0, 0, 0]) := by decide!

theorem extents32_invertedLayer :
    roiHeight32 invertedLayer 0 = roiHeight invertedLayer 0 ∧
    hstart32 invertedLayer 0 0 = hstart invertedLayer 0 0 ∧
    hend32 invertedLayer 0 0 = hend invertedLayer 0 0 ∧
    wstart32 invertedLayer 0 0 = wstart invertedLayer 0 0 ∧
    wend32 invertedLayer 0 0 = wend invertedLayer 0 0 := by decide!

theorem extents32_wrappedLayer :
    roiWidth32 wrappedLayer 0 = roiWidth wrappedLayer 0 ∧
    wstart32 wrappedLayer 0 2 = wstart wrappedLayer 0 2 ∧
    wend32 wrappedLayer 0 2 = wend wrappedLayer 0 2 ∧
    hstart32 wrappedLayer 0 0 = hstart wrappedLayer 0 0 ∧
    hend32 wrappedLayer 0 0 = hend wrappedLayer 0 0 ∧
    (wrappedLayer.forward32 (fun _ => 0) (fun _ => 7)).map
      (fun r => (r.outputData 2, r.argmaxData 2)) = some (4, 3) := by decide!

theorem sizes32_smallInvertedLayer :
    roiHeight32 smallInvertedLayer 0 = roiHeight smallInvertedLayer 0 ∧
    roiWidth32 smallInvertedLayer 0 = roiWidth smallInvertedLayer 0 := by decide!

/-! ## Conversions in the defined range -/

theorem scaled32_start_end (L : ROIPoolLayer) (roi : Nat) :
    roiStartW32 L roi = toSizeT (scaled32 L roi 1) ∧
    roiStartH32 L roi = toSizeT (scaled32 L roi 2) ∧
    roiEndW32 L roi = toSizeT (scaled32 L roi 3) ∧
    roiEndH32 L roi = toSizeT (scaled32 L roi 4) := ⟨rfl, rfl, rfl, rfl⟩

/-- A rounded coordinate in `[0, 2 ^ 64)` is converted to `size_t` without change. -/
theorem toSizeT_stdRound (q : ℚ) (h0 : 0 ≤ stdRound q) (h1 : stdRound q < 2 ^ 64) :
    ((toSizeT (stdRound q) : Nat) : ℚ) = stdRound q := by
  have hz : ∃ z : Int, stdRound q = (z : ℚ) := by
    unfold stdRound
    split
    · exact ⟨_, rfl⟩
    · exact ⟨_, rfl⟩
  obtain ⟨z, hz⟩ := hz
  rw [hz] at h0 h1 ⊢
  have z0 : 0 ≤ z := by exact_mod_cast h0
  have z1 : z < 2 ^ 64 := by exact_mod_cast h1
  rw [toSizeT_intCast, wrap_of_nonneg_lt z z0 z1]
  have : ((z.toNat : Nat) : Int) = z := Int.toNat_of_nonneg z0
  exact_mod_cast congrArg (fun t : Int => (t : ℚ)) this

/-- Rounded coordinates `0 <= s <= e` below `2 ^ 64` give `size_t` values in that order. -/
theorem toSizeT_scaled32_le (L : ROIPoolLayer) (roi i j : Nat)
    (h0 : 0 ≤ scaled32 L roi i) (hle : scaled32 L roi i ≤ scaled32 L roi j)
    (h64 : scaled32 L roi j < 2 ^ 64) :
    ((toSizeT (scaled32 L roi i) : Nat) : ℚ) = scaled32 L roi i ∧
    ((toSizeT (scaled32 L roi j) : Nat) : ℚ) = scaled32 L roi j ∧
    toSizeT (scaled32 L roi i) ≤ toSizeT (scaled32 L roi j) := by
  have e1 := toSizeT_stdRound _ h0 (lt_of_le_of_lt hle h64)
  have e2 := toSizeT_stdRound _ (le_trans h0 hle) h64
  refine ⟨e1, e2, ?_⟩
  have : ((toSizeT (scaled32 L roi i) : Nat) : ℚ) ≤ ((toSizeT (scaled32 L roi j) : Nat) : ℚ) := by
    unfold scaled32 at hle ⊢
    rw [e1, e2]
    exact hle
  exact_mod_cast this

/-! ## The properties of the specification -/

/-- C1, the code at the failing input: on a 2 x 2 plane holding -4, -3, -2, -1 and pooled
to one cell, the bin is the whole plane and its maximum is -1, yet `forward` (from a
zero-filled output) leaves output 0 and does not write the argmax cell. -/
theorem forward_negative_bin (arg0 : Nat → ℚ) :
    scanned negLayer 0 0 0 = [(0, 0), (0, 1), (1, 0), (1, 1)] ∧
    (∀ x ∈ scanned negLayer 0 0 0, featAt negLayer 0 x ≤ -1) ∧
    featAt negLayer 0 (1, 1) = -1 ∧
    ∃ r, negLayer.forward (fun _ => 0) arg0 = some r ∧
      r.outputData 0 = 0 ∧ r.argmaxData 0 = arg0 0 := by
  refine ⟨by decide!, by decide!, by decide!, ?_⟩
  obtain ⟨r, hr, hcell⟩ := forward_cell negLayer (fun _ => 0) arg0 (by decide!)
  have h := hcell 0 0 0 0 (by decide) (by decide) (by decide) (by decide)
  have hi : cellIndex negLayer 0 0 0 0 = 0 := by decide
  have hle : ∀ x ∈ scanned negLayer (0 * negLayer.roiOffset) 0 0,
      featAt negLayer (planeBase negLayer 0 0) x ≤ 0 := by decide!
  rw [hi, cellVal_of_le negLayer _ _ 0 0 _ (by decide!) hle] at h
  exact ⟨r, hr, congrArg Prod.fst h, congrArg Prod.snd h⟩

/-- C3, the code at the failing input: on a plane whose largest value sits at flat index 0
`forward` stores the valid index 0, and `backward` with gradient 1 at that cell then leaves
every input-gradient element at its prior value, the element at index 0 included. -/
theorem backward_drops_index_zero (arg0 g : Nat → ℚ) :
    ∃ r, peakLayer.forward (fun _ => 0) arg0 = some r ∧
      r.outputData 0 = 9 ∧ r.argmaxData 0 = 0 ∧
      ∀ j, peakLayer.backward r.argmaxData (fun i => if i = 0 then 1 else 0) g j = g j := by
  obtain ⟨r, hr, hcell⟩ := forward_cell peakLayer (fun _ => 0) arg0 (by decide!)
  have h := hcell 0 0 0 0 (by decide) (by decide) (by decide) (by decide)
  have hval : cellVal peakLayer (0 * peakLayer.roiOffset) (planeBase peakLayer 0 0) 0 0 (0, 0)
      = (9, 0) := by decide!
  rw [cellVal_indep peakLayer _ _ 0 0 0 0 _ (by rw [hval]; norm_num), hval] at h
  have hi : cellIndex peakLayer 0 0 0 0 = 0 := by decide
  rw [hi] at h
  have ho : r.outputData 0 = 9 := congrArg Prod.fst h
  have ha : r.argmaxData 0 = 0 := congrArg Prod.snd h
  refine ⟨r, hr, ho, ha, fun j => ?_⟩
  rw [backward_apply]
  have hz : routed peakLayer r.argmaxData (fun i => if i = 0 then 1 else 0) j = 0 := by
    simp [routed, cellGrad, peakLayer, channels_, width_, height_, cellIndex, ha]
  rw [hz, add_zero]

/-- C5, the code at the failing input: on a 2 x 2 plane of zeros pooled to one cell, with
the argmax buffer holding 9 before the call, `forward` leaves output 0 and argmax 9, which
is neither the sentinel -1 nor an index below `height * width = 4`. -/
theorem forward_stale_argmax :
    height_ zeroLayer * width_ zeroLayer = 4 ∧
    ∃ r, zeroLayer.forward (fun _ => 0) (fun _ => 9) = some r ∧
      r.outputData 0 = 0 ∧ r.argmaxData 0 = 9 ∧
      ¬ (r.argmaxData 0 = -1 ∨ ∃ i : Nat, i < 4 ∧ r.argmaxData 0 = (i : ℚ)) := by
  refine ⟨by decide, ?_⟩
  obtain ⟨r, hr, hcell⟩ := forward_cell zeroLayer (fun _ => 0) (fun _ => 9) (by decide!)
  have h := hcell 0 0 0 0 (by decide) (by decide) (by decide) (by decide)
  have hi : cellIndex zeroLayer 0 0 0 0 = 0 := by decide
  rw [hi, cellVal_of_le zeroLayer _ _ 0 0 _ (by decide!) (by decide!)] at h
  have ha : r.argmaxData 0 = 9 := congrArg Prod.snd h
  refine ⟨r, hr, congrArg Prod.fst h, ha, ?_⟩
  rw [ha]
  rintro (h1 | ⟨i, hi4, h2⟩)
  · norm_num at h1
  · have : i = 9 := by exact_mod_cast h2.symm
    omega

/-- C7, the code at the failing input: for the inverted region with rows from
`2 ^ 40 + 2 ^ 17` to `2 ^ 17 - 1` (both scaled coordinates non-negative) on a plane of
262144 rows, the unsigned region height is `2 ^ 64 - 2 ^ 40` and the only pooled cell gets
`hstart = 262144` and `hend = 131072`, so that `hend < hstart`. -/
theorem inverted_region_extents :
    0 ≤ invertedLayer.bottomROIs 2 * invertedLayer.spatialScale_ ∧
    0 ≤ invertedLayer.bottomROIs 4 * invertedLayer.spatialScale_ ∧
    roiStartH invertedLayer 0 = 2 ^ 40 + 2 ^ 17 ∧
    roiEndH invertedLayer 0 = 2 ^ 17 - 1 ∧
    roiHeight invertedLayer 0 = 2 ^ 64 - 2 ^ 40 ∧
    height_ invertedLayer = 262144 ∧
    hstart invertedLayer 0 0 = 262144 ∧
    hend invertedLayer 0 0 = 131072 := by decide!

/-- C8: on the 1 x 1 x 4 x 4 feature map holding 0..15 in row-major order, with the single
region `(0, 0, 0, 3, 3)`, scale 1 and a 2 x 2 pooled grid, the bins are the four 2 x 2
quadrants and `forward`, started from a zero-filled output, returns the pooled output
`[5, 7, 13, 15]` and the argmax indices `[5, 7, 13, 15]`, whatever the argmax buffer held
before. -/
theorem scenario_forward (arg0 : Nat → ℚ) :
    (List.range 2).map (fun ph => (hstart scenarioLayer 0 ph, hend scenarioLayer 0 ph))
        = [(0, 2), (2, 4)] ∧
    (List.range 2).map (fun pw => (wstart scenarioLayer 0 pw, wend scenarioLayer 0 pw))
        = [(0, 2), (2, 4)] ∧
    ∃ r, scenarioLayer.forward (fun _ => 0) arg0 = some r ∧
      List.map r.outputData [0, 1, 2, 3] = [5, 7, 13, 15] ∧
      List.map r.argmaxData [0, 1, 2, 3] = [5, 7, 13, 15] := by
  refine ⟨by decide!, by decide!, ?_⟩
  obtain ⟨r, hr, hcell⟩ := forward_cell scenarioLayer (fun _ => 0) arg0 (by decide!)
  have key : ∀ ph pw, ph < 2 → pw < 2 → ∀ v : ℚ,
      cellVal scenarioLayer (0 * scenarioLayer.roiOffset) (planeBase scenarioLayer 0 0) ph pw
        (0, 0) = (v, v) → v ≠ 0 →
      r.outputData (cellIndex scenarioLayer 0 0 ph pw) = v ∧
      r.argmaxData (cellIndex scenarioLayer 0 0 ph pw) = v := by
    intro ph pw hph hpw v hval hne
    have h := hcell 0 0 ph pw (by decide) (by decide) hph hpw
    rw [cellVal_indep scenarioLayer _ _ ph pw 0 0 _ (by rw [hval]; exact hne), hval] at h
    exact ⟨congrArg Prod.fst h, congrArg Prod.snd h⟩
  have h00 := key 0 0 (by decide) (by decide) 5 (by decide!) (by norm_num)
  have h01 := key 0 1 (by decide) (by decide) 7 (by decide!) (by norm_num)
  have h10 := key 1 0 (by decide) (by decide) 13 (by decide!) (by norm_num)
  have h11 := key 1 1 (by decide) (by decide) 15 (by decide!) (by norm_num)
  have i00 : cellIndex scenarioLayer 0 0 0 0 = 0 := by decide
  have i01 : cellIndex scenarioLayer 0 0 0 1 = 1 := by decide
  have i10 : cellIndex scenarioLayer 0 0 1 0 = 2 := by decide
  have i11 : cellIndex scenarioLayer 0 0 1 1 = 3 := by decide
  rw [i00] at h00
  rw [i01] at h01
  rw [i10] at h10
  rw [i11] at h11
  refine ⟨r, hr, ?_, ?_⟩
  · simp only [List.map, h00.1, h01.1, h10.1, h11.1]
  · simp only [List.map, h00.2, h01.2, h10.2, h11.2]

/-- C9, the code at the failing input: for the inverted region with columns from `2 ^ 63`
to `2 ^ 62` on a plane of width 4, the start column is far beyond the width, yet the
unsigned arithmetic gives pooled column 2 the bin of columns 0 to 3, and `forward` leaves
output 4 and argmax 3 in that cell instead of 0 and -1. -/
theorem outside_region_nonempty (arg0 : Nat → ℚ) :
    width_ wrappedLayer = 4 ∧
    roiStartW wrappedLayer 0 = 2 ^ 63 ∧
    roiWidth wrappedLayer 0 = 2 ^ 63 + 2 ^ 62 + 1 ∧
    (wstart wrappedLayer 0 2, wend wrappedLayer 0 2) = (0, 4) ∧
    (hstart wrappedLayer 0 0, hend wrappedLayer 0 0) = (0, 1) ∧
    ∃ r, wrappedLayer.forward (fun _ => 0) arg0 = some r ∧
      r.outputData (cellIndex wrappedLayer 0 0 0 2) = 4 ∧
      r.argmaxData (cellIndex wrappedLayer 0 0 0 2) = 3 := by
  refine ⟨by decide, by decide!, by decide!, by decide!, by decide!, ?_⟩
  obtain ⟨r, hr, hcell⟩ := forward_cell wrappedLayer (fun _ => 0) arg0 (by decide!)
  have h := hcell 0 0 0 2 (by decide) (by decide) (by decide) (by decide)
  have hval : cellVal wrappedLayer (0 * wrappedLayer.roiOffset) (planeBase wrappedLayer 0 0)
      0 2 (0, 0) = (4, 3) := by decide!
  rw [cellVal_indep wrappedLayer _ _ 0 2 0 0 _ (by rw [hval]; norm_num), hval] at h
  exact ⟨r, hr, congrArg Prod.fst h, congrArg Prod.snd h⟩

/-- C10: round trip.  When every region passes the batch-index check and a plane fits the
range of `size_t`, running `forward` (from a zero-filled output) and then `backward` with
the pooled output as output gradient, on a zero-filled input-gradient buffer, leaves a
non-zero value only at positions `batchOffset * batchIndex + channel * height * width + i`
where `i` is the index stored in the argmax map for some cell of that region and channel. -/
theorem round_trip_support (L : ROIPoolLayer) (arg0 : Nat → ℚ)
    (hv : ∀ n, n < L.numROIs → roiBatchIdx L (n * L.roiOffset) < L.batchSize)
    (hsz : height_ L * width_ L ≤ 2 ^ 64) :
    ∃ r, L.forward (fun _ => 0) arg0 = some r ∧
      ∀ j, L.backward r.argmaxData r.outputData (fun _ => 0) j ≠ 0 →
        ∃ n c ph pw : Nat, ∃ i : Nat, n < L.numROIs ∧ c < channels_ L ∧ ph < L.pooledHeight_ ∧
          pw < L.pooledWidth_ ∧ r.argmaxData (cellIndex L n c ph pw) = (i : ℚ) ∧
          j = batchOffset L * roiBatchIdx L (n * L.roiOffset) + c * (height_ L * width_ L) + i := by
  obtain ⟨r, hr, hcell⟩ := forward_cell L (fun _ => 0) arg0 hv
  refine ⟨r, hr, fun j hj => ?_⟩
  rw [backward_apply, zero_add] at hj
  obtain ⟨n, hn, h1⟩ := Finset.exists_ne_zero_of_sum_ne_zero hj
  obtain ⟨c, hc, h2⟩ := Finset.exists_ne_zero_of_sum_ne_zero h1
  obtain ⟨ph, hph, h3⟩ := Finset.exists_ne_zero_of_sum_ne_zero h2
  obtain ⟨pw, hpw, h4⟩ := Finset.exists_ne_zero_of_sum_ne_zero h3
  rw [Finset.mem_range] at hn hc hph hpw
  unfold cellGrad at h4
  split at h4
  next hcond =>
    obtain ⟨_, hj'⟩ := hcond
    have hval := hcell n c ph pw hn hc hph hpw
    rw [cellVal_eq_scanFold] at hval
    rcases scanFold_cases L (planeBase L n c) (scanned L (n * L.roiOffset) ph pw)
      (if isEmpty L (n * L.roiOffset) ph pw then (0, -1)
        else (0, arg0 (cellIndex L n c ph pw))) with hkeep | ⟨x, hx, hres, _⟩
    · exfalso
      rw [hkeep] at hval
      have ho : r.outputData (cellIndex L n c ph pw) = 0 := by
        have := congrArg Prod.fst hval
        by_cases he : isEmpty L (n * L.roiOffset) ph pw = true
        · simpa [he] using this
        · simpa [he] using this
      exact h4 ho
    · rw [hres] at hval
      have ha : r.argmaxData (cellIndex L n c ph pw) = (flatIndex L x : ℚ) :=
        congrArg Prod.snd hval
      have hlt : flatIndex L x < 2 ^ 64 :=
        lt_of_lt_of_le (flatIndex_lt_of_mem L _ ph pw x hx) hsz
      refine ⟨n, c, ph, pw, flatIndex L x, hn, hc, hph, hpw, ha, ?_⟩
      rw [hj', ha, toSizeT_natCast_of_lt _ hlt]
      rfl
  next => exact absurd rfl h4

/-- Witness for C10: the round trip on the scenario of the specification. -/
theorem round_trip_support_witness :
    ∃ r, scenarioLayer.forward (fun _ => 0) (fun _ => 0) = some r ∧
      ∀ j, scenarioLayer.backward r.argmaxData r.outputData (fun _ => 0) j ≠ 0 →
        ∃ n c ph pw : Nat, ∃ i : Nat, n < scenarioLayer.numROIs ∧ c < channels_ scenarioLayer ∧
          ph < scenarioLayer.pooledHeight_ ∧ pw < scenarioLayer.pooledWidth_ ∧
          r.argmaxData (cellIndex scenarioLayer n c ph pw) = (i : ℚ) ∧
          j = batchOffset scenarioLayer * roiBatchIdx scenarioLayer (n * scenarioLayer.roiOffset)
              + c * (height_ scenarioLayer * width_ scenarioLayer) + i :=
  round_trip_support scenarioLayer (fun _ => 0) (by decide!) (by decide)

/-- C12: regions are pooled independently.  Take two runs of `forward` with the same
configuration and the same prior output: one on the inputs of `L`, one on another batch of
regions and another feature map.  If both batches pass the check, agree on row `n`, and the
feature maps agree on the sample that region `n` references (other rows and other samples
may differ), then the pooled outputs of region `n` are equal. -/
theorem regions_independent (L : ROIPoolLayer) (N : Nat) (rois data out0 arg0 arg0' : Nat → ℚ)
    (n : Nat)
    (hv : ∀ m, m < L.numROIs → roiBatchIdx L (m * L.roiOffset) < L.batchSize)
    (hv' : ∀ m, m < N →
      roiBatchIdx (L.withInputs N rois data) (m * L.roiOffset) < L.batchSize)
    (hn : n < L.numROIs) (hn' : n < N)
    (hrow : ∀ k, k < 5 → rois (n * L.roiOffset + k) = L.bottomROIs (n * L.roiOffset + k))
    (hdata : ∀ i, i < L.inputWidth →
      data (batchOffset L * roiBatchIdx L (n * L.roiOffset) + i)
        = L.bottomData (batchOffset L * roiBatchIdx L (n * L.roiOffset) + i)) :
    ∃ r r', L.forward out0 arg0 = some r ∧
      (L.withInputs N rois data).forward out0 arg0' = some r' ∧
      ∀ c ph pw, c < channels_ L → ph < L.pooledHeight_ → pw < L.pooledWidth_ →
        r'.outputData (cellIndex L n c ph pw) = r.outputData (cellIndex L n c ph pw) := by
  obtain ⟨r, hr, hcell⟩ := forward_cell L out0 arg0 hv
  obtain ⟨r', hr', hcell'⟩ := forward_cell (L.withInputs N rois data) out0 arg0' hv'
  refine ⟨r, r', hr, hr', fun c ph pw hc hph hpw => ?_⟩
  have h1 := congrArg Prod.fst (hcell n c ph pw hn hc hph hpw)
  have h2 := congrArg Prod.fst (hcell' n c ph pw hn' hc hph hpw)
  have hb : roiBatchIdx (L.withInputs N rois data) (n * L.roiOffset)
      = roiBatchIdx L (n * L.roiOffset) :=
    (geometry_congr L N rois data (n * L.roiOffset) hrow).1
  have hpb : planeBase (L.withInputs N rois data) n c = planeBase L n c := by
    show batchOffset L * roiBatchIdx (L.withInputs N rois data) (n * L.roiOffset)
      + c * channelOffset L = planeBase L n c
    rw [hb]
    rfl
  have hcv := cellVal_congr L N rois data (n * L.roiOffset) (planeBase L n c) ph pw
    (out0 (cellIndex L n c ph pw), arg0' (cellIndex L n c ph pw)) hrow
    (fun i hi => by
      have hbd := plane_offset_bounds L n c i hc hi (hv n hn)
      have e : planeBase L n c + i
          = batchOffset L * roiBatchIdx L (n * L.roiOffset)
            + (c * (height_ L * width_ L) + i) := by
        show batchOffset L * roiBatchIdx L (n * L.roiOffset) + c * (height_ L * width_ L) + i
          = _
        omega
      rw [e]
      refine hdata _ ?_
      have h4 : batchOffset L * (roiBatchIdx L (n * L.roiOffset) + 1)
          = batchOffset L * roiBatchIdx L (n * L.roiOffset) + L.inputWidth := by
        unfold batchOffset; ring
      have := hbd.1
      rw [e, h4] at this
      omega)
  have h2' : r'.outputData (cellIndex L n c ph pw)
      = (cellVal (L.withInputs N rois data) (n * L.roiOffset) (planeBase L n c) ph pw
          (out0 (cellIndex L n c ph pw), arg0' (cellIndex L n c ph pw))).1 := by
    rw [← hpb]
    exact h2
  have h1' : r.outputData (cellIndex L n c ph pw)
      = (cellVal L (n * L.roiOffset) (planeBase L n c) ph pw
          (out0 (cellIndex L n c ph pw), arg0 (cellIndex L n c ph pw))).1 := h1
  rw [h2', hcv, h1']
  exact cellVal_fst_indep L _ _ ph pw _ _ _

/-- Witness for C12: region 0 of the scenario, run again as the first of two regions on a
feature map that differs outside the first sample. -/
theorem regions_independent_witness :
    ∃ r r', scenarioLayer.forward (fun _ => 0) (fun _ => 0) = some r ∧
      (scenarioLayer.withInputs 2 (ofList [0, 0, 0, 3, 3, 0, 1, 1, 2, 2])
          (fun i => if i < 16 then (i : ℚ) else 99)).forward (fun _ => 0) (fun _ => 5)
        = some r' ∧
      ∀ c ph pw, c < channels_ scenarioLayer → ph < scenarioLayer.pooledHeight_ →
        pw < scenarioLayer.pooledWidth_ →
        r'.outputData (cellIndex scenarioLayer 0 c ph pw)
          = r.outputData (cellIndex scenarioLayer 0 c ph pw) :=
  regions_independent scenarioLayer 2 (ofList [0, 0, 0, 3, 3, 0, 1, 1, 2, 2])
    (fun i => if i < 16 then (i : ℚ) else 99) (fun _ => 0) (fun _ => 0) (fun _ => 5) 0
    (by decide!) (by decide!) (by decide) (by decide) (by decide!) (by decide!)

/-- C13, the code at the failing input: on a 2 x 2 plane holding 0, 0, -1, 0 and pooled to
one cell, the maximum 0 of the bin is attained at the flat indices 0, 1 and 3, the earliest
being 0, yet `forward` (from a zero-filled output) records no argmax: the cell keeps the
value the argmax buffer held before the call. -/
theorem forward_tie_unrecorded (arg0 : Nat → ℚ) :
    scanned tieLayer 0 0 0 = [(0, 0), (0, 1), (1, 0), (1, 1)] ∧
    (List.map (featAt tieLayer 0) (scanned tieLayer 0 0 0) = [0, 0, -1, 0]) ∧
    ∃ r, tieLayer.forward (fun _ => 0) arg0 = some r ∧
      r.outputData 0 = 0 ∧ r.argmaxData 0 = arg0 0 := by
  refine ⟨by decide!, by decide!, ?_⟩
  obtain ⟨r, hr, hcell⟩ := forward_cell tieLayer (fun _ => 0) arg0 (by decide!)
  have h := hcell 0 0 0 0 (by decide) (by decide) (by decide) (by decide)
  have hi : cellIndex tieLayer 0 0 0 0 = 0 := by decide
  have hle : ∀ x ∈ scanned tieLayer (0 * tieLayer.roiOffset) 0 0,
      featAt tieLayer (planeBase tieLayer 0 0) x ≤ 0 := by decide!
  rw [hi, cellVal_of_le tieLayer _ _ 0 0 _ (by decide!) hle] at h
  exact ⟨r, hr, congrArg Prod.fst h, congrArg Prod.snd h⟩

/-- C14, the code at the failing input: for the inverted region with rows from 5 back to 2
and columns from 7 back to 3 the integer value `max (roiEnd - roiStart + 1) 1` is 1, but
the unsigned computation of lines 73 and 74 gives height `2 ^ 64 - 2` and width
`2 ^ 64 - 3`. -/
theorem inverted_region_size :
    roiStartH smallInvertedLayer 0 = 5 ∧ roiEndH smallInvertedLayer 0 = 2 ∧
    roiStartW smallInvertedLayer 0 = 7 ∧ roiEndW smallInvertedLayer 0 = 3 ∧
    max ((roiEndH smallInvertedLayer 0 : Int) - (roiStartH smallInvertedLayer 0 : Int) + 1) 1 = 1 ∧
    max ((roiEndW smallInvertedLayer 0 : Int) - (roiStartW smallInvertedLayer 0 : Int) + 1) 1 = 1 ∧
    roiHeight smallInvertedLayer 0 = 2 ^ 64 - 2 ∧
    roiWidth smallInvertedLayer 0 = 2 ^ 64 - 3 := by decide!

/-- C16, counterexample.  For rows 0 to 56 of a plane of 57 rows pooled to 7 rows, a region
inside the feature map, the end of the last bin before clamping is row 58, beyond the
height 57, so that clamping does take effect (`hend = 57`).  For rows 1 to `2 ^ 25` of a
plane of `2 ^ 25 + 1` rows pooled to `2 ^ 25` rows, again a region inside the feature map,
the pooled row `2 ^ 24` is an empty bin, because `2 ^ 24 + 1` is rounded to `2 ^ 24` when it
is converted to `real`. -/
theorem inside_region_clamped :
    (roiStartH32 sevenBinLayer 0 ≤ roiEndH32 sevenBinLayer 0 ∧
      roiEndH32 sevenBinLayer 0 < height_ sevenBinLayer ∧
      roiStartW32 sevenBinLayer 0 ≤ roiEndW32 sevenBinLayer 0 ∧
      roiEndW32 sevenBinLayer 0 < width_ sevenBinLayer ∧
      uadd (toSizeT (stdCeil (fl32 (fl32 ((6 + 1 : Nat) : ℚ) * binSizeH32 sevenBinLayer 0))))
        (roiStartH32 sevenBinLayer 0) = 58 ∧
      height_ sevenBinLayer = 57 ∧
      hend32 sevenBinLayer 0 6 = 57 ∧
      hend32 sevenBinLayer 0 6
        ≠ uadd (toSizeT (stdCeil (fl32 (fl32 ((6 + 1 : Nat) : ℚ)
            * binSizeH32 sevenBinLayer 0)))) (roiStartH32 sevenBinLayer 0)) ∧
    (roiStartH32 hugePoolLayer 0 ≤ roiEndH32 hugePoolLayer 0 ∧
      roiEndH32 hugePoolLayer 0 < height_ hugePoolLayer ∧
      roiStartW32 hugePoolLayer 0 ≤ roiEndW32 hugePoolLayer 0 ∧
      roiEndW32 hugePoolLayer 0 < width_ hugePoolLayer ∧
      16777216 < hugePoolLayer.pooledHeight_ ∧
      hstart32 hugePoolLayer 0 16777216 = 16777217 ∧
      hend32 hugePoolLayer 0 16777216 = 16777217 ∧
      ¬ (hstart32 hugePoolLayer 0 16777216 < hend32 hugePoolLayer 0 16777216)) := by decide!

/-- C16, amended: for every region lying inside the feature map after scaling (the rounded
scaled coordinates satisfy `0 <= roiStartH <= roiEndH < height` and
`0 <= roiStartW <= roiEndW < width`), with the height, the width and both pooled sizes at
most `2 ^ 22`, and every pooled cell `(ph, pw)`, the bin is not empty (`hstart < hend` and
`wstart < wend`) and its start is not clamped: it is the converted floor plus the region
start.  Its end is the converted ceiling plus the region start, clamped to the height or
width; before clamping it is at most `roiEnd + 2`. -/
theorem inside_region_bins32 (L : ROIPoolLayer) (roi ph pw : Nat)
    (hH : 0 ≤ scaled32 L roi 2 ∧ scaled32 L roi 2 ≤ scaled32 L roi 4
      ∧ scaled32 L roi 4 < (height_ L : ℚ))
    (hW : 0 ≤ scaled32 L roi 1 ∧ scaled32 L roi 1 ≤ scaled32 L roi 3
      ∧ scaled32 L roi 3 < (width_ L : ℚ))
    (hph : ph < L.pooledHeight_) (hpw : pw < L.pooledWidth_)
    (hsz : height_ L ≤ 2 ^ 22 ∧ width_ L ≤ 2 ^ 22 ∧
      L.pooledHeight_ ≤ 2 ^ 22 ∧ L.pooledWidth_ ≤ 2 ^ 22) :
    hstart32 L roi ph < hend32 L roi ph ∧ wstart32 L roi pw < wend32 L roi pw ∧
    hstart32 L roi ph
      = toSizeT (stdFloor (fl32 (fl32 (ph : ℚ) * binSizeH32 L roi))) + roiStartH32 L roi ∧
    wstart32 L roi pw
      = toSizeT (stdFloor (fl32 (fl32 (pw : ℚ) * binSizeW32 L roi))) + roiStartW32 L roi ∧
    hend32 L roi ph
      = min (toSizeT (stdCeil (fl32 (fl32 ((ph + 1 : Nat) : ℚ) * binSizeH32 L roi)))
          + roiStartH32 L roi) (height_ L) ∧
    wend32 L roi pw
      = min (toSizeT (stdCeil (fl32 (fl32 ((pw + 1 : Nat) : ℚ) * binSizeW32 L roi)))
          + roiStartW32 L roi) (width_ L) ∧
    toSizeT (stdCeil (fl32 (fl32 ((ph + 1 : Nat) : ℚ) * binSizeH32 L roi)))
        + roiStartH32 L roi ≤ roiEndH32 L roi + 2 ∧
    toSizeT (stdCeil (fl32 (fl32 ((pw + 1 : Nat) : ℚ) * binSizeW32 L roi)))
        + roiStartW32 L roi ≤ roiEndW32 L roi + 2 := by
  have b22 : ((2 : ℚ) ^ 22) < 2 ^ 64 := by norm_num
  have hh : (height_ L : ℚ) ≤ 2 ^ 22 := by exact_mod_cast hsz.1
  have hw : (width_ L : ℚ) ≤ 2 ^ 22 := by exact_mod_cast hsz.2.1
  obtain ⟨_, eH, leH⟩ := toSizeT_scaled32_le L roi 2 4 hH.1 hH.2.1
    (lt_trans (lt_of_lt_of_le hH.2.2 hh) b22)
  obtain ⟨_, eW, leW⟩ := toSizeT_scaled32_le L roi 1 3 hW.1 hW.2.1
    (lt_trans (lt_of_lt_of_le hW.2.2 hw) b22)
  have hHb : roiEndH32 L roi < height_ L := by
    have : ((toSizeT (scaled32 L roi 4) : Nat) : ℚ) < (height_ L : ℚ) := by
      rw [eH]; exact hH.2.2
    exact_mod_cast this
  have hWb : roiEndW32 L roi < width_ L := by
    have : ((toSizeT (scaled32 L roi 3) : Nat) : ℚ) < (width_ L : ℚ) := by
      rw [eW]; exact hW.2.2
    exact_mod_cast this
  obtain ⟨h1, h2, h3, h4⟩ := bin32_inside (roiStartH32 L roi) (roiEndH32 L roi)
    L.pooledHeight_ ph (height_ L) leH hHb hsz.1 hsz.2.2.1 hph
  obtain ⟨w1, w2, w3, w4⟩ := bin32_inside (roiStartW32 L roi) (roiEndW32 L roi)
    L.pooledWidth_ pw (width_ L) leW hWb hsz.2.1 hsz.2.2.2 hpw
  exact ⟨h1, w1, h2, w2, h3, w3, h4, w4⟩

/-- Witness for C16: the last pooled row of the region of 57 rows pooled to 7, whose end is
clamped from 58 to 57. -/
theorem inside_region_bins32_witness :
    hstart32 sevenBinLayer 0 6 < hend32 sevenBinLayer 0 6 ∧
    wstart32 sevenBinLayer 0 0 < wend32 sevenBinLayer 0 0 ∧
    hstart32 sevenBinLayer 0 6
      = toSizeT (stdFloor (fl32 (fl32 ((6 : Nat) : ℚ) * binSizeH32 sevenBinLayer 0)))
        + roiStartH32 sevenBinLayer 0 ∧
    wstart32 sevenBinLayer 0 0
      = toSizeT (stdFloor (fl32 (fl32 ((0 : Nat) : ℚ) * binSizeW32 sevenBinLayer 0)))
        + roiStartW32 sevenBinLayer 0 ∧
    hend32 sevenBinLayer 0 6
      = min (toSizeT (stdCeil (fl32 (fl32 ((6 + 1 : Nat) : ℚ) * binSizeH32 sevenBinLayer 0)))
          + roiStartH32 sevenBinLayer 0) (height_ sevenBinLayer) ∧
    wend32 sevenBinLayer 0 0
      = min (toSizeT (stdCeil (fl32 (fl32 ((0 + 1 : Nat) : ℚ) * binSizeW32 sevenBinLayer 0)))
          + roiStartW32 sevenBinLayer 0) (width_ sevenBinLayer) ∧
    toSizeT (stdCeil (fl32 (fl32 ((6 + 1 : Nat) : ℚ) * binSizeH32 sevenBinLayer 0)))
        + roiStartH32 sevenBinLayer 0 ≤ roiEndH32 sevenBinLayer 0 + 2 ∧
    toSizeT (stdCeil (fl32 (fl32 ((0 + 1 : Nat) : ℚ) * binSizeW32 sevenBinLayer 0)))
        + roiStartW32 sevenBinLayer 0 ≤ roiEndW32 sevenBinLayer 0 + 2 :=
  inside_region_bins32 sevenBinLayer 0 6 0 (by decide!) (by decide!) (by decide) (by decide)
    (by decide)

/-- C17, counterexample.  For rows 0 to 2 pooled to 21 rows, a region with
`roiEnd >= roiStart` of height 3, the last bin ends before clamping at row 4, not at
`roiStartH + roiHeight = 3`, and on a plane of 5 rows it holds row 3, which is outside
`[roiStartH, roiStartH + roiHeight)`.  For rows 3 to 33554436 pooled to 1 row, a region of
height 33554434, which is rounded to 33554432 when it is converted to `real`, the only bin
ends at row 33554435 although the region extends to row 33554436 inside the plane. -/
theorem bins_overrun_region :
    (roiStartH32 threeRowLayer 0 ≤ roiEndH32 threeRowLayer 0 ∧
      roiStartH32 threeRowLayer 0 = 0 ∧ roiHeight32 threeRowLayer 0 = 3 ∧
      threeRowLayer.pooledHeight_ = 21 ∧
      uadd (toSizeT (stdCeil (fl32 (fl32 ((20 + 1 : Nat) : ℚ) * binSizeH32 threeRowLayer 0))))
        (roiStartH32 threeRowLayer 0) = 4 ∧
      uadd (toSizeT (stdCeil (fl32 (fl32 ((20 + 1 : Nat) : ℚ) * binSizeH32 threeRowLayer 0))))
        (roiStartH32 threeRowLayer 0)
          ≠ roiStartH32 threeRowLayer 0 + roiHeight32 threeRowLayer 0 ∧
      hstart32 threeRowLayer 0 20 ≤ 3 ∧ 3 < hend32 threeRowLayer 0 20 ∧
      ¬ (3 < roiStartH32 threeRowLayer 0 + roiHeight32 threeRowLayer 0)) ∧
    (roiStartH32 tallRegionLayer 0 ≤ roiEndH32 tallRegionLayer 0 ∧
      roiStartH32 tallRegionLayer 0 = 3 ∧ roiHeight32 tallRegionLayer 0 = 33554434 ∧
      tallRegionLayer.pooledHeight_ = 1 ∧ height_ tallRegionLayer = 33554437 ∧
      hstart32 tallRegionLayer 0 0 = 3 ∧ hend32 tallRegionLayer 0 0 = 33554435 ∧
      33554436 < roiStartH32 tallRegionLayer 0 + roiHeight32 tallRegionLayer 0) := by decide!

/-- C17, amended: for every region with `roiEnd >= roiStart` (as rounded scaled coordinates,
the start non-negative and the end below `2 ^ 64 - 2`) whose height and width are at most
`2 ^ 22`, and all positive pooled sizes up to `2 ^ 22`, the first bin starts before clamping
at `roiStart`, the last bin ends before clamping at `roiStart + roiSize` or one row or
column later, consecutive bins satisfy `start (k + 1) <= end k`, every row of
`[roiStartH, roiStartH + roiHeight)` below the height lies in some bin, and every bin lies
in `[roiStartH, roiStartH + roiHeight + 1)` below the height; the same for columns. -/
theorem bins_cover_region32 (L : ROIPoolLayer) (roi : Nat)
    (hPH : 0 < L.pooledHeight_ ∧ L.pooledHeight_ ≤ 2 ^ 22)
    (hPW : 0 < L.pooledWidth_ ∧ L.pooledWidth_ ≤ 2 ^ 22)
    (hH : 0 ≤ scaled32 L roi 2 ∧ scaled32 L roi 2 ≤ scaled32 L roi 4
      ∧ scaled32 L roi 4 - scaled32 L roi 2 + 1 ≤ 2 ^ 22 ∧ scaled32 L roi 4 + 2 < 2 ^ 64)
    (hW : 0 ≤ scaled32 L roi 1 ∧ scaled32 L roi 1 ≤ scaled32 L roi 3
      ∧ scaled32 L roi 3 - scaled32 L roi 1 + 1 ≤ 2 ^ 22 ∧ scaled32 L roi 3 + 2 < 2 ^ 64) :
    (uadd (toSizeT (stdFloor (fl32 (fl32 ((0 : Nat) : ℚ) * binSizeH32 L roi))))
        (roiStartH32 L roi) = roiStartH32 L roi ∧
      (uadd (toSizeT (stdCeil (fl32 (fl32 ((L.pooledHeight_ - 1 + 1 : Nat) : ℚ)
          * binSizeH32 L roi)))) (roiStartH32 L roi) = roiStartH32 L roi + roiHeight32 L roi ∨
        uadd (toSizeT (stdCeil (fl32 (fl32 ((L.pooledHeight_ - 1 + 1 : Nat) : ℚ)
          * binSizeH32 L roi)))) (roiStartH32 L roi)
            = roiStartH32 L roi + roiHeight32 L roi + 1) ∧
      BinsCover32 (hstart32 L roi) (hend32 L roi) L.pooledHeight_ (roiStartH32 L roi)
        (roiHeight32 L roi) (height_ L)) ∧
    (uadd (toSizeT (stdFloor (fl32 (fl32 ((0 : Nat) : ℚ) * binSizeW32 L roi))))
        (roiStartW32 L roi) = roiStartW32 L roi ∧
      (uadd (toSizeT (stdCeil (fl32 (fl32 ((L.pooledWidth_ - 1 + 1 : Nat) : ℚ)
          * binSizeW32 L roi)))) (roiStartW32 L roi) = roiStartW32 L roi + roiWidth32 L roi ∨
        uadd (toSizeT (stdCeil (fl32 (fl32 ((L.pooledWidth_ - 1 + 1 : Nat) : ℚ)
          * binSizeW32 L roi)))) (roiStartW32 L roi)
            = roiStartW32 L roi + roiWidth32 L roi + 1) ∧
      BinsCover32 (wstart32 L roi) (wend32 L roi) L.pooledWidth_ (roiStartW32 L roi)
        (roiWidth32 L roi) (width_ L)) := by
  obtain ⟨sH, eH, leH⟩ := toSizeT_scaled32_le L roi 2 4 hH.1 hH.2.1 (by linarith [hH.2.2.2])
  obtain ⟨sW, eW, leW⟩ := toSizeT_scaled32_le L roi 1 3 hW.1 hW.2.1 (by linarith [hW.2.2.2])
  have hEH : roiEndH32 L roi + 2 < 2 ^ 64 := by
    have : ((toSizeT (scaled32 L roi 4) : Nat) : ℚ) + 2 < 2 ^ 64 := by rw [eH]; exact hH.2.2.2
    exact_mod_cast this
  have hEW : roiEndW32 L roi + 2 < 2 ^ 64 := by
    have : ((toSizeT (scaled32 L roi 3) : Nat) : ℚ) + 2 < 2 ^ 64 := by rw [eW]; exact hW.2.2.2
    exact_mod_cast this
  have hHsz : roiEndH32 L roi - roiStartH32 L roi + 1 ≤ 2 ^ 22 := by
    have h : ((toSizeT (scaled32 L roi 4) : Nat) : ℚ) - ((toSizeT (scaled32 L roi 2) : Nat) : ℚ)
        + 1 ≤ 2 ^ 22 := by rw [eH, sH]; exact hH.2.2.1
    have h' : ((toSizeT (scaled32 L roi 4) : Nat) : Int) - ((toSizeT (scaled32 L roi 2) : Nat) : Int)
        + 1 ≤ 2 ^ 22 := by exact_mod_cast h
    have e4 : roiEndH32 L roi = toSizeT (scaled32 L roi 4) := rfl
    have e2 : roiStartH32 L roi = toSizeT (scaled32 L roi 2) := rfl
    omega
  have hWsz : roiEndW32 L roi - roiStartW32 L roi + 1 ≤ 2 ^ 22 := by
    have h : ((toSizeT (scaled32 L roi 3) : Nat) : ℚ) - ((toSizeT (scaled32 L roi 1) : Nat) : ℚ)
        + 1 ≤ 2 ^ 22 := by rw [eW, sW]; exact hW.2.2.1
    have h' : ((toSizeT (scaled32 L roi 3) : Nat) : Int) - ((toSizeT (scaled32 L roi 1) : Nat) : Int)
        + 1 ≤ 2 ^ 22 := by exact_mod_cast h
    have e3 : roiEndW32 L roi = toSizeT (scaled32 L roi 3) := rfl
    have e1 : roiStartW32 L roi = toSizeT (scaled32 L roi 1) := rfl
    omega
  have hH' : roiStartH32 L roi ≤ roiEndH32 L roi := leH
  have hW' : roiStartW32 L roi ≤ roiEndW32 L roi := leW
  have eqH : roiHeight32 L roi = roiEndH32 L roi - roiStartH32 L roi + 1 :=
    size_of_le _ _ hH' (by omega)
  have eqW : roiWidth32 L roi = roiEndW32 L roi - roiStartW32 L roi + 1 :=
    size_of_le _ _ hW' (by omega)
  have rH := raw32_ends (roiStartH32 L roi) (roiEndH32 L roi) L.pooledHeight_ hH' hEH hHsz
    hPH.1 hPH.2
  have rW := raw32_ends (roiStartW32 L roi) (roiEndW32 L roi) L.pooledWidth_ hW' hEW hWsz
    hPW.1 hPW.2
  have cH := binsCover32_of_le (roiStartH32 L roi) (roiEndH32 L roi) L.pooledHeight_
    (height_ L) hH' hEH hHsz hPH.1 hPH.2
  have cW := binsCover32_of_le (roiStartW32 L roi) (roiEndW32 L roi) L.pooledWidth_
    (width_ L) hW' hEW hWsz hPW.1 hPW.2
  rw [eqH, eqW]
  exact ⟨⟨rH.1, rH.2, cH⟩, ⟨rW.1, rW.2, cW⟩⟩

/-- Witness for C17: the region of 3 rows pooled to 21 rows, whose last bin ends one row
after the region. -/
theorem bins_cover_region32_witness :
    (uadd (toSizeT (stdFloor (fl32 (fl32 ((0 : Nat) : ℚ) * binSizeH32 threeRowLayer 0))))
        (roiStartH32 threeRowLayer 0) = roiStartH32 threeRowLayer 0 ∧
      (uadd (toSizeT (stdCeil (fl32 (fl32 ((threeRowLayer.pooledHeight_ - 1 + 1 : Nat) : ℚ)
          * binSizeH32 threeRowLayer 0)))) (roiStartH32 threeRowLayer 0)
            = roiStartH32 threeRowLayer 0 + roiHeight32 threeRowLayer 0 ∨
        uadd (toSizeT (stdCeil (fl32 (fl32 ((threeRowLayer.pooledHeight_ - 1 + 1 : Nat) : ℚ)
          * binSizeH32 threeRowLayer 0)))) (roiStartH32 threeRowLayer 0)
            = roiStartH32 threeRowLayer 0 + roiHeight32 threeRowLayer 0 + 1) ∧
      BinsCover32 (hstart32 threeRowLayer 0) (hend32 threeRowLayer 0)
        threeRowLayer.pooledHeight_ (roiStartH32 threeRowLayer 0)
        (roiHeight32 threeRowLayer 0) (height_ threeRowLayer)) ∧
    (uadd (toSizeT (stdFloor (fl32 (fl32 ((0 : Nat) : ℚ) * binSizeW32 threeRowLayer 0))))
        (roiStartW32 threeRowLayer 0) = roiStartW32 threeRowLayer 0 ∧
      (uadd (toSizeT (stdCeil (fl32 (fl32 ((threeRowLayer.pooledWidth_ - 1 + 1 : Nat) : ℚ)
          * binSizeW32 threeRowLayer 0)))) (roiStartW32 threeRowLayer 0)
            = roiStartW32 threeRowLayer 0 + roiWidth32 threeRowLayer 0 ∨
        uadd (toSizeT (stdCeil (fl32 (fl32 ((threeRowLayer.pooledWidth_ - 1 + 1 : Nat) : ℚ)
          * binSizeW32 threeRowLayer 0)))) (roiStartW32 threeRowLayer 0)
            = roiStartW32 threeRowLayer 0 + roiWidth32 threeRowLayer 0 + 1) ∧
      BinsCover32 (wstart32 threeRowLayer 0) (wend32 threeRowLayer 0)
        threeRowLayer.pooledWidth_ (roiStartW32 threeRowLayer 0)
        (roiWidth32 threeRowLayer 0) (width_ threeRowLayer)) :=
  bins_cover_region32 threeRowLayer 0 (by decide) (by decide) (by decide!) (by decide!)

/-- C19: the channel count computed by `forward` as two successive integer divisions,
`W / width / height`, equals the single integer division `W / (width * height)`. -/
theorem channels_eq_single_division (L : ROIPoolLayer) :
    channels_ L = L.inputWidth / (width_ L * height_ L) :=
  Nat.div_div_eq_div_mul _ _ _

end ROIPool
